import Mathlib

/-!
ChemicalBalancingUtilityNew: the balancer core

A shallow embedding of `CBU_Balancer.h`.

Modelling conventions
* a `std::string` is a `List Char`; the character classes are the "C" locale
  ones (`std::isupper` is `A-Z`, `std::islower` is `a-z`, `std::isdigit` is `0-9`);
* `unsigned` values are natural numbers reduced modulo `2^32` wherever the
  source adds or multiplies them;
* `int` values are integers, and 32-bit two's-complement wrap-around
  (`wrap32`) is applied wherever the source does `int` arithmetic or converts an
  `unsigned` to `int`;
* a `std::map<std::string, unsigned>` is an association list kept strictly
  increasing in its keys (the order in which the source iterates over it);
* a `double` of the dependence test is an exact fraction, so the test
  `abs(ratio - current_ratio) > 1e-9` is decided exactly;
* a `try { ... } catch` body whose message matters is a function into `Except`
  (or returns the message next to the state), and the function the source
  exposes maps the error to the value of the `catch` branch;
* a place where the source reads outside a container has the result `none`;
  messages written to `std::cerr`, `std::clog` and `std::cout` are not modelled.
-/

namespace CBU_Balancer

/-! ## Definitions -/

/-! ### Formula tokenizer -/

/-- The check of `_is_valid_char`: upper, lower, digit or a parenthesis. -/
def _is_valid_char (c : Char) : Bool :=
  c.isUpper || c.isLower || c.isDigit || (c == '(') || (c == ')')

/-- The messages thrown inside `_compound_str_separator`. -/
inductive SeparatorError where
  | INVALID_CHAR
  | UNMATCHED_PARENTHESES
  | INVALID_CHAR_OR_CHAR_POSITION
  | EMPTY_CONTAINER
  deriving DecidableEq, Repr

/-- The statement `compound_separated.back() += c` on a non-empty deque. -/
def appendToBack (c : Char) : List (List Char) → List (List Char)
  | [] => []
  | [t] => [t ++ [c]]
  | t :: ts => t :: appendToBack c ts

/-- The `for` loop of `_compound_str_separator`, followed by the check after it.
`in_parentheses` is the `int` counter of the source (it moves by one per
character, so it stays far from the ends of the `int` range) and
`compound_separated` the deque built so far. -/
def separatorLoop : List Char → Int → List (List Char) →
    Except SeparatorError (List (List Char))
  | [], in_parentheses, compound_separated =>
    if in_parentheses ≠ 0 then .error .UNMATCHED_PARENTHESES
    else .ok compound_separated
  | c :: cs, in_parentheses, compound_separated =>
    if !_is_valid_char c then .error .INVALID_CHAR
    else
      let in1 := if c == '(' then in_parentheses + 1 else in_parentheses
      if c == '(' && in1 == 1 then separatorLoop cs in1 (compound_separated ++ [[c]])
      else if in1 == 0 then
        if c.isUpper then separatorLoop cs in1 (compound_separated ++ [[c]])
        else if !compound_separated.isEmpty then
          if c.isLower || c.isDigit then
            separatorLoop cs in1 (appendToBack c compound_separated)
          else .error .UNMATCHED_PARENTHESES
        else .error .INVALID_CHAR_OR_CHAR_POSITION
      else if in1 > 0 then
        let in2 := if c == ')' then in1 - 1 else in1
        if !compound_separated.isEmpty then
          separatorLoop cs in2 (appendToBack c compound_separated)
        else .error .EMPTY_CONTAINER
      else .error .UNMATCHED_PARENTHESES

/-- The `try` body of `_compound_str_separator`. -/
def separatorTry (compound_str : List Char) : Except SeparatorError (List (List Char)) :=
  separatorLoop compound_str 0 []

/-- The function `_compound_str_separator`: the tokens, or the empty deque of
the `catch` branch. -/
def _compound_str_separator (compound_str : List Char) : List (List Char) :=
  match separatorTry compound_str with
  | .ok compound_separated => compound_separated
  | .error _ => []

/-! ### Properties the tokenizer is specified by -/

/-- Parentheses are matched from depth `d` on: no `)` is met at depth 0 and the
depth is 0 at the end. -/
def parensMatched : Nat → List Char → Bool
  | d, [] => d == 0
  | d, c :: cs =>
    if c == '(' then parensMatched (d + 1) cs
    else if c == ')' then
      match d with
      | 0 => false
      | k + 1 => parensMatched k cs
    else parensMatched d cs

/-- The first character is a lowercase letter or a digit. -/
def startsLowerOrDigit : List Char → Bool
  | [] => false
  | c :: _ => c.isLower || c.isDigit

/-- The first character is an uppercase letter or `(`. -/
def startsUpperOrOpen : List Char → Bool
  | [] => false
  | c :: _ => c.isUpper || c == '('

/-- The strings the tokenizer is specified to reject: an illegal character,
unmatched parentheses, or a lowercase letter or digit in first position. -/
def rejectedCompound (s : List Char) : Bool :=
  s.any (fun c => !_is_valid_char c) || !parensMatched 0 s || startsLowerOrDigit s

/-- The strings the tokenizer is specified to accept: non-empty, legal characters
only, an uppercase letter or `(` first, parentheses matched. -/
def acceptedCompound (s : List Char) : Bool :=
  !s.isEmpty && s.all _is_valid_char && startsUpperOrOpen s && parensMatched 0 s

/-! ### Composition resolver -/

/-- The call `s.substr(pos, n)` for `pos ≤ s.size()`. -/
def substr (s : List Char) (pos n : Nat) : List Char := (s.drop pos).take n

/-- The value of a decimal digit. -/
def digitValue (c : Char) : Nat := c.toNat - 48

/-- The decimal value of a run of digits. -/
def decimalValue (ds : List Char) : Nat :=
  ds.foldl (fun acc c => acc * 10 + digitValue c) 0

/-- The largest `int`. -/
def INT_MAX : Nat := 2147483647

/-- The call `std::stoi(ds)` on a non-empty run of digits (the only arguments the
source passes): the value, or `none` for the `std::out_of_range` it throws when
the value does not fit an `int`. -/
def stoi (ds : List Char) : Option Nat :=
  if decimalValue ds ≤ INT_MAX then some (decimalValue ds) else none

/-- The backwards scan `for (index = size - 1; index >= 0; index--)` of
`_entity_str_to_entity_and_coef`, on the reversed string: the head of the list is
`entity_str[index]` and `index` is the length of its tail. The result is
`separating_index`, one past the last character that is no digit. The test
`index >= 0` of a `size_t` never fails, so on a string of digits only the scan
leaves the string: `none`. -/
def scanSeparatingIndex : List Char → Option Nat
  | [] => none
  | c :: rest => if !c.isDigit then some (rest.length + 1) else scanSeparatingIndex rest

/-- The function `_entity_str_to_entity_and_coef`. An exception (the empty string,
or `std::stoi` out of range) is caught inside and gives the value-initialised
pair `("", 0)`; `none` is the read outside the string of `scanSeparatingIndex`.
The warning printed for a symbol of three or more characters is not modelled.
`separating_index - 2` is converted to `size_t` by `substr`: for
`separating_index = 1` that is the largest `size_t`, the rest of the string. -/
def _entity_str_to_entity_and_coef (entity_str : List Char) : Option (List Char × Nat) :=
  match entity_str.reverse with
  | [] => some ([], 0)
  | last :: _ =>
    let is_subcompound := entity_str.head? == some '('
    let size := entity_str.length
    if last.isDigit then
      match scanSeparatingIndex entity_str.reverse with
      | none => none
      | some separating_index =>
        let first :=
          if !is_subcompound then substr entity_str 0 separating_index
          else if separating_index < 2 then entity_str.drop 1
          else substr entity_str 1 (separating_index - 2)
        match stoi (substr entity_str separating_index (size - separating_index)) with
        | none => some ([], 0)
        | some coef => some (first, coef)
    else if !is_subcompound then some (entity_str, 1)
    else some (substr entity_str 1 (size - 2), 1)

/-- The comparison `a < b` of two `std::string`s: lexicographic on the characters. -/
def strLt : List Char → List Char → Bool
  | [], [] => false
  | [], _ :: _ => true
  | _ :: _, [] => false
  | a :: as, b :: bs => if a.toNat < b.toNat then true else if a = b then strLt as bs else false

/-- A `std::map<std::string, unsigned>`: the entries in increasing key order. -/
abbrev Composition := List (List Char × Nat)

/-- The modulus of `unsigned` arithmetic. -/
def UINT_MOD : Nat := 4294967296

/-- The statement `composition[key] += x` on `unsigned` values: the entry is
created with 0 when the key is absent. -/
def addToKey (key : List Char) (x : Nat) : Composition → Composition
  | [] => [(key, x % UINT_MOD)]
  | (k, v) :: rest =>
    if key = k then (k, (v + x) % UINT_MOD) :: rest
    else if strLt key k then (key, x % UINT_MOD) :: (k, v) :: rest
    else (k, v) :: addToKey key x rest

/-- The lookup of a key in a composition. -/
def countOf (key : List Char) : Composition → Option Nat
  | [] => none
  | (k, v) :: rest => if key = k then some v else countOf key rest

/-- The invariant of a `std::map`: keys strictly increasing. -/
def SortedKeys (m : Composition) : Prop :=
  m.Pairwise (fun a b => strLt a.1 b.1 = true)

/-- How one `+=` changes a looked-up count: `present` says whether the key is
touched, `n` is the amount added (in `unsigned` arithmetic). -/
def bump (o : Option Nat) (present : Bool) (n : Nat) : Option Nat :=
  if present then some ((o.getD 0 + n) % UINT_MOD) else o

/-- The loop `for (const auto &cs : composition_subcompound)
composition[cs.first] += cs.second * coefficient` (an `unsigned` product). -/
def addScaled (composition_subcompound : Composition) (coefficient : Nat)
    (composition : Composition) : Composition :=
  composition_subcompound.foldl
    (fun acc cs => addToKey cs.1 ((cs.2 * coefficient) % UINT_MOD) acc) composition

/-- The loop `for (const auto& entity_str : entities_str)` of
`_get_compound_composition`; `recur` is the recursive call of
`_get_compound_composition` on the base of a parenthesised token. -/
def compositionLoop (recur : List Char → Option Composition) :
    List (List Char) → Composition → Option Composition
  | [], composition => some composition
  | entity_str :: rest, composition =>
    match _entity_str_to_entity_and_coef entity_str with
    | none => none
    | some (first, second) =>
      if entity_str.head? == some '(' then
        match recur first with
        | none => none
        | some composition_subcompound =>
          compositionLoop recur rest (addScaled composition_subcompound second composition)
      else compositionLoop recur rest (addToKey first second composition)

/-- The function `_get_compound_composition` with a bound on the nesting of its
recursive calls; `none` when the bound is reached (or a token is read outside
its string). An empty token list throws `INVALID_COMPOUND`, which is caught
inside: the result is the empty map. -/
def compositionFuel : Nat → List Char → Option Composition
  | 0, _ => none
  | fuel + 1, compound_str =>
    match _compound_str_separator compound_str with
    | [] => some []
    | entity_str :: rest => compositionLoop (compositionFuel fuel) (entity_str :: rest) []

/-- The function `_get_compound_composition`. Each recursive call is on a string
shorter than its caller's, so the length of the string bounds the nesting. -/
def _get_compound_composition (compound_str : List Char) : Option Composition :=
  compositionFuel (compound_str.length + 1) compound_str

/-! ### The balancer's state -/

/-- The data members of `CBU_Balancer`: three settings, then the per-attempt
state. `_max_coef` is an `unsigned`. -/
structure State where
  _multiple_results : Bool
  _max_coef : Nat
  _log_status : Bool
  _reactants_and_products : List (List Char) × List (List Char)
  _elements : List (List Char)
  _main_matrix : List (List Int)
  _results_coefs : List (List Nat)
  deriving DecidableEq, Repr

/-- The value of `DEFAULT_MAX_COEF`. -/
def DEFAULT_MAX_COEF : Nat := 20

/-- The constructor `CBU_Balancer()`. -/
def State.fresh : State :=
  { _multiple_results := true, _max_coef := DEFAULT_MAX_COEF, _log_status := true,
    _reactants_and_products := ([], []), _elements := [], _main_matrix := [],
    _results_coefs := [] }

/-- The setter `set_multiple_results`. -/
def set_multiple_results (s : State) (option : Bool) : State :=
  { s with _multiple_results := option }

/-- The setter `set_max_coef`. -/
def set_max_coef (s : State) (max_coef : Nat) : State :=
  { s with _max_coef := max_coef }

/-- The function `clear_data`. -/
def clear_data (s : State) : State :=
  { s with _reactants_and_products := ([], []), _elements := [], _main_matrix := [],
           _results_coefs := [] }

/-! ### Element list and matrix builder -/

/-- The call `elements_set.insert(key)` on a `std::set<std::string>`, kept as its
increasing sequence. -/
def setInsert (key : List Char) : List (List Char) → List (List Char)
  | [] => [key]
  | k :: rest =>
    if key = k then k :: rest
    else if strLt key k then key :: k :: rest
    else k :: setInsert key rest

/-- One insertion step of a sort by `<` on strings. -/
def sortInsert (key : List Char) : List (List Char) → List (List Char)
  | [] => [key]
  | k :: rest => if strLt k key then k :: sortInsert key rest else key :: k :: rest

/-- The call `std::sort(elements.begin(), elements.end())`: the strings in
increasing order (equal strings cannot be told apart, so every sorting
algorithm gives this list). -/
def stdSort (elements : List (List Char)) : List (List Char) :=
  elements.foldr sortInsert []

/-- The function `get_elements_from_compounds_composition`: the keys of all the
maps go into a `std::set`, whose sequence is copied out and sorted. An empty
argument throws `EMPTY_CONTAINER`, caught inside: the result is empty. -/
def get_elements_from_compounds_composition (compounds_composition : List Composition) :
    List (List Char) :=
  if compounds_composition.isEmpty then []
  else
    stdSort (compounds_composition.foldl
      (fun elements_set compound_composition =>
        compound_composition.foldl (fun set element => setInsert element.1 set) elements_set)
      [])

/-- The function `_build_matrix`: row `i`, column `j` is the count of element `i`
in compound `j`, 0 when the compound has no such key. An empty argument throws
`EMPTY_CONTAINER`, caught inside: the result is the empty matrix. -/
def _build_matrix (compounds_composition : List Composition) (elements : List (List Char)) :
    List (List Nat) :=
  if compounds_composition.isEmpty || elements.isEmpty then []
  else
    elements.map (fun element =>
      compounds_composition.map (fun composition => (countOf element composition).getD 0))

/-! ### Coefficient solver -/

/-- A value brought into the range of `int` by 32-bit two's-complement
wrap-around: the conversion `static_cast<int>` of an `unsigned`, and the result
of an `int` operation that leaves the range. -/
def wrap32 (x : Int) : Int := (x + 2147483648) % 4294967296 - 2147483648

/-- The loop `for (i = 0; i < coefficients_temporary.size(); i++)
sum += static_cast<int>(coefficients_temporary[i]) * element[i]`, in `int`
arithmetic; `none` when the row `element` is shorter than the coefficients. -/
def rowSum : List Nat → List Int → Int → Option Int
  | [], _, sum => some sum
  | _ :: _, [], _ => none
  | c :: cs, e :: es, sum => rowSum cs es (wrap32 (sum + wrap32 (wrap32 (c : Int) * e)))

/-- The loop `for (const auto& element : _main_matrix)` that computes `balanced`:
it stops at the first row whose sum is not 0. -/
def checkRows (coefficients_temporary : List Nat) : List (List Int) → Option Bool
  | [] => some true
  | element :: rest =>
    match rowSum coefficients_temporary element 0 with
    | none => none
    | some sum => if sum ≠ 0 then some false else checkRows coefficients_temporary rest

/-- The loop `for (i = 1; i <= _max_coef; i++)` of `_solving_matrix_using_recursion`
over the values `i` still to try; `recur` is the recursive call for the next
column. The result is the returned flag, the coefficient vector and the result
list; `none` when `coefficients_temporary[floor]` is outside the vector. -/
def solverLoop (multiple_results : Bool)
    (recur : List Nat → List (List Nat) → Option (Bool × List Nat × List (List Nat)))
    (floor : Nat) :
    List Nat → List Nat → List (List Nat) → Option (Bool × List Nat × List (List Nat))
  | [], coefficients_temporary, results => some (false, coefficients_temporary, results)
  | i :: rest, coefficients_temporary, results =>
    if floor < coefficients_temporary.length then
      match recur (coefficients_temporary.set floor i) results with
      | none => none
      | some (balanced, coefficients1, results1) =>
        if balanced && !multiple_results then some (true, coefficients1, results1)
        else solverLoop multiple_results recur floor rest coefficients1 results1
    else none

/-- The function `_solving_matrix_using_recursion` with a bound on the depth of
the recursion; `columns` is `_main_matrix[0].size()`. -/
def solverFuel (multiple_results : Bool) (max_coef : Nat) (main_matrix : List (List Int))
    (columns : Nat) :
    Nat → List Nat → Nat → List (List Nat) → Option (Bool × List Nat × List (List Nat))
  | 0, _, _, _ => none
  | fuel + 1, coefficients_temporary, floor, results =>
    if floor = columns then
      match checkRows coefficients_temporary main_matrix with
      | none => none
      | some true =>
        some (true, coefficients_temporary,
          if multiple_results || results.isEmpty then results ++ [coefficients_temporary]
          else results)
      | some false => some (false, coefficients_temporary, results)
    else
      solverLoop multiple_results
        (fun coefficients results1 =>
          solverFuel multiple_results max_coef main_matrix columns fuel coefficients
            (floor + 1) results1)
        floor (List.range' 1 max_coef) coefficients_temporary results

/-- The function `_solving_matrix_using_recursion`: `none` when `_main_matrix` is
empty (the source reads `_main_matrix[0]`). The recursion goes one column
deeper per call, so `columns + 1 - floor` calls deep at most. -/
def _solving_matrix_using_recursion (s : State) (coefficients_temporary : List Nat)
    (floor : Nat) : Option (Bool × List Nat × State) :=
  match s._main_matrix with
  | [] => none
  | row0 :: _ =>
    match solverFuel s._multiple_results s._max_coef s._main_matrix row0.length
        (row0.length + 1 - floor) coefficients_temporary floor s._results_coefs with
    | none => none
    | some (balanced, coefficients, results) =>
      some (balanced, coefficients, { s with _results_coefs := results })

/-! ### Solution deduplicator -/

/-- A `double` value of `_are_linear_dependent` with its rounding left out: the
quotient `b[i] / a[i]` is kept as the exact non-negative rational `num / den`,
with `den` positive. -/
structure Fraction where
  num : Nat
  den : Nat
  deriving DecidableEq, Repr

/-- The rational number a fraction stands for. -/
def Fraction.toRat (f : Fraction) : ℚ := (f.num : ℚ) / (f.den : ℚ)

/-- The tolerance `1e-9` of `_are_linear_dependent`, as an exact rational. -/
def TOLERANCE : ℚ := 1 / 1000000000

/-- The test `std::abs(ratio - current_ratio) > 1e-9` decided in exact rational
arithmetic, against exactly `1/10^9`, by cross-multiplication:
`|n1/d1 - n2/d2| > 1/10^9` is `d1 * d2 < 10^9 * |n1 * d2 - n2 * d1|`. The source
rounds the two quotients, their difference and the constant to `double`s, so
its test can differ from this one where the exact difference of the ratios lies
within that rounding of `1e-9`. -/
def exceedsTolerance (ratio current_ratio : Fraction) : Bool :=
  decide (ratio.den * current_ratio.den <
    1000000000 * Int.natAbs ((ratio.num : Int) * current_ratio.den -
      (current_ratio.num : Int) * ratio.den))

/-- The loop of `_are_linear_dependent` over the two vectors (of equal length),
with the `double` values `ratio`, `current_ratio` as exact fractions
(`ratio` starts as `0`, here `0 / 1`). -/
def dependentLoop : List Nat → List Nat → Fraction → Bool → Bool
  | a :: as, b :: bs, ratio, ratio_set =>
    if a ≠ 0 then
      let current_ratio : Fraction := ⟨b, a⟩
      if !ratio_set then dependentLoop as bs current_ratio true
      else if exceedsTolerance ratio current_ratio then false
      else dependentLoop as bs ratio ratio_set
    else if b ≠ 0 then false
    else dependentLoop as bs ratio ratio_set
  | _, _, _, _ => true

/-- The function `_are_linear_dependent`, its ratios compared in exact rational
arithmetic (see `exceedsTolerance`). -/
def _are_linear_dependent (a b : List Nat) : Bool :=
  if a.isEmpty || b.isEmpty || a.length ≠ b.length then false
  else dependentLoop a b ⟨0, 1⟩ false

/-- The outer loop of `_filter_linear_independent_results`: `result` is kept
when no vector confirmed so far makes `_are_linear_dependent(confirmed, result)`
true. -/
def filterLoop : List (List Nat) → List (List Nat) → List (List Nat)
  | [], independent_results_coefs => independent_results_coefs
  | result :: rest, independent_results_coefs =>
    let independent :=
      !independent_results_coefs.any (fun confirmed_result =>
        _are_linear_dependent confirmed_result result)
    filterLoop rest
      (if independent then independent_results_coefs ++ [result]
       else independent_results_coefs)

/-- The function `_filter_linear_independent_results`. -/
def _filter_linear_independent_results (s : State) : State :=
  { s with _results_coefs := filterLoop s._results_coefs [] }

/-- The outer loop of `_filter_linear_independent_results` with the call
`_are_linear_dependent(confirmed_result, result)` as a parameter:
`dependent confirmed_result result` stands for what the call returns, however
the ratios are computed and compared. -/
def filterLoopWith (dependent : List Nat → List Nat → Bool) :
    List (List Nat) → List (List Nat) → List (List Nat)
  | [], independent_results_coefs => independent_results_coefs
  | result :: rest, independent_results_coefs =>
    let independent :=
      !independent_results_coefs.any (fun confirmed_result =>
        dependent confirmed_result result)
    filterLoopWith dependent rest
      (if independent then independent_results_coefs ++ [result]
       else independent_results_coefs)

/-- The function `_filter_linear_independent_results` over the test `dependent`. -/
def filterResultsWith (dependent : List Nat → List Nat → Bool) (s : State) : State :=
  { s with _results_coefs := filterLoopWith dependent s._results_coefs [] }

/-! ### Equation splitter -/

/-- The test `std::isspace` in the "C" locale. -/
def isspace (c : Char) : Bool := c == ' ' || (9 ≤ c.toNat && c.toNat ≤ 13)

/-- The function `_remove_spaces`. -/
def _remove_spaces (str : List Char) : List Char := str.filter (fun c => !isspace c)

/-- The `find`/`substr` loop of `_get_reactants_and_products_str`: the pieces
between the non-overlapping occurrences of `->`, found from left to right;
`current` is the piece being read. -/
def splitArrow : List Char → List Char → List (List Char)
  | [], current => [current]
  | '-' :: '>' :: rest, current => current :: splitArrow rest []
  | c :: rest, current => splitArrow rest (current ++ [c])

/-- The function `_get_reactants_and_products_str`: with other than two pieces
it throws `INVALID_EQUATION`, caught inside, and returns two empty strings. -/
def _get_reactants_and_products_str (equation : List Char) : List Char × List Char :=
  match splitArrow equation [] with
  | [first, second] => (first, second)
  | _ => ([], [])

/-- The `find`/`substr` loop of `_separate_half_equation`: the pieces between the
`+` characters. -/
def splitPlus : List Char → List Char → List (List Char)
  | [], current => [current]
  | c :: rest, current =>
    if c = '+' then current :: splitPlus rest [] else splitPlus rest (current ++ [c])

/-- The function `_separate_half_equation`: the empty string throws
`INCOMPLETE_EQUATION`, caught inside, and gives no compounds. -/
def _separate_half_equation (half_equation : List Char) : List (List Char) :=
  if half_equation.isEmpty then [] else splitPlus half_equation []

/-- The function `_get_compounds_str`. -/
def _get_compounds_str (equation : List Char) : List (List Char) × List (List Char) :=
  let equation_without_space := _remove_spaces equation
  let reactants_and_products_str := _get_reactants_and_products_str equation_without_space
  (_separate_half_equation reactants_and_products_str.1,
   _separate_half_equation reactants_and_products_str.2)

/-! ### The balance attempt -/

/-- The messages thrown by `_balance_with_given_compounds_str` itself and printed
by its `catch` branch. -/
inductive BalanceError where
  | EMPTY_COMPOUND_LIST
  | INCOMPLETE_REACTANT
  | ELEMENTS_MISMATCH_BETWEEN_REACTANTS_AND_PRODUCTS
  | FAILED_TO_BALANCE
  deriving DecidableEq, Repr

/-- The loop `for (const auto& reactant : reactants)` (and the one for the
products): an empty string throws `INCOMPLETE_REACTANT`, every other string adds
its composition. -/
def parseCompounds : List (List Char) → Option (Except BalanceError (List Composition))
  | [] => some (.ok [])
  | compound :: rest =>
    if compound.isEmpty then some (.error .INCOMPLETE_REACTANT)
    else
      match _get_compound_composition compound with
      | none => none
      | some composition =>
        match parseCompounds rest with
        | none => none
        | some (.error e) => some (.error e)
        | some (.ok compositions) => some (.ok (composition :: compositions))

/-- The conversion `static_cast<int>` of an `unsigned`. -/
def toInt32 (x : Nat) : Int := wrap32 (x : Int)

/-- The matrix `main_matrix` of `_balance_with_given_compounds_str`: row `i` is
row `i` of the reactant matrix converted to `int`, followed by row `i` of the
product matrix converted to `int` and negated (an `int` negation). Both
matrices have one row per element, or none when there is no element. -/
def buildMainMatrix (reactant_matrix product_matrix : List (List Nat)) : List (List Int) :=
  List.zipWith
    (fun reactant_row product_row =>
      reactant_row.map toInt32 ++ product_row.map (fun x => wrap32 (-(toInt32 x))))
    reactant_matrix product_matrix

/-- The function `_balance_with_given_compounds_str` (and its alias
`balance_with_given_compounds`): the state it leaves and the message its `catch`
branch prints, if any. `none` when the attempt reads outside a container.
The test on the two element lists (equal sizes and no `std::mismatch`) is
their equality. -/
def _balance_with_given_compounds_str (s : State) (reactants products : List (List Char)) :
    Option (State × Option BalanceError) :=
  if reactants.isEmpty || products.isEmpty then some (s, some .EMPTY_COMPOUND_LIST)
  else
    let s1 := { s with _reactants_and_products := (reactants, products) }
    match parseCompounds reactants with
    | none => none
    | some (.error e) => some (s1, some e)
    | some (.ok reactants_composition) =>
      match parseCompounds products with
      | none => none
      | some (.error e) => some (s1, some e)
      | some (.ok products_composition) =>
        let reactant_elements := get_elements_from_compounds_composition reactants_composition
        let product_elements := get_elements_from_compounds_composition products_composition
        if reactant_elements ≠ product_elements then
          some (s1, some .ELEMENTS_MISMATCH_BETWEEN_REACTANTS_AND_PRODUCTS)
        else
          let s2 := { s1 with _elements := reactant_elements }
          let reactant_matrix := _build_matrix reactants_composition s2._elements
          let product_matrix := _build_matrix products_composition s2._elements
          let s3 := { s2 with _main_matrix := buildMainMatrix reactant_matrix product_matrix }
          match _solving_matrix_using_recursion s3
              (List.replicate (reactants.length + products.length) 0) 0 with
          | none => none
          | some (_, _, s4) =>
            let s5 := _filter_linear_independent_results s4
            if s5._results_coefs.isEmpty then some (s5, some .FAILED_TO_BALANCE)
            else some (s5, none)

/-- The public alias `balance_with_given_compounds`. -/
def balance_with_given_compounds (s : State) (reactants products : List (List Char)) :
    Option (State × Option BalanceError) :=
  _balance_with_given_compounds_str s reactants products

/-- The function `balance`. -/
def balance (s : State) (equation : List Char) : Option (State × Option BalanceError) :=
  let reactants_and_products := _get_compounds_str equation
  let s1 := { s with _reactants_and_products := reactants_and_products }
  _balance_with_given_compounds_str s1 reactants_and_products.1 reactants_and_products.2

/-! ### Properties the solver is specified by -/

/-- The dot product of a coefficient vector with a matrix row, in exact
integer arithmetic. -/
def dot : List Nat → List Int → Int
  | c :: cs, e :: es => (c : Int) * e + dot cs es
  | _, _ => 0

/-- A vector is balanced: its dot product with every row is zero. -/
def balancedExact (matrix : List (List Int)) (v : List Nat) : Bool :=
  matrix.all (fun row => decide (dot v row = 0))

/-- A vector passes the solver's test: its dot product with every row is zero
modulo `2^32`, which is what a sum kept in a 32-bit `int` can tell. -/
def balancedInt32 (matrix : List (List Int)) (v : List Nat) : Bool :=
  matrix.all (fun row => decide (dot v row % 4294967296 = 0))

/-- The vectors `i :: t` for `i` in `is` (outer, in order) and `t` in `tails`. -/
def extendAll (tails : List (List Nat)) : List Nat → List (List Nat)
  | [] => []
  | i :: is => tails.map (fun t => i :: t) ++ extendAll tails is

/-- The vectors of `[1, M]^n`, first column most significant, in the order
in which the solver assigns them. -/
def allVectors (M : Nat) : Nat → List (List Nat)
  | 0 => [[]]
  | n + 1 => extendAll (allVectors M n) (List.range' 1 M)

/-- A vector lies in `[1, M]^n`. -/
def inBox (M n : Nat) (v : List Nat) : Prop :=
  v.length = n ∧ ∀ x ∈ v, 1 ≤ x ∧ x ≤ M

/-- The strict lexicographic order on vectors, column 0 most significant. -/
def lexLt : List Nat → List Nat → Bool
  | a :: as, b :: bs => decide (a < b) || (decide (a = b) && lexLt as bs)
  | _, _ => false

/-- No dot product of a vector of `[1, M]^columns` with a row can leave the
range of `int`: the absolute values of each row, times `M`, sum to less than
`2^31`. -/
def withinIntRange (matrix : List (List Int)) (M : Nat) : Prop :=
  ∀ row ∈ matrix, ((row.map Int.natAbs).sum * M : Nat) < 2147483648

/-- The vectors the solver visits below one call, as they are found: the columns
already assigned (`assigned`) followed by each vector of `[1, M]^n`, those that
pass the test only. -/
def candidates (matrix : List (List Int)) (M n : Nat) (assigned : List Nat) :
    List (List Nat) :=
  ((allVectors M n).map (fun suffix => assigned ++ suffix)).filter (balancedInt32 matrix)

/-- The result list after a call that meets the passing vectors `found`, in
this order: all are appended in multi-result mode; in single-result mode the
first one is stored, and only into an empty list. -/
def resultsAfter (multiple_results : Bool) (results found : List (List Nat)) :
    List (List Nat) :=
  if multiple_results then results ++ found
  else if results.isEmpty then found.take 1 else results

/-- The flag a call returns when `n` columns are left to assign and it meets the
passing vectors `found`: at the last level whether the vector passes, above it
`false` in multi-result mode and whether a vector was found in single-result mode. -/
def flagAfter (multiple_results : Bool) (n : Nat) (found : List (List Nat)) : Bool :=
  if n = 0 then !found.isEmpty
  else if multiple_results then false else !found.isEmpty

instance (M n : Nat) (v : List Nat) : Decidable (inBox M n v) := by
  unfold inBox; infer_instance

instance (matrix : List (List Int)) (M : Nat) : Decidable (withinIntRange matrix M) := by
  unfold withinIntRange; infer_instance

/-- A state for the solver: the matrix of `H2 + O2 -> H2O`, bound 3. -/
def waterState (multiple_results : Bool) : State :=
  { State.fresh with _multiple_results := multiple_results, _max_coef := 3,
                     _main_matrix := [[2, 0, -2], [0, 2, -1]] }

/-- A state for the solver: one row `(2^30, 0)`, bound 4, multi-result mode. -/
def overflowRowState : State :=
  { State.fresh with _max_coef := 4, _main_matrix := [[1073741824, 0]] }

/-- A state for the solver: one row `(2^30, -3 * 2^29)`, bound 6, single-result
mode. -/
def overflowPairState : State :=
  { State.fresh with _multiple_results := false, _max_coef := 6,
                     _main_matrix := [[1073741824, -1610612736]] }

/-- The ratios `n / d` and `b / a` agree for every pair of entries, stated by
cross-multiplication. -/
def crossAll (n d : Nat) : List Nat → List Nat → Bool
  | a :: as, b :: bs => decide (n * a = b * d) && crossAll n d as bs
  | _, _ => true

/-- Every coefficient of every vector lies in `[1, B]`. -/
def entriesWithin (B : Nat) (vectors : List (List Nat)) : Prop :=
  ∀ v ∈ vectors, ∀ x ∈ v, 1 ≤ x ∧ x ≤ B

instance (B : Nat) (vectors : List (List Nat)) : Decidable (entriesWithin B vectors) := by
  unfold entriesWithin; infer_instance

/-! ### Properties the balance attempt is specified by -/

/-- The compositions of the compounds of one side of the equation, as
`_get_compound_composition` returns them. -/
def sideCompositions (compounds : List (List Char)) : List Composition :=
  compounds.map (fun compound => (_get_compound_composition compound).getD [])

/-- The element symbol `symbol` is a key of a composition of one side. -/
def sideHasKey (compounds : List (List Char)) (symbol : List Char) : Bool :=
  (sideCompositions compounds).any (fun composition => (countOf symbol composition).isSome)

/-- The count of `element` in the composition of `compound`, 0 when the
composition has no such key. -/
def countIn (element compound : List Char) : Nat :=
  (countOf element ((_get_compound_composition compound).getD [])).getD 0

/-- The element list of one side: what `get_elements_from_compounds_composition`
returns for its compositions. -/
def sideElements (compounds : List (List Char)) : List (List Char) :=
  get_elements_from_compounds_composition (sideCompositions compounds)

/-- The signed matrix of an equation over a list of elements: one row per
element; in each row the reactants' counts converted to `int`, then the
products' counts converted to `int` and negated. -/
def signedMatrix (elements reactants products : List (List Char)) : List (List Int) :=
  elements.map (fun element =>
    reactants.map (fun compound => toInt32 (countIn element compound)) ++
    products.map (fun compound => wrap32 (-(toInt32 (countIn element compound)))))

/-- The state an attempt leaves when it reaches the solver: the settings are
kept; the compound lists, the element list and the matrix are those of the
equation; the passing vectors found are added to the result list as the mode
says, and the list is filtered. -/
def stateAfterSolving (s : State) (reactants products : List (List Char)) : State :=
  { s with
    _reactants_and_products := (reactants, products)
    _elements := sideElements reactants
    _main_matrix := signedMatrix (sideElements reactants) reactants products
    _results_coefs :=
      filterLoop
        (resultsAfter s._multiple_results s._results_coefs
          ((allVectors s._max_coef (reactants.length + products.length)).filter
            (balancedInt32 (signedMatrix (sideElements reactants) reactants products))))
        [] }

/-! ### The formula grammar -/

/-- A derivation of `COMPOUND := ENTITY*` with
`ENTITY := [A-Z][a-z]*[0-9]* | '(' COMPOUND ')' [0-9]*`: the entities from left
to right, each a bare entity or a parenthesised group. -/
inductive Formula where
  | done : Formula
  | bare (upper : Char) (lowers digits : List Char) (rest : Formula) : Formula
  | group (body : Formula) (digits : List Char) (rest : Formula) : Formula
  deriving DecidableEq, Repr

namespace Formula

/-- The string a derivation generates. -/
def render : Formula → List Char
  | done => []
  | bare upper lowers digits rest => upper :: (lowers ++ digits ++ render rest)
  | group body digits rest => '(' :: (render body ++ ')' :: (digits ++ render rest))

/-- A derivation has at least one entity. -/
def nonEmpty : Formula → Bool
  | done => false
  | _ => true

/-- The conditions of the grammar: character classes, `ENTITY+` inside every
pair of parentheses, and every digit run within `int` range. -/
def generated : Formula → Bool
  | done => true
  | bare upper lowers digits rest =>
    upper.isUpper && lowers.all Char.isLower && digits.all Char.isDigit &&
      decide (decimalValue digits ≤ INT_MAX) && generated rest
  | group body digits rest =>
    nonEmpty body && generated body && digits.all Char.isDigit &&
      decide (decimalValue digits ≤ INT_MAX) && generated rest

/-- The count a digit run denotes: an absent run means 1. -/
def runCount (digits : List Char) : Nat :=
  if digits.isEmpty then 1 else decimalValue digits

/-- Manual expansion: the total number of atoms of `symbol`. A bare entity adds
its count to its symbol, a group adds its inner total times its count. -/
def atomCount (symbol : List Char) : Formula → Nat
  | done => 0
  | bare upper lowers digits rest =>
    (if symbol = upper :: lowers then runCount digits else 0) + atomCount symbol rest
  | group body digits rest =>
    atomCount symbol body * runCount digits + atomCount symbol rest

/-- Manual expansion: whether `symbol` occurs in the formula. -/
def mentions (symbol : List Char) : Formula → Bool
  | done => false
  | bare upper lowers _ rest => decide (symbol = upper :: lowers) || mentions symbol rest
  | group body _ rest => mentions symbol body || mentions symbol rest

/-- The entity strings of a derivation, one per entity of its top level. -/
def entities : Formula → List (List Char)
  | done => []
  | bare upper lowers digits rest => (upper :: (lowers ++ digits)) :: entities rest
  | group body digits rest => ('(' :: (render body ++ ')' :: digits)) :: entities rest

/-- The nesting depth of parentheses. -/
def depth : Formula → Nat
  | done => 0
  | bare _ _ _ rest => depth rest
  | group body _ rest => max (depth body + 1) (depth rest)

end Formula

/-- The formula `Ca(OH)2` as a derivation of the grammar. -/
def calciumHydroxide : Formula :=
  .bare 'C' ['a'] [] (.group (.bare 'O' [] [] (.bare 'H' [] [] .done)) ['2'] .done)

/-- The formula `H2147483647H2147483647H2`: three bare entities whose counts add
up to `2^32`. -/
def hydrogenOverflow : Formula :=
  .bare 'H' [] "2147483647".toList (.bare 'H' [] "2147483647".toList (.bare 'H' [] ['2'] .done))

/-! ### Result renderer -/

/-- The call `std::to_string(coefficient)` on an `unsigned`: its decimal digits. -/
def to_string (coefficient : Nat) : List Char := Nat.toDigits 10 coefficient

/-- The message thrown inside `get_result`. -/
inductive ResultError where
  | NO_RESULT
  deriving DecidableEq, Repr

/-- One of the two inner loops `for (i = 0; i < count; i++)` of `get_result`:
the compounds from position `i` on, and `index` the position read in
`solution` (`i`, or `reactants_count + i`). The test `i < count - 1` holds when
a compound is left after this one. `none` when `index` lies outside `solution`. -/
def renderTerms (solution : List Nat) : List (List Char) → Nat → List Char → Option (List Char)
  | [], _, result_str => some result_str
  | compound :: rest, index, result_str =>
    match solution[index]? with
    | none => none
    | some coefficient =>
      let result1 :=
        result_str ++ (if coefficient ≠ 1 then to_string coefficient else []) ++ compound
      renderTerms solution rest (index + 1)
        (if !rest.isEmpty then result1 ++ [' ', '+', ' '] else result1)

/-- The loop `for (const auto& solution : _results_coefs)` of `get_result`. -/
def renderSolutions (reactants products : List (List Char)) :
    List (List Nat) → List Char → Option (List Char)
  | [], result_str => some result_str
  | solution :: rest, result_str =>
    match renderTerms solution reactants 0 result_str with
    | none => none
    | some result1 =>
      match renderTerms solution products reactants.length
          (result1 ++ [' ', '=', '=', ' ']) with
      | none => none
      | some result2 => renderSolutions reactants products rest (result2 ++ ['\n'])

/-- The function `get_result`: the string returned and the message its `catch`
branch prints, if any; `none` when a solution is read outside its vector. The
note printed for two or more solutions is not modelled. The last statement,
`substr(0, size() - 1)`, drops the last character; on the empty string
`size() - 1` is the largest `size_t` and the string stays empty. -/
def get_result (s : State) : Option (List Char × Option ResultError) :=
  if s._reactants_and_products.1.isEmpty || s._reactants_and_products.2.isEmpty then
    some ([], some .NO_RESULT)
  else
    match renderSolutions s._reactants_and_products.1 s._reactants_and_products.2
        s._results_coefs [] with
    | none => none
    | some result_str => some (substr result_str 0 (result_str.length - 1), none)

/-! ### Properties the renderer is specified by -/

/-- A term of a rendered line: the compound, preceded by its coefficient in
decimal unless the coefficient is 1. -/
def renderedTerm (coefficient : Nat) (compound : List Char) : List Char :=
  (if coefficient = 1 then [] else to_string coefficient) ++ compound

/-- The terms of one side: compound `i` of the side with coefficient `i` of the
side's part of the vector. -/
def renderedTerms (coefficients : List Nat) (compounds : List (List Char)) :
    List (List Char) :=
  List.zipWith renderedTerm coefficients compounds

/-- A rendered line: the reactant terms joined by `" + "`, then `" == "`, then
the product terms joined by `" + "`. -/
def renderedLine (reactants products : List (List Char)) (solution : List Nat) : List Char :=
  [' ', '+', ' '].intercalate (renderedTerms (solution.take reactants.length) reactants) ++
    [' ', '=', '=', ' '] ++
    [' ', '+', ' '].intercalate (renderedTerms (solution.drop reactants.length) products)

/-- A state for the renderer: the compounds of `H2 + O2 -> H2O` and two stored
vectors. -/
def waterRendered : State :=
  { State.fresh with _max_coef := 4,
                     _reactants_and_products := (["H2".toList, "O2".toList], ["H2O".toList]),
                     _results_coefs := [[2, 1, 2], [4, 2, 4]] }

/-! ### Properties the splitter is specified by -/

/-- The messages thrown inside the functions of the splitter. -/
inductive SplitError where
  | INVALID_EQUATION
  | INCOMPLETE_EQUATION
  deriving DecidableEq, Repr

/-- The `try` body of `_get_reactants_and_products_str`. -/
def reactantsAndProductsTry (equation : List Char) : Except SplitError (List Char × List Char) :=
  match splitArrow equation [] with
  | [first, second] => .ok (first, second)
  | _ => .error .INVALID_EQUATION

/-- The `try` body of `_separate_half_equation`. -/
def separateHalfTry (half_equation : List Char) : Except SplitError (List (List Char)) :=
  if half_equation.isEmpty then .error .INCOMPLETE_EQUATION
  else .ok (splitPlus half_equation [])

/-- The number of occurrences of `->` in a string: the positions that hold `-`
with `>` right after. Two occurrences cannot overlap. -/
def countArrows : List Char → Nat
  | [] => 0
  | c :: rest =>
    (if c = '-' ∧ rest.head? = some '>' then 1 else 0) + countArrows rest

/-! ### Properties a sequence of attempts is specified by -/

/-- The state after `balance("H -> H")` on a fresh balancer with bound 2: the
vector `(1, 1)` is stored. -/
def hydrogenBalanced : State :=
  { State.fresh with _max_coef := 2,
                     _reactants_and_products := (["H".toList], ["H".toList]),
                     _elements := ["H".toList],
                     _main_matrix := [[1, -1]],
                     _results_coefs := [[1, 1]] }

/-! ### The scenario `Ca(OH)2 + HCl -> CaCl2 + H2O` -/

/-- The matrix of the scenario: rows `Ca`, `Cl`, `H`, `O`; columns `Ca(OH)2`,
`HCl`, `CaCl2`, `H2O`. -/
def neutralizationMatrix : List (List Int) :=
  [[1, 0, -1, 0], [0, 1, -2, 0], [2, 1, 0, -2], [2, 0, 0, -1]]

/-- The vectors `(a, 2a, a, 2a)` for `a` from 1 to 10. -/
def neutralizationVectors : List (List Nat) :=
  (List.range' 1 10).map (fun a => [a, 2 * a, a, 2 * a])

/-! ### Properties the tokens and the element symbols are specified by -/

/-- A lowercase letter or a digit: what the tokenizer appends to a token at
depth 0. -/
def lowerOrDigit (c : Char) : Bool := c.isLower || c.isDigit

/-- The pattern `[a-z]*[0-9]*`: lowercase letters, then digits. -/
def lowersThenDigits (cs : List Char) : Bool :=
  (cs.dropWhile Char.isLower).all Char.isDigit

/-- The rest of a parenthesised group read at depth `d` (1 right after the
opening parenthesis): the body, whose parentheses match, the closing
parenthesis that brings the depth to 0, and then a tail that satisfies `tail`. -/
def groupRest (tail : List Char → Bool) : Nat → List Char → Bool
  | _, [] => false
  | d, c :: cs =>
    if c = '(' then groupRest tail (d + 1) cs
    else if c = ')' then
      match d with
      | 0 => false
      | k + 1 => if k = 0 then tail cs else groupRest tail k cs
    else groupRest tail d cs

/-- A bare entity `[A-Z][a-z]*[0-9]*`. -/
def bareEntity : List Char → Bool
  | [] => false
  | c :: rest => c.isUpper && lowersThenDigits rest

/-- A parenthesised group: `(`, a body with matching parentheses, the matching
`)`, then digits only. -/
def groupEntity : List Char → Bool
  | [] => false
  | c :: rest => c = '(' && groupRest (fun tail => tail.all Char.isDigit) 1 rest

/-- An uppercase letter followed by lowercase letters and digits in any order. -/
def looseBare : List Char → Bool
  | [] => false
  | c :: rest => c.isUpper && rest.all lowerOrDigit

/-- A parenthesised group followed by lowercase letters and digits in any order. -/
def looseGroup : List Char → Bool
  | [] => false
  | c :: rest => c = '(' && groupRest (fun tail => tail.all lowerOrDigit) 1 rest

/-- An element symbol as specified: an uppercase letter, then lowercase letters. -/
def elementSymbol : List Char → Bool
  | [] => false
  | c :: rest => c.isUpper && rest.all Char.isLower

/-- The shape the tokenizer gives its tokens: a letter or a group, followed by
lowercase letters and digits in any order. -/
def tokenShape (t : List Char) : Bool := looseBare t || looseGroup t

/-- The shape of a token as specified: a bare entity or a group followed by
digits only. -/
def entityShape (t : List Char) : Bool := bareEntity t || groupEntity t

/-- The shape of the keys of a composition: an uppercase letter followed by
lowercase letters and digits, the last character no digit. -/
def symbolShape : List Char → Bool
  | [] => false
  | c :: rest =>
    c.isUpper && rest.all lowerOrDigit && !((c :: rest).reverse.head?.any Char.isDigit)

/-! ### Properties the round trip is specified by -/

/-- A rendered line with the arrow of the input in the place of `" == "`. -/
def arrowLine (reactants products : List (List Char)) (solution : List Nat) : List Char :=
  [' ', '+', ' '].intercalate (renderedTerms (solution.take reactants.length) reactants) ++
    [' ', '-', '>', ' '] ++
    [' ', '+', ' '].intercalate (renderedTerms (solution.drop reactants.length) products)

/-- What the splitter leaves in a compound string: no whitespace, no `+` and no
`->`. -/
def plainCompound (compound : List Char) : Bool :=
  compound.all (fun c => !isspace c && c != '+') && countArrows compound == 0

/-- The state after `balance("H2 + O2 -> H2O")` on a fresh balancer with bound 2:
the vector `(2, 1, 2)` is stored. -/
def waterSolved : State :=
  { State.fresh with _max_coef := 2,
                     _reactants_and_products := (["H2".toList, "O2".toList], ["H2O".toList]),
                     _elements := ["H".toList, "O".toList],
                     _main_matrix := [[2, 0, -2], [0, 2, -1]],
                     _results_coefs := [[2, 1, 2]] }

/-! ### The scenario `C6H14 + O2 -> CO2 + H2O` -/

/-- The matrix of the scenario: rows `C`, `H`, `O`; columns `C6H14`, `O2`, `CO2`,
`H2O`. -/
def hexaneMatrix : List (List Int) :=
  [[6, 0, -1, 0], [14, 0, 0, -2], [0, 2, -2, -1]]

/-! ### Properties the element check is specified by -/

/-- The element symbols of both sides together: the element list of all the
compounds. -/
def unionElements (reactants products : List (List Char)) : List (List Char) :=
  sideElements (reactants ++ products)

/-- Every count stored under a key of the composition of a compound is at
least 1 and fits an `int`. -/
def countsPositive (compounds : List (List Char)) : Prop :=
  ∀ compound ∈ compounds, ∀ e ∈ (_get_compound_composition compound).getD [],
    1 ≤ e.2 ∧ e.2 < 2147483648

instance (compounds : List (List Char)) : Decidable (countsPositive compounds) := by
  unfold countsPositive; infer_instance

/-! ### Properties the kept vectors are specified by -/

/-- The greatest common divisor of the coefficients of a vector. -/
def vectorGcd (v : List Nat) : Nat := v.foldr Nat.gcd 0

/-- The multiple `k * u` of a vector. -/
def scale (k : Nat) (u : List Nat) : List Nat := u.map (fun x => k * x)

/-! ## Theorems -/

/-! ### Tokenizer: success and failure -/

theorem appendToBack_ne_nil (c : Char) (toks : List (List Char)) (h : toks ≠ []) :
    appendToBack c toks ≠ [] := by
  match toks, h with
  | [t], _ => simp [appendToBack]
  | t :: t2 :: ts, _ => simp [appendToBack]

theorem paren_not_class (c : Char) (h : c = '(' ∨ c = ')') :
    c.isUpper = false ∧ c.isLower = false ∧ c.isDigit = false := by
  rcases h with h | h <;> subst h <;> decide

/-- With a non-empty deque and a non-negative depth the loop succeeds exactly on
legal characters with matched parentheses, and it never empties the deque. -/
theorem separatorLoop_spec (cs : List Char) :
    ∀ (d : Nat) (toks : List (List Char)), toks ≠ [] →
      match separatorLoop cs (d : Int) toks with
      | .ok out => out ≠ [] ∧ (cs.all _is_valid_char = true ∧ parensMatched d cs = true)
      | .error _ => ¬ (cs.all _is_valid_char = true ∧ parensMatched d cs = true) := by
  induction cs with
  | nil =>
    intro d toks h
    by_cases hd : d = 0
    · subst hd; simp [separatorLoop, parensMatched, h]
    · have : (d : Int) ≠ 0 := by exact_mod_cast hd
      simp [separatorLoop, parensMatched, hd, this]
  | cons c cs ih =>
    intro d toks h
    have hne : toks.isEmpty = false := by cases toks <;> simp_all
    by_cases hv : _is_valid_char c = true
    swap
    · simp [separatorLoop, hv]
    by_cases ho : c = '('
    · subst ho
      have h1 := ih (d + 1) (toks ++ [['(']]) (by simp)
      have h2 := ih (d + 1) (appendToBack '(' toks) (appendToBack_ne_nil _ _ h)
      by_cases hd : d = 0
      · subst hd
        simpa [separatorLoop, parensMatched, hv] using h1
      · have hd1 : ¬ ((d : Int) + 1 = 1) := by omega
        have hd2 : ¬ ((d : Int) + 1 = 0) := by omega
        have hd3 : (0 : Int) < (d : Int) + 1 := by omega
        simpa [separatorLoop, parensMatched, hv, hd1, hd2, hd3, hne] using h2
    by_cases hc : c = ')'
    · subst hc
      cases d with
      | zero =>
        simp [separatorLoop, parensMatched, hv, hne]
      | succ k =>
        have h2 := ih k (appendToBack ')' toks) (appendToBack_ne_nil _ _ h)
        have hd2 : ¬ (((k + 1 : Nat) : Int) = 0) := by omega
        have hd3 : (0 : Int) < ((k + 1 : Nat) : Int) := by omega
        have hd4 : (((k + 1 : Nat) : Int) - 1) = (k : Int) := by omega
        simpa [separatorLoop, parensMatched, hv, hd2, hd3, hd4, hne] using h2
    · have hcls : c.isUpper = true ∨ c.isLower = true ∨ c.isDigit = true := by
        simp [_is_valid_char, ho, hc] at hv
        tauto
      cases d with
      | zero =>
        by_cases hu : c.isUpper = true
        · have h1 := ih 0 (toks ++ [[c]]) (by simp)
          simpa [separatorLoop, parensMatched, hv, ho, hc, hu] using h1
        · have hld : c.isLower = true ∨ c.isDigit = true := by tauto
          have h2 := ih 0 (appendToBack c toks) (appendToBack_ne_nil _ _ h)
          simpa [separatorLoop, parensMatched, hv, ho, hc, hu, hne, hld] using h2
      | succ k =>
        have h2 := ih (k + 1) (appendToBack c toks) (appendToBack_ne_nil _ _ h)
        have hd2 : ¬ (((k + 1 : Nat) : Int) = 0) := by omega
        have hd3 : (0 : Int) < ((k + 1 : Nat) : Int) := by omega
        simpa [separatorLoop, parensMatched, hv, ho, hc, hd2, hd3, hne] using h2

theorem upper_not_lower_digit (c : Char) (h : c.isUpper = true) :
    c.isLower = false ∧ c.isDigit = false := by
  simp only [Char.isUpper, Char.isLower, Char.isDigit, Bool.and_eq_true, decide_eq_true_eq,
    ge_iff_le, Bool.and_eq_false_iff, decide_eq_false_iff_not, UInt32.le_def, BitVec.le_def] at *
  have e1 : (UInt32.toBitVec 65).toNat = 65 := rfl
  have e2 : (UInt32.toBitVec 90).toNat = 90 := rfl
  have e3 : (UInt32.toBitVec 97).toNat = 97 := rfl
  have e4 : (UInt32.toBitVec 48).toNat = 48 := rfl
  have e5 : (UInt32.toBitVec 57).toNat = 57 := rfl
  have e6 : (UInt32.toBitVec 122).toNat = 122 := rfl
  omega

theorem lower_not_digit (c : Char) (h : c.isLower = true) : c.isDigit = false := by
  simp only [Char.isLower, Char.isDigit, Bool.and_eq_true, decide_eq_true_eq,
    ge_iff_le, Bool.and_eq_false_iff, decide_eq_false_iff_not, UInt32.le_def, BitVec.le_def] at *
  have e3 : (UInt32.toBitVec 97).toNat = 97 := rfl
  have e4 : (UInt32.toBitVec 48).toNat = 48 := rfl
  have e5 : (UInt32.toBitVec 57).toNat = 57 := rfl
  have e6 : (UInt32.toBitVec 122).toNat = 122 := rfl
  omega

theorem separatorTry_cons_eq (c : Char) (cs : List Char) :
    separatorTry (c :: cs) =
      if _is_valid_char c = true then
        if c = '(' then separatorLoop cs 1 [[c]]
        else if c.isUpper = true then separatorLoop cs 0 [[c]]
        else .error .INVALID_CHAR_OR_CHAR_POSITION
      else .error .INVALID_CHAR := by
  by_cases hv : _is_valid_char c = true
  swap
  · simp [separatorTry, separatorLoop, hv]
  by_cases ho : c = '('
  · subst ho
    simp [separatorTry, separatorLoop, hv]
  · by_cases hu : c.isUpper = true
    · simp [separatorTry, separatorLoop, hv, ho, hu]
    · simp [separatorTry, separatorLoop, hv, ho, hu]

/-- The `try` body on a non-empty string: it succeeds, with a non-empty deque,
exactly on the accepted strings. -/
theorem separatorTry_cons (c : Char) (cs : List Char) :
    match separatorTry (c :: cs) with
    | .ok out => out ≠ [] ∧ acceptedCompound (c :: cs) = true
    | .error _ => acceptedCompound (c :: cs) = false := by
  rw [separatorTry_cons_eq]
  by_cases hv : _is_valid_char c = true
  swap
  · simp [acceptedCompound, hv]
  by_cases ho : c = '('
  · subst ho
    have h1 := separatorLoop_spec cs 1 [['(']] (by simp)
    simp only [Nat.cast_one] at h1
    simp only [hv, if_true]
    split <;> rename_i heq <;> rw [heq] at h1 <;>
      simp_all [acceptedCompound, startsUpperOrOpen, parensMatched]
  by_cases hu : c.isUpper = true
  · have h1 := separatorLoop_spec cs 0 [[c]] (by simp)
    have hc : c ≠ ')' := by
      intro h; subst h; exact absurd hu (by decide)
    simp only [Nat.cast_zero] at h1
    simp only [hv, ho, hu, if_true, if_false]
    split <;> rename_i heq <;> rw [heq] at h1 <;>
      simp_all [acceptedCompound, startsUpperOrOpen, parensMatched]
  · simp [acceptedCompound, startsUpperOrOpen, hv, ho, hu]

theorem all_valid_eq_not_any (s : List Char) :
    s.all _is_valid_char = !s.any (fun c => !_is_valid_char c) := by
  induction s with
  | nil => simp
  | cons c cs ih => simp [List.all_cons, List.any_cons, ih]

/-- For a non-empty string, "not rejected" and "accepted" say the same. -/
theorem rejected_eq_not_accepted (c : Char) (cs : List Char) :
    rejectedCompound (c :: cs) = !acceptedCompound (c :: cs) := by
  unfold rejectedCompound acceptedCompound
  rw [all_valid_eq_not_any]
  by_cases hv : _is_valid_char c = true
  swap
  · simp [hv]
  by_cases ho : c = '('
  · subst ho
    cases h1 : cs.any (fun c => !_is_valid_char c) <;> cases h2 : parensMatched 1 cs <;>
      simp [startsUpperOrOpen, startsLowerOrDigit, parensMatched, h1, h2, hv]
  by_cases hc : c = ')'
  · subst hc
    simp [startsUpperOrOpen, startsLowerOrDigit, parensMatched]
  by_cases hu : c.isUpper = true
  · obtain ⟨hl, hd⟩ := upper_not_lower_digit c hu
    cases h1 : cs.any (fun c => !_is_valid_char c) <;> cases h2 : parensMatched 0 cs <;>
      simp [startsUpperOrOpen, startsLowerOrDigit, parensMatched, h1, h2, hv, hu, hl, hd, ho, hc]
  · have hld : c.isLower = true ∨ c.isDigit = true := by
      simp [_is_valid_char, ho, hc, hu] at hv
      exact hv
    rcases hld with hl | hd
    · simp [startsUpperOrOpen, startsLowerOrDigit, hl, hu, ho]
    · simp [startsUpperOrOpen, startsLowerOrDigit, hd, hu, ho]

/-- C10: `_compound_str_separator` fails, returning no tokens, on every rejected
string (an illegal character, unmatched parentheses, or a lowercase letter or
digit first); on every other non-empty string it succeeds with a non-empty token
list; and those other non-empty strings are exactly the accepted ones (legal
characters, an uppercase letter or `(` first, matched parentheses). -/
theorem compound_str_separator_fails_iff_rejected (s : List Char) :
    (rejectedCompound s = true →
      (∃ e, separatorTry s = .error e) ∧ _compound_str_separator s = []) ∧
    (s ≠ [] → rejectedCompound s = false →
      (∃ toks, separatorTry s = .ok toks) ∧ _compound_str_separator s ≠ []) ∧
    (s ≠ [] → (rejectedCompound s = false ↔ acceptedCompound s = true)) := by
  cases s with
  | nil => simp [rejectedCompound, parensMatched, startsLowerOrDigit]
  | cons c cs =>
    have h := separatorTry_cons c cs
    have hr := rejected_eq_not_accepted c cs
    unfold _compound_str_separator
    cases hres : separatorTry (c :: cs) with
    | error e =>
      rw [hres] at h
      simp only at h
      simp [hr, h]
    | ok out =>
      rw [hres] at h
      simp only at h
      simp [hr, h.1, h.2]

/-- C10 at concrete strings: three rejected ones and two accepted ones. -/
theorem compound_str_separator_fails_iff_rejected_witness :
    _compound_str_separator "Ca(OH".toList = [] ∧
    _compound_str_separator "CuSO4.5H2O".toList = [] ∧
    _compound_str_separator "2H".toList = [] ∧
    _compound_str_separator "(OH)2Ca".toList ≠ [] ∧
    _compound_str_separator "Ca(OH)2".toList ≠ [] :=
  ⟨((compound_str_separator_fails_iff_rejected "Ca(OH".toList).1 (by decide)).2,
   ((compound_str_separator_fails_iff_rejected "CuSO4.5H2O".toList).1 (by decide)).2,
   ((compound_str_separator_fails_iff_rejected "2H".toList).1 (by decide)).2,
   ((compound_str_separator_fails_iff_rejected "(OH)2Ca".toList).2.1 (by decide) (by decide)).2,
   ((compound_str_separator_fails_iff_rejected "Ca(OH)2".toList).2.1 (by decide) (by decide)).2⟩

/-! ### The key order and compositions as sorted maps -/

theorem char_eq_of_toNat (a b : Char) (h : a.toNat = b.toNat) : a = b :=
  Char.ext (UInt32.ext h)

theorem strLt_irrefl : ∀ a : List Char, strLt a a = false
  | [] => rfl
  | c :: cs => by simp [strLt, strLt_irrefl cs]

theorem strLt_trans : ∀ a b c : List Char,
    strLt a b = true → strLt b c = true → strLt a c = true := by
  intro a
  induction a with
  | nil =>
    intro b c h1 h2
    cases b with
    | nil => simp [strLt] at h1
    | cons y ys =>
      cases c with
      | nil => simp [strLt] at h2
      | cons z zs => simp [strLt]
  | cons x xs ih =>
    intro b c h1 h2
    cases b with
    | nil => simp [strLt] at h1
    | cons y ys =>
      cases c with
      | nil => simp [strLt] at h2
      | cons z zs =>
        simp only [strLt] at h1 h2 ⊢
        by_cases hxy : x.toNat < y.toNat
        · by_cases hyz : y.toNat < z.toNat
          · have : x.toNat < z.toNat := by omega
            simp [this]
          · simp only [hyz, if_false] at h2
            by_cases e : y = z
            · subst e; simp [hxy]
            · simp [e] at h2
        · simp only [hxy, if_false] at h1
          by_cases e : x = y
          · subst e
            simp only [if_true] at h1
            by_cases hyz : x.toNat < z.toNat
            · simp [hyz]
            · simp only [hyz, if_false] at h2 ⊢
              by_cases e2 : x = z
              · subst e2
                simp only [if_true] at h2 ⊢
                exact ih _ _ h1 h2
              · simp [e2] at h2
          · simp [e] at h1

theorem strLt_total : ∀ a b : List Char, a ≠ b → strLt a b = false → strLt b a = true := by
  intro a
  induction a with
  | nil =>
    intro b hne h
    cases b with
    | nil => exact absurd rfl hne
    | cons y ys => simp [strLt] at h
  | cons x xs ih =>
    intro b hne h
    cases b with
    | nil => simp [strLt]
    | cons y ys =>
      simp only [strLt] at h ⊢
      by_cases hxy : x.toNat < y.toNat
      · simp [hxy] at h
      · simp only [hxy, if_false] at h
        by_cases e : x = y
        · subst e
          simp only [if_true] at h
          have hne2 : xs ≠ ys := fun e2 => hne (by rw [e2])
          simp [ih ys hne2 h]
        · have : x.toNat ≠ y.toNat := fun e2 => e (char_eq_of_toNat _ _ e2)
          have : y.toNat < x.toNat := by omega
          simp [this]

theorem strLt_ne (a b : List Char) (h : strLt a b = true) : a ≠ b := by
  intro e
  subst e
  rw [strLt_irrefl] at h
  cases h

theorem countOf_none_of_lt (key : List Char) (m : Composition)
    (h : ∀ e ∈ m, strLt key e.1 = true) : countOf key m = none := by
  induction m with
  | nil => rfl
  | cons e rest ih =>
    obtain ⟨k, v⟩ := e
    have h1 := h (k, v) (by simp)
    have hne := strLt_ne _ _ h1
    simp only [countOf, hne, if_false]
    exact ih (fun e he => h e (by simp [he]))

theorem addToKey_sorted (key : List Char) (x : Nat) (m : Composition)
    (hm : SortedKeys m) :
    SortedKeys (addToKey key x m) ∧
      ∀ k0, (∀ e ∈ m, strLt k0 e.1 = true) → strLt k0 key = true →
        ∀ e ∈ addToKey key x m, strLt k0 e.1 = true := by
  induction m with
  | nil =>
    simp [addToKey, SortedKeys]
  | cons e rest ih =>
    obtain ⟨k, v⟩ := e
    have hm' := List.pairwise_cons.1 hm
    obtain ⟨ihs, ihb⟩ := ih hm'.2
    by_cases e1 : key = k
    · subst e1
      simp only [addToKey, if_true]
      refine ⟨List.pairwise_cons.2 ⟨hm'.1, hm'.2⟩, ?_⟩
      intro k0 h0 hk e he
      simp only [List.mem_cons] at he
      rcases he with rfl | he
      · exact hk
      · exact h0 e (by simp [he])
    · by_cases e2 : strLt key k = true
      · simp only [addToKey, e1, e2, if_true, if_false]
        refine ⟨List.pairwise_cons.2 ⟨?_, hm⟩, ?_⟩
        · intro a ha
          simp only [List.mem_cons] at ha
          rcases ha with rfl | ha
          · exact e2
          · exact strLt_trans _ _ _ e2 (hm'.1 a ha)
        · intro k0 h0 hk e he
          simp only [List.mem_cons] at he
          rcases he with rfl | rfl | he
          · exact hk
          · exact h0 _ (by simp)
          · exact h0 e (by simp [he])
      · simp only [addToKey, e1, e2, if_false, Bool.false_eq_true]
        have hkk : strLt k key = true :=
          strLt_total key k e1 (by simpa using e2)
        refine ⟨List.pairwise_cons.2 ⟨?_, ihs⟩, ?_⟩
        · exact ihb k hm'.1 hkk
        · intro k0 h0 hk e he
          simp only [List.mem_cons] at he
          rcases he with rfl | he
          · exact h0 _ (by simp)
          · exact ihb k0 (fun e he => h0 e (by simp [he])) hk e he

theorem countOf_addToKey (key : List Char) (x : Nat) (m : Composition)
    (hm : SortedKeys m) (j : List Char) :
    countOf j (addToKey key x m) =
      if j = key then some (((countOf key m).getD 0 + x) % UINT_MOD) else countOf j m := by
  induction m with
  | nil =>
    by_cases e : j = key <;> simp [addToKey, countOf, e]
  | cons e rest ih =>
    obtain ⟨k, v⟩ := e
    have hm' := List.pairwise_cons.1 hm
    by_cases e1 : key = k
    · subst e1
      by_cases e : j = key <;> simp [addToKey, countOf, e]
    · by_cases e2 : strLt key k = true
      · have hnone : countOf key rest = none :=
          countOf_none_of_lt key rest (fun a ha => strLt_trans _ _ _ e2 (hm'.1 a ha))
        by_cases e : j = key
        · subst e
          simp [addToKey, countOf, e1, e2, hnone]
        · simp [addToKey, countOf, e1, e2, e]
      · simp only [addToKey, e1, e2, if_false, countOf, Bool.false_eq_true]
        rw [ih hm'.2]
        by_cases e : j = key
        · subst e
          simp [e1]
        · simp [e]

/-! ### The tokenizer on generated formulas -/

theorem appendToBack_append (c : Char) (toks : List (List Char)) (t : List Char) :
    appendToBack c (toks ++ [t]) = toks ++ [t ++ [c]] := by
  induction toks with
  | nil => simp [appendToBack]
  | cons a as ih =>
    cases as with
    | nil => simp [appendToBack]
    | cons b bs =>
      simp only [List.cons_append] at ih ⊢
      simp only [appendToBack, ih]

theorem separatorLoop_lowerDigit (c : Char) (tail : List Char) (toks : List (List Char))
    (t : List Char) (h : c.isLower = true ∨ c.isDigit = true) :
    separatorLoop (c :: tail) 0 (toks ++ [t]) = separatorLoop tail 0 (toks ++ [t ++ [c]]) := by
  have ho : c ≠ '(' := by
    intro e; subst e; rcases h with h | h <;> exact absurd h (by decide)
  have hu : c.isUpper = false := by
    cases hh : c.isUpper
    · rfl
    · have := upper_not_lower_digit c hh
      rcases h with h | h <;> simp_all
  have hv : _is_valid_char c = true := by
    rcases h with h | h <;> simp [_is_valid_char, h]
  have hld : (c.isLower || c.isDigit) = true := by
    rcases h with h | h <;> simp [h]
  simp [separatorLoop, hv, ho, hu, hld, appendToBack_append]

theorem separatorLoop_run0 (xs : List Char) :
    ∀ (tail : List Char) (toks : List (List Char)) (t : List Char),
      (∀ c ∈ xs, c.isLower = true ∨ c.isDigit = true) →
      separatorLoop (xs ++ tail) 0 (toks ++ [t]) =
        separatorLoop tail 0 (toks ++ [t ++ xs]) := by
  induction xs with
  | nil => intro tail toks t _; simp
  | cons c cs ih =>
    intro tail toks t h
    rw [List.cons_append, separatorLoop_lowerDigit c _ toks t (h c (by simp))]
    rw [ih tail toks (t ++ [c]) (fun x hx => h x (by simp [hx]))]
    simp

theorem separatorLoop_inside (c : Char) (tail : List Char) (toks : List (List Char))
    (t : List Char) (d : Int) (hd : 0 < d)
    (h : c.isUpper = true ∨ c.isLower = true ∨ c.isDigit = true) :
    separatorLoop (c :: tail) d (toks ++ [t]) = separatorLoop tail d (toks ++ [t ++ [c]]) := by
  have ho : c ≠ '(' := by
    intro e; subst e; rcases h with h | h | h <;> exact absurd h (by decide)
  have hc : c ≠ ')' := by
    intro e; subst e; rcases h with h | h | h <;> exact absurd h (by decide)
  have hv : _is_valid_char c = true := by
    rcases h with h | h | h <;> simp [_is_valid_char, h]
  have hd0 : ¬ d = 0 := by omega
  simp [separatorLoop, hv, ho, hc, hd0, hd, appendToBack_append]

theorem separatorLoop_runInside (xs : List Char) :
    ∀ (tail : List Char) (toks : List (List Char)) (t : List Char) (d : Int), 0 < d →
      (∀ c ∈ xs, c.isUpper = true ∨ c.isLower = true ∨ c.isDigit = true) →
      separatorLoop (xs ++ tail) d (toks ++ [t]) =
        separatorLoop tail d (toks ++ [t ++ xs]) := by
  induction xs with
  | nil => intro tail toks t d _ _; simp
  | cons c cs ih =>
    intro tail toks t d hd h
    rw [List.cons_append, separatorLoop_inside c _ toks t d hd (h c (by simp))]
    rw [ih tail toks (t ++ [c]) d hd (fun x hx => h x (by simp [hx]))]
    simp

theorem separatorLoop_open_inside (tail : List Char) (toks : List (List Char))
    (t : List Char) (d : Int) (hd : 0 < d) :
    separatorLoop ('(' :: tail) d (toks ++ [t]) =
      separatorLoop tail (d + 1) (toks ++ [t ++ ['(']]) := by
  have hv : _is_valid_char '(' = true := by decide
  have h1 : ¬ d + 1 = 1 := by omega
  have h0 : ¬ d + 1 = 0 := by omega
  have h2 : 0 < d + 1 := by omega
  simp [separatorLoop, hv, h1, h0, h2, appendToBack_append]

theorem separatorLoop_close (tail : List Char) (toks : List (List Char))
    (t : List Char) (d : Int) (hd : 0 < d) :
    separatorLoop (')' :: tail) d (toks ++ [t]) =
      separatorLoop tail (d - 1) (toks ++ [t ++ [')']]) := by
  have hv : _is_valid_char ')' = true := by decide
  have h0 : ¬ d = 0 := by omega
  simp [separatorLoop, hv, h0, hd, appendToBack_append]

theorem generated_bare {upper : Char} {lowers digits : List Char} {rest : Formula}
    (h : (Formula.bare upper lowers digits rest).generated = true) :
    upper.isUpper = true ∧ (∀ c ∈ lowers, c.isLower = true) ∧
      (∀ c ∈ digits, c.isDigit = true) ∧ decimalValue digits ≤ INT_MAX ∧
      rest.generated = true := by
  simpa [Formula.generated, and_assoc] using h

theorem generated_group {body : Formula} {digits : List Char} {rest : Formula}
    (h : (Formula.group body digits rest).generated = true) :
    body.nonEmpty = true ∧ body.generated = true ∧
      (∀ c ∈ digits, c.isDigit = true) ∧ decimalValue digits ≤ INT_MAX ∧
      rest.generated = true := by
  simpa [Formula.generated, and_assoc] using h

/-- Inside parentheses the tokenizer appends a whole generated formula to the
open token. -/
theorem separatorLoop_render_inside (f : Formula) :
    f.generated = true →
    ∀ (tail : List Char) (toks : List (List Char)) (t : List Char) (d : Int), 0 < d →
      separatorLoop (f.render ++ tail) d (toks ++ [t]) =
        separatorLoop tail d (toks ++ [t ++ f.render]) := by
  induction f with
  | done => intro _ tail toks t d _; simp [Formula.render]
  | bare upper lowers digits rest ih =>
    intro hg tail toks t d hd
    obtain ⟨hu, hl, hdg, _, hr⟩ := generated_bare hg
    have hrun : ∀ c ∈ upper :: (lowers ++ digits),
        c.isUpper = true ∨ c.isLower = true ∨ c.isDigit = true := by
      intro c hc
      simp only [List.mem_cons, List.mem_append] at hc
      rcases hc with rfl | hc | hc
      · exact Or.inl hu
      · exact Or.inr (Or.inl (hl c hc))
      · exact Or.inr (Or.inr (hdg c hc))
    have e : (Formula.bare upper lowers digits rest).render ++ tail =
        (upper :: (lowers ++ digits)) ++ (rest.render ++ tail) := by
      simp [Formula.render]
    rw [e, separatorLoop_runInside _ _ toks t d hd hrun, ih hr _ toks _ d hd]
    simp [Formula.render]
  | group body digits rest ihb ihr =>
    intro hg tail toks t d hd
    obtain ⟨_, hb, hdg, _, hr⟩ := generated_group hg
    have hrun : ∀ c ∈ digits, c.isUpper = true ∨ c.isLower = true ∨ c.isDigit = true :=
      fun c hc => Or.inr (Or.inr (hdg c hc))
    have e : (Formula.group body digits rest).render ++ tail =
        '(' :: (body.render ++ (')' :: (digits ++ (rest.render ++ tail)))) := by
      simp [Formula.render]
    rw [e, separatorLoop_open_inside _ toks t d hd,
      ihb hb _ toks _ (d + 1) (by omega),
      separatorLoop_close _ toks _ (d + 1) (by omega)]
    have e2 : d + 1 - 1 = d := by omega
    rw [e2, separatorLoop_runInside _ _ toks _ d hd hrun, ihr hr _ toks _ d hd]
    simp [Formula.render]

/-- At depth 0 the tokenizer turns a generated formula into its entity strings. -/
theorem separatorLoop_render (f : Formula) :
    f.generated = true →
    ∀ (toks : List (List Char)),
      separatorLoop f.render 0 toks = .ok (toks ++ f.entities) := by
  induction f with
  | done => intro _ toks; simp [Formula.render, Formula.entities, separatorLoop]
  | bare upper lowers digits rest ih =>
    intro hg toks
    obtain ⟨hu, hl, hdg, _, hr⟩ := generated_bare hg
    have ho : upper ≠ '(' := by
      intro e; subst e; exact absurd hu (by decide)
    have hv : _is_valid_char upper = true := by simp [_is_valid_char, hu]
    have hrun : ∀ c ∈ lowers ++ digits, c.isLower = true ∨ c.isDigit = true := by
      intro c hc
      simp only [List.mem_append] at hc
      rcases hc with hc | hc
      · exact Or.inl (hl c hc)
      · exact Or.inr (hdg c hc)
    have step : separatorLoop (Formula.bare upper lowers digits rest).render 0 toks =
        separatorLoop ((lowers ++ digits) ++ rest.render) 0 (toks ++ [[upper]]) := by
      simp [Formula.render, separatorLoop, hv, ho, hu]
    rw [step, separatorLoop_run0 _ _ toks _ hrun, ih hr]
    simp [Formula.entities]
  | group body digits rest ihb ihr =>
    intro hg toks
    obtain ⟨_, hb, hdg, _, hr⟩ := generated_group hg
    have hrun : ∀ c ∈ digits, c.isLower = true ∨ c.isDigit = true :=
      fun c hc => Or.inr (hdg c hc)
    have hv : _is_valid_char '(' = true := by decide
    have step : separatorLoop (Formula.group body digits rest).render 0 toks =
        separatorLoop (body.render ++ (')' :: (digits ++ rest.render))) 1
          (toks ++ [['(']]) := by
      simp [Formula.render, separatorLoop, hv]
    rw [step, separatorLoop_render_inside body hb _ toks _ 1 (by omega),
      separatorLoop_close _ toks _ 1 (by omega)]
    have e2 : (1 : Int) - 1 = 0 := by omega
    rw [e2, separatorLoop_run0 _ _ toks _ hrun, ihr hr]
    simp [Formula.entities]

theorem entities_ne_nil (f : Formula) (h : f.nonEmpty = true) : f.entities ≠ [] := by
  cases f <;> simp_all [Formula.entities, Formula.nonEmpty]

/-- The tokenizer returns the entity strings of a generated formula. -/
theorem compound_str_separator_render (f : Formula) (hg : f.generated = true) :
    _compound_str_separator f.render = f.entities := by
  unfold _compound_str_separator separatorTry
  rw [separatorLoop_render f hg []]
  simp

/-! ### The entity splitter on entity strings -/

theorem scanSeparatingIndex_digits (rs : List Char) (rest : List Char)
    (h : ∀ c ∈ rs, c.isDigit = true) :
    scanSeparatingIndex (rs ++ rest) = scanSeparatingIndex rest := by
  induction rs with
  | nil => rfl
  | cons c cs ih =>
    have hc := h c (by simp)
    simp only [List.cons_append, scanSeparatingIndex, hc, Bool.not_true, Bool.false_eq_true,
      if_false]
    exact ih (fun x hx => h x (by simp [hx]))

/-- The entity splitter on `xs ++ ds`, where `xs` ends in a character that is
neither a digit nor `(` and `ds` is a run of digits within `int` range. -/
theorem entity_split (ys : List Char) (c : Char) (ds : List Char)
    (hc : c.isDigit = false) (hco : c ≠ '(') (hds : ∀ x ∈ ds, x.isDigit = true)
    (hval : decimalValue ds ≤ INT_MAX) :
    _entity_str_to_entity_and_coef ((ys ++ [c]) ++ ds) =
      some (if (ys ++ [c]).head? == some '(' then (ys ++ [c]).tail.dropLast else ys ++ [c],
        Formula.runCount ds) := by
  have hhead : ((ys ++ [c]) ++ ds).head? = (ys ++ [c]).head? := by
    cases ys <;> simp
  have hlen : (ys ++ [c]).length = ys.length + 1 := by simp
  have hsub : substr (ys ++ [c]) 1 ((ys ++ [c]).length - 2) = (ys ++ [c]).tail.dropLast := by
    cases ys with
    | nil => simp [substr]
    | cons y ys' => simp [substr, List.dropLast_concat, List.take_append_eq_append_take]
  rcases List.eq_nil_or_concat ds with rfl | ⟨ds', dl, rfl⟩
  · have hrev : (ys ++ [c]).reverse = c :: ys.reverse := by simp
    unfold _entity_str_to_entity_and_coef
    simp only [List.append_nil]
    rw [hrev]
    simp only [hc, Bool.false_eq_true, if_false, hsub]
    cases hh : ((ys ++ [c]).head? == some '(') <;> simp [Formula.runCount]
  · rw [List.concat_eq_append] at hds hval hhead ⊢
    have hdl : dl.isDigit = true := hds dl (by simp)
    have hds' : ∀ x ∈ ds'.reverse, x.isDigit = true :=
      fun x hx => hds x (by simp [List.mem_reverse.1 hx])
    have hrev : ((ys ++ [c]) ++ (ds' ++ [dl])).reverse =
        dl :: (ds'.reverse ++ (c :: ys.reverse)) := by simp
    have hscan : scanSeparatingIndex (dl :: (ds'.reverse ++ (c :: ys.reverse))) =
        some (ys.length + 1) := by
      simp only [scanSeparatingIndex, hdl, Bool.not_true, Bool.false_eq_true, if_false]
      rw [scanSeparatingIndex_digits _ _ hds']
      simp [scanSeparatingIndex, hc]
    have hdrop : substr ((ys ++ [c]) ++ (ds' ++ [dl])) (ys.length + 1)
        (((ys ++ [c]) ++ (ds' ++ [dl])).length - (ys.length + 1)) = ds' ++ [dl] := by
      unfold substr
      rw [List.drop_left' hlen]
      apply List.take_of_length_le
      simp only [List.length_append, List.length_cons, List.length_nil]
      omega
    have hstoi : stoi (ds' ++ [dl]) = some (decimalValue (ds' ++ [dl])) := by
      unfold stoi
      rw [if_pos hval]
    have hrun : Formula.runCount (ds' ++ [dl]) = decimalValue (ds' ++ [dl]) := by
      simp [Formula.runCount]
    have htake : substr ((ys ++ [c]) ++ (ds' ++ [dl])) 0 (ys.length + 1) = ys ++ [c] := by
      unfold substr
      rw [List.drop_zero, ← hlen, List.take_left]
    unfold _entity_str_to_entity_and_coef
    rw [hrev]
    simp only [hdl, if_true, hscan, hdrop, hstoi, hhead, hrun, htake]
    cases ys with
    | nil =>
      simp [hco]
    | cons y ys' =>
      have h2 : ¬ (y :: ys').length + 1 < 2 := by simp
      have hmid : substr (((y :: ys') ++ [c]) ++ (ds' ++ [dl])) 1 ((y :: ys').length + 1 - 2) =
          ((y :: ys') ++ [c]).tail.dropLast := by
        simp [substr, List.dropLast_concat, List.take_append_eq_append_take]
      simp only [h2, if_false, hmid]
      cases hh : (((y :: ys') ++ [c]).head? == some '(') <;> simp

theorem entity_bare (upper : Char) (lowers digits : List Char)
    (hu : upper.isUpper = true) (hl : ∀ c ∈ lowers, c.isLower = true)
    (hd : ∀ c ∈ digits, c.isDigit = true) (hval : decimalValue digits ≤ INT_MAX) :
    _entity_str_to_entity_and_coef (upper :: (lowers ++ digits)) =
      some (upper :: lowers, Formula.runCount digits) := by
  rcases List.eq_nil_or_concat (upper :: lowers) with h | ⟨ys, c, h⟩
  · cases h
  · rw [List.concat_eq_append] at h
    have hmem : c ∈ upper :: lowers := by rw [h]; simp
    have hcls : c.isUpper = true ∨ c.isLower = true := by
      simp only [List.mem_cons] at hmem
      rcases hmem with rfl | hm
      · exact Or.inl hu
      · exact Or.inr (hl c hm)
    have hc : c.isDigit = false := by
      rcases hcls with h1 | h1
      · exact (upper_not_lower_digit c h1).2
      · exact lower_not_digit c h1
    have hco : c ≠ '(' := by
      intro e; subst e; rcases hcls with h1 | h1 <;> exact absurd h1 (by decide)
    have huo : upper ≠ '(' := by
      intro e; subst e; exact absurd hu (by decide)
    have e : upper :: (lowers ++ digits) = (ys ++ [c]) ++ digits := by
      rw [← h]; simp
    rw [e, entity_split ys c digits hc hco hd hval, ← h]
    simp [huo]

theorem entity_group (body digits : List Char)
    (hd : ∀ c ∈ digits, c.isDigit = true) (hval : decimalValue digits ≤ INT_MAX) :
    _entity_str_to_entity_and_coef ('(' :: (body ++ ')' :: digits)) =
      some (body, Formula.runCount digits) := by
  have e : '(' :: (body ++ ')' :: digits) = (('(' :: body) ++ [')']) ++ digits := by simp
  rw [e, entity_split ('(' :: body) ')' digits (by decide) (by decide) hd hval]
  simp [List.dropLast_concat]

/-! ### The composition of a generated formula -/

theorem bump_bump (o : Option Nat) (p1 p2 : Bool) (n1 n2 : Nat)
    (h2 : p2 = false → n2 = 0) :
    bump (bump o p1 n1) p2 n2 = bump o (p1 || p2) ((if p1 then n1 else 0) + n2) := by
  cases p1 <;> cases p2 <;> simp_all [bump, Nat.add_assoc]

theorem bump_congr (o : Option Nat) (p : Bool) (n n' : Nat)
    (h : n % UINT_MOD = n' % UINT_MOD) : bump o p n = bump o p n' := by
  cases p
  · rfl
  · simp only [bump, if_true]
    rw [Nat.add_mod, h, ← Nat.add_mod]

theorem countOf_addToKey_bump (key : List Char) (x : Nat) (m : Composition)
    (hm : SortedKeys m) (j : List Char) :
    countOf j (addToKey key x m) = bump (countOf j m) (decide (j = key)) x := by
  rw [countOf_addToKey key x m hm j]
  by_cases e : j = key
  · subst e; simp [bump]
  · simp [bump, e]

theorem addScaled_spec (sub : Composition) (coef : Nat) :
    SortedKeys sub → ∀ acc, SortedKeys acc →
      SortedKeys (addScaled sub coef acc) ∧
      ∀ j, countOf j (addScaled sub coef acc) =
        bump (countOf j acc) (countOf j sub).isSome ((countOf j sub).getD 0 * coef) := by
  induction sub with
  | nil => intro _ acc hacc; simp [addScaled, countOf, bump, hacc]
  | cons e rest ih =>
    intro hs acc hacc
    obtain ⟨k, v⟩ := e
    have hs' := List.pairwise_cons.1 hs
    have hacc' := (addToKey_sorted k ((v * coef) % UINT_MOD) acc hacc).1
    obtain ⟨h1, h2⟩ := ih hs'.2 _ hacc'
    have hunf : addScaled ((k, v) :: rest) coef acc =
        addScaled rest coef (addToKey k ((v * coef) % UINT_MOD) acc) := by
      simp [addScaled]
    rw [hunf]
    refine ⟨h1, ?_⟩
    intro j
    rw [h2 j, countOf_addToKey_bump k _ acc hacc j]
    by_cases e : j = k
    · subst e
      have hnone : countOf j rest = none := countOf_none_of_lt j rest hs'.1
      simp [hnone, countOf, bump]
    · simp [countOf, e, bump]

theorem atomCount_of_not_mentions (j : List Char) (f : Formula) :
    f.mentions j = false → f.atomCount j = 0 := by
  induction f with
  | done => intro _; rfl
  | bare upper lowers digits rest ih =>
    intro h
    simp only [Formula.mentions, Bool.or_eq_false_iff, decide_eq_false_iff_not] at h
    simp [Formula.atomCount, h.1, ih h.2]
  | group body digits rest ihb ihr =>
    intro h
    simp only [Formula.mentions, Bool.or_eq_false_iff] at h
    simp [Formula.atomCount, ihb h.1, ihr h.2]

/-- The loop of `_get_compound_composition` over the entities of a generated
formula: it returns, keeps the map sorted, and adds to every symbol its atom count. -/
theorem compositionLoop_entities (f : Formula) :
    f.generated = true → ∀ fuel, f.depth ≤ fuel → ∀ acc, SortedKeys acc →
      ∃ m, compositionLoop (compositionFuel fuel) f.entities acc = some m ∧ SortedKeys m ∧
        ∀ j, countOf j m = bump (countOf j acc) (f.mentions j) (f.atomCount j) := by
  induction f with
  | done =>
    intro _ fuel _ acc hacc
    exact ⟨acc, rfl, hacc, fun j => by simp [bump, Formula.mentions]⟩
  | bare upper lowers digits rest ih =>
    intro hg fuel hfuel acc hacc
    obtain ⟨hu, hl, hdg, hval, hr⟩ := generated_bare hg
    have huo : upper ≠ '(' := by
      intro e; subst e; exact absurd hu (by decide)
    have hacc' := (addToKey_sorted (upper :: lowers) (Formula.runCount digits) acc hacc).1
    obtain ⟨m, hm, hsm, hcm⟩ := ih hr fuel (by simpa [Formula.depth] using hfuel) _ hacc'
    refine ⟨m, ?_, hsm, ?_⟩
    · simp only [Formula.entities, compositionLoop, entity_bare upper lowers digits hu hl hdg hval]
      simpa [huo] using hm
    · intro j
      rw [hcm j, countOf_addToKey_bump _ _ acc hacc j]
      rw [bump_bump _ _ _ _ _ (atomCount_of_not_mentions j rest)]
      by_cases e : j = upper :: lowers
      · simp [Formula.mentions, Formula.atomCount, e]
      · simp [Formula.mentions, Formula.atomCount, e]
  | group body digits rest ihb ihr =>
    intro hg fuel hfuel acc hacc
    obtain ⟨hne, hb, hdg, hval, hr⟩ := generated_group hg
    simp only [Formula.depth, Nat.max_le] at hfuel
    obtain ⟨fuel', rfl⟩ : ∃ fuel', fuel = fuel' + 1 := ⟨fuel - 1, by omega⟩
    obtain ⟨sub, hsub, hssub, hcsub⟩ := ihb hb fuel' (by omega) [] (by simp [SortedKeys])
    have hrec : compositionFuel (fuel' + 1) body.render = some sub := by
      have hents := entities_ne_nil body hne
      simp only [compositionFuel, compound_str_separator_render body hb]
      cases hE : body.entities with
      | nil => exact absurd hE hents
      | cons e r => rw [hE] at hsub; exact hsub
    obtain ⟨hs2, hc2⟩ := addScaled_spec sub (Formula.runCount digits) hssub acc hacc
    obtain ⟨m, hm, hsm, hcm⟩ := ihr hr (fuel' + 1) hfuel.2 _ hs2
    refine ⟨m, ?_, hsm, ?_⟩
    · simp only [Formula.entities, compositionLoop,
        entity_group body.render digits hdg hval, hrec]
      simpa using hm
    · intro j
      rw [hcm j, hc2 j, hcsub j]
      have hz := atomCount_of_not_mentions j body
      rw [bump_bump _ _ _ _ _ (atomCount_of_not_mentions j rest)]
      cases hmb : body.mentions j
      · simp [bump, countOf, Formula.mentions, Formula.atomCount, hmb, hz hmb]
      · simp only [Formula.mentions, Formula.atomCount, hmb, Bool.true_or]
        apply bump_congr
        simp only [bump, countOf, if_true, Option.isSome_some, Option.getD_some,
          Option.getD_none, Nat.zero_add]
        rw [Nat.add_mod, Nat.mul_mod, Nat.mod_mod, ← Nat.mul_mod, ← Nat.add_mod]

theorem depth_le_length (f : Formula) : f.depth ≤ f.render.length := by
  induction f with
  | done => simp [Formula.depth]
  | bare upper lowers digits rest ih =>
    simp only [Formula.depth, Formula.render, List.length_cons, List.length_append]
    omega
  | group body digits rest ihb ihr =>
    simp only [Formula.depth, Formula.render, List.length_cons, List.length_append, Nat.max_le]
    omega

/-- C1 (as amended): for every compound string generated by the grammar, with
every digit run within `int` range, `_get_compound_composition` returns a map
that holds exactly the symbols of the formula and gives each its total atom
count under manual expansion reduced modulo `2^32` (the counts are `unsigned`);
so it gives the total itself whenever that is below `2^32`. -/
theorem get_compound_composition_generated (f : Formula)
    (hg : f.generated = true) (hne : f.nonEmpty = true) :
    ∃ m, _get_compound_composition f.render = some m ∧ SortedKeys m ∧
      (∀ symbol, countOf symbol m =
        if f.mentions symbol then some (f.atomCount symbol % UINT_MOD) else none) ∧
      (∀ symbol, f.atomCount symbol < UINT_MOD → countOf symbol m =
        if f.mentions symbol then some (f.atomCount symbol) else none) := by
  obtain ⟨m, hm, hs, hc⟩ := compositionLoop_entities f hg f.render.length
    (depth_le_length f) [] (by simp [SortedKeys])
  have hents := entities_ne_nil f hne
  have hrun : _get_compound_composition f.render = some m := by
    unfold _get_compound_composition
    simp only [compositionFuel, compound_str_separator_render f hg]
    cases hE : f.entities with
    | nil => exact absurd hE hents
    | cons e r => rw [hE] at hm; exact hm
  have hc' : ∀ symbol, countOf symbol m =
      if f.mentions symbol then some (f.atomCount symbol % UINT_MOD) else none := by
    intro symbol
    rw [hc symbol]
    cases f.mentions symbol <;> simp [bump, countOf]
  refine ⟨m, hrun, hs, hc', ?_⟩
  intro symbol hlt
  rw [hc' symbol, Nat.mod_eq_of_lt hlt]

/-- C1 at `Ca(OH)2`: the composition is `{Ca:1, H:2, O:2}`. -/
theorem get_compound_composition_generated_witness :
    calciumHydroxide.render = "Ca(OH)2".toList ∧
    _get_compound_composition "Ca(OH)2".toList =
      some [("Ca".toList, 1), ("H".toList, 2), ("O".toList, 2)] ∧
    ∃ m, _get_compound_composition calciumHydroxide.render = some m ∧ SortedKeys m ∧
      (∀ symbol, countOf symbol m =
        if calciumHydroxide.mentions symbol
        then some (calciumHydroxide.atomCount symbol % UINT_MOD) else none) ∧
      (∀ symbol, calciumHydroxide.atomCount symbol < UINT_MOD → countOf symbol m =
        if calciumHydroxide.mentions symbol
        then some (calciumHydroxide.atomCount symbol) else none) :=
  ⟨by decide, by decide,
    get_compound_composition_generated calciumHydroxide (by decide) (by decide)⟩

/-- C1 as stated fails: `H2147483647H2147483647H2` is generated by the grammar with
every digit run within `int` range and denotes `2^32` atoms of `H`, but the map
returned gives `H` the count 0. -/
theorem get_compound_composition_exact_counterexample :
    hydrogenOverflow.generated = true ∧ hydrogenOverflow.nonEmpty = true ∧
    hydrogenOverflow.render = "H2147483647H2147483647H2".toList ∧
    hydrogenOverflow.atomCount "H".toList = 4294967296 ∧
    _get_compound_composition hydrogenOverflow.render = some [("H".toList, 0)] ∧
    (_get_compound_composition hydrogenOverflow.render).bind (countOf "H".toList) ≠
      some (hydrogenOverflow.atomCount "H".toList) := by
  refine ⟨by decide, by decide, by decide, by decide, by decide, by decide⟩

/-! ### The arithmetic of `int` -/

theorem wrap32_eq_zero_iff (x : Int) : wrap32 x = 0 ↔ x % 4294967296 = 0 := by
  unfold wrap32
  omega

theorem wrap32_idem (x : Int) : wrap32 (wrap32 x) = wrap32 x := by
  unfold wrap32
  omega

theorem wrap32_modEq (x : Int) : wrap32 x ≡ x [ZMOD 4294967296] := by
  unfold wrap32 Int.ModEq
  omega

theorem wrap32_congr {x y : Int} (h : x ≡ y [ZMOD 4294967296]) : wrap32 x = wrap32 y := by
  unfold Int.ModEq at h
  unfold wrap32
  omega

theorem wrap32_step (sum dotRest : Int) (c : Nat) (e : Int) :
    wrap32 (wrap32 (sum + wrap32 (wrap32 (c : Int) * e)) + dotRest) =
      wrap32 (sum + ((c : Int) * e + dotRest)) := by
  apply wrap32_congr
  have h1 : wrap32 (c : Int) * e ≡ (c : Int) * e [ZMOD 4294967296] :=
    (wrap32_modEq _).mul_right e
  have h2 : wrap32 (wrap32 (c : Int) * e) ≡ (c : Int) * e [ZMOD 4294967296] :=
    (wrap32_modEq _).trans h1
  have h3 : wrap32 (sum + wrap32 (wrap32 (c : Int) * e)) ≡ sum + (c : Int) * e
      [ZMOD 4294967296] :=
    (wrap32_modEq _).trans (Int.ModEq.add_left sum h2)
  have h4 := Int.ModEq.add_right dotRest h3
  rw [add_assoc] at h4
  exact h4

/-- The row loop computes the dot product, wrapped to 32 bits. -/
theorem rowSum_eq (cs : List Nat) :
    ∀ (es : List Int) (sum : Int), cs.length ≤ es.length → wrap32 sum = sum →
      rowSum cs es sum = some (wrap32 (sum + dot cs es)) := by
  induction cs with
  | nil => intro es sum _ h; simp [rowSum, dot, h]
  | cons c cs ih =>
    intro es sum hlen h
    cases es with
    | nil => simp at hlen
    | cons e es =>
      simp only [rowSum, dot]
      rw [ih es _ (by simpa using hlen) (wrap32_idem _), wrap32_step]

/-- The `balanced` flag of the solver is `balancedInt32`. -/
theorem checkRows_eq (coefs : List Nat) (matrix : List (List Int))
    (h : ∀ row ∈ matrix, coefs.length ≤ row.length) :
    checkRows coefs matrix = some (balancedInt32 matrix coefs) := by
  induction matrix with
  | nil => rfl
  | cons row rest ih =>
    have hrow := rowSum_eq coefs row 0 (h row (by simp)) (by decide)
    simp only [checkRows, hrow, Int.zero_add]
    have ih' := ih (fun r hr => h r (by simp [hr]))
    by_cases hz : dot coefs row % 4294967296 = 0
    · have : wrap32 (dot coefs row) = 0 := (wrap32_eq_zero_iff _).2 hz
      simp only [this, ne_eq, not_true_eq_false, if_false, ih', balancedInt32, List.all_cons,
        hz, decide_True, Bool.true_and]
    · have : wrap32 (dot coefs row) ≠ 0 := fun h0 => hz ((wrap32_eq_zero_iff _).1 h0)
      simp only [ne_eq, this, not_false_eq_true, if_true, balancedInt32, List.all_cons, hz,
        decide_False, Bool.false_and]

/-! ### The solver enumerates `[1, M]^columns` -/

theorem take_set_succ (l : List Nat) :
    ∀ (k i : Nat), k < l.length → (l.set k i).take (k + 1) = l.take k ++ [i] := by
  induction l with
  | nil => intro k i h; simp at h
  | cons x xs ih =>
    intro k i h
    cases k with
    | zero => simp
    | succ k =>
      simp only [List.set_cons_succ, List.take_succ_cons, List.cons_append]
      rw [ih k i (by simpa using h)]

theorem take_of_take_succ (l l' : List Nat) (k i : Nat) (hk : k ≤ l'.length)
    (h : l.take (k + 1) = l'.take k ++ [i]) : l.take k = l'.take k := by
  have h1 : (l.take (k + 1)).take k = l.take k := by
    rw [List.take_take]
    congr 1
    omega
  rw [← h1, h]
  have hlen : (l'.take k).length = k := by simp [hk]
  exact List.take_left' hlen

theorem resultsAfter_append (multi : Bool) (results A B : List (List Nat)) :
    resultsAfter multi (resultsAfter multi results A) B = resultsAfter multi results (A ++ B) := by
  cases multi
  · cases results with
    | nil =>
      cases A with
      | nil => simp [resultsAfter]
      | cons a as => simp [resultsAfter]
    | cons r rs => simp [resultsAfter]
  · simp [resultsAfter]

theorem candidates_succ (matrix : List (List Int)) (M n : Nat) (assigned : List Nat) :
    candidates matrix M (n + 1) assigned =
      ((extendAll (allVectors M n) (List.range' 1 M)).map
        (fun suffix => assigned ++ suffix)).filter (balancedInt32 matrix) := rfl

/-- The loop over the values of one column, given the behaviour of the call for
the next column. -/
theorem solverLoop_spec (multi : Bool) (M : Nat) (matrix : List (List Int))
    (columns n floor : Nat) (hfloor : floor < columns)
    (IH : ∀ coefs results, coefs.length = columns →
      ∃ coefs', solverFuel multi M matrix columns (n + 1) coefs (floor + 1) results =
          some (flagAfter multi n (candidates matrix M n (coefs.take (floor + 1))), coefs',
            resultsAfter multi results (candidates matrix M n (coefs.take (floor + 1)))) ∧
        coefs'.length = columns ∧ coefs'.take (floor + 1) = coefs.take (floor + 1)) :
    ∀ (is : List Nat) (coefs : List Nat) (results : List (List Nat)),
      coefs.length = columns →
      ∃ coefs',
        solverLoop multi
          (fun c r => solverFuel multi M matrix columns (n + 1) c (floor + 1) r)
          floor is coefs results =
        some (flagAfter multi (n + 1)
            (((extendAll (allVectors M n) is).map (fun suffix => coefs.take floor ++ suffix)).filter
              (balancedInt32 matrix)), coefs',
          resultsAfter multi results
            (((extendAll (allVectors M n) is).map (fun suffix => coefs.take floor ++ suffix)).filter
              (balancedInt32 matrix))) ∧
        coefs'.length = columns ∧ coefs'.take floor = coefs.take floor := by
  intro is
  induction is with
  | nil =>
    intro coefs results hlen
    refine ⟨coefs, ?_, hlen, rfl⟩
    cases multi <;> cases results <;> simp [solverLoop, extendAll, flagAfter, resultsAfter]
  | cons i is ih =>
    intro coefs results hlen
    have hlt : floor < coefs.length := by omega
    have hset : (coefs.set floor i).length = columns := by simp [hlen]
    obtain ⟨c1, hrun, hc1len, hc1take⟩ := IH (coefs.set floor i) results hset
    rw [take_set_succ coefs floor i hlt] at hrun hc1take
    have hc1 : c1.take floor = coefs.take floor :=
      take_of_take_succ c1 coefs floor i (by omega) hc1take
    -- the vectors found under the value `i`, and under the later values
    have hA : candidates matrix M n (coefs.take floor ++ [i]) =
        (((allVectors M n).map (fun t => i :: t)).map
          (fun suffix => coefs.take floor ++ suffix)).filter (balancedInt32 matrix) := by
      simp [candidates, List.map_map, Function.comp_def]
    have hsplit : ((extendAll (allVectors M n) (i :: is)).map
          (fun suffix => coefs.take floor ++ suffix)).filter (balancedInt32 matrix) =
        candidates matrix M n (coefs.take floor ++ [i]) ++
          ((extendAll (allVectors M n) is).map
            (fun suffix => coefs.take floor ++ suffix)).filter (balancedInt32 matrix) := by
      rw [hA]
      simp [extendAll, List.map_append, List.filter_append]
    rw [hsplit]
    obtain ⟨c2, hloop, hc2len, hc2take⟩ := ih c1
      (resultsAfter multi results (candidates matrix M n (coefs.take floor ++ [i]))) hc1len
    rw [hc1] at hloop hc2take
    generalize candidates matrix M n (coefs.take floor ++ [i]) = A at hrun hloop ⊢
    generalize ((extendAll (allVectors M n) is).map
      (fun suffix => coefs.take floor ++ suffix)).filter (balancedInt32 matrix) = B at hloop ⊢
    simp only [solverLoop, hlt, if_true, hrun]
    by_cases hstop : (flagAfter multi n A && !multi) = true
    · -- single-result mode and a vector was found: the loop returns at once
      simp only [hstop, if_true]
      have hm : multi = false := by
        cases multi <;> simp_all
      subst hm
      have hA' : A ≠ [] := by
        intro h0
        subst h0
        simp [flagAfter] at hstop
      refine ⟨c1, ?_, hc1len, hc1⟩
      cases A with
      | nil => exact absurd rfl hA'
      | cons a as => cases results <;> simp [flagAfter, resultsAfter]
    · simp only [hstop, Bool.false_eq_true, if_false]
      refine ⟨c2, ?_, hc2len, hc2take⟩
      rw [hloop, resultsAfter_append]
      congr 2
      cases multi
      · have hA' : A = [] := by
          cases A with
          | nil => rfl
          | cons a as => cases n <;> simp [flagAfter] at hstop
        subst hA'
        simp
      · simp [flagAfter]

/-- The solver with `n` columns left: it returns, and the result list and flag
are those of the vectors `candidates` that pass the test, in visiting order. -/
theorem solverFuel_spec (multi : Bool) (M : Nat) (matrix : List (List Int)) (columns : Nat)
    (hrect : ∀ row ∈ matrix, columns ≤ row.length) :
    ∀ (n floor : Nat) (coefs : List Nat) (results : List (List Nat)),
      floor + n = columns → coefs.length = columns →
      ∃ coefs', solverFuel multi M matrix columns (n + 1) coefs floor results =
          some (flagAfter multi n (candidates matrix M n (coefs.take floor)), coefs',
            resultsAfter multi results (candidates matrix M n (coefs.take floor))) ∧
        coefs'.length = columns ∧ coefs'.take floor = coefs.take floor := by
  intro n
  induction n with
  | zero =>
    intro floor coefs results hfl hlen
    have hfloor : floor = columns := by omega
    have htake : coefs.take floor = coefs := by
      apply List.take_of_length_le; omega
    have hcheck := checkRows_eq coefs matrix (fun row hr => by rw [hlen]; exact hrect row hr)
    refine ⟨coefs, ?_, hlen, rfl⟩
    simp only [solverFuel, hfloor, if_true, hcheck]
    rw [← hfloor, htake]
    cases hp : balancedInt32 matrix coefs
    · cases multi <;> cases results <;>
        simp [candidates, allVectors, hp, flagAfter, resultsAfter]
    · cases multi <;> cases results <;>
        simp [candidates, allVectors, hp, flagAfter, resultsAfter]
  | succ n ih =>
    intro floor coefs results hfl hlen
    have hne : floor ≠ columns := by omega
    have hloop := solverLoop_spec multi M matrix columns n floor (by omega)
      (fun c r hc => ih (floor + 1) c r (by omega) hc) (List.range' 1 M) coefs results hlen
    obtain ⟨c', hrun, hc'len, hc'take⟩ := hloop
    refine ⟨c', ?_, hc'len, hc'take⟩
    rw [candidates_succ]
    simp only [solverFuel, hne, if_false]
    exact hrun

/-! ### The vectors of `[1, M]^n` -/

theorem mem_extendAll (tails : List (List Nat)) (is : List Nat) (v : List Nat) :
    v ∈ extendAll tails is ↔ ∃ i t, i ∈ is ∧ t ∈ tails ∧ v = i :: t := by
  induction is with
  | nil => simp [extendAll]
  | cons j js ih =>
    simp only [extendAll, List.mem_append, List.mem_map, ih, List.mem_cons]
    constructor
    · rintro (⟨t, ht, rfl⟩ | ⟨i, t, hi, ht, rfl⟩)
      · exact ⟨j, t, Or.inl rfl, ht, rfl⟩
      · exact ⟨i, t, Or.inr hi, ht, rfl⟩
    · rintro ⟨i, t, hi | hi, ht, rfl⟩
      · subst hi; exact Or.inl ⟨t, ht, rfl⟩
      · exact Or.inr ⟨i, t, hi, ht, rfl⟩

/-- The list `allVectors M n` holds exactly the vectors of `[1, M]^n`. -/
theorem mem_allVectors (M : Nat) : ∀ (n : Nat) (v : List Nat),
    v ∈ allVectors M n ↔ inBox M n v := by
  intro n
  induction n with
  | zero =>
    intro v
    cases v <;> simp [allVectors, inBox]
  | succ n ih =>
    intro v
    simp only [allVectors, mem_extendAll, List.mem_range'_1, ih]
    constructor
    · rintro ⟨i, t, hi, ⟨ht1, ht2⟩, rfl⟩
      refine ⟨by simp [ht1], ?_⟩
      intro x hx
      simp only [List.mem_cons] at hx
      rcases hx with rfl | hx
      · omega
      · exact ht2 x hx
    · rintro ⟨hlen, hbox⟩
      cases v with
      | nil => simp at hlen
      | cons i t =>
        refine ⟨i, t, ?_, ⟨by simpa using hlen, fun x hx => hbox x (by simp [hx])⟩, rfl⟩
        have := hbox i (by simp)
        omega

theorem pairwise_extendAll (tails : List (List Nat))
    (ht : tails.Pairwise (fun a b => lexLt a b = true)) :
    ∀ (is : List Nat), is.Pairwise (· < ·) →
      (extendAll tails is).Pairwise (fun a b => lexLt a b = true) := by
  intro is
  induction is with
  | nil => intro _; simp [extendAll]
  | cons j js ih =>
    intro hjs
    have hjs' := List.pairwise_cons.1 hjs
    simp only [extendAll]
    rw [List.pairwise_append]
    refine ⟨?_, ih hjs'.2, ?_⟩
    · rw [List.pairwise_map]
      exact ht.imp (fun h => by simp [lexLt, h])
    · intro a ha b hb
      simp only [List.mem_map] at ha
      obtain ⟨t, _, rfl⟩ := ha
      obtain ⟨i, t', hi, _, rfl⟩ := (mem_extendAll _ _ _).1 hb
      have := hjs'.1 i hi
      simp [lexLt, this]

/-- The list `allVectors M n` is strictly increasing in the lexicographic order. -/
theorem pairwise_allVectors (M : Nat) : ∀ n : Nat,
    (allVectors M n).Pairwise (fun a b => lexLt a b = true) := by
  intro n
  induction n with
  | zero => simp [allVectors]
  | succ n ih =>
    apply pairwise_extendAll _ ih
    exact List.pairwise_lt_range' 1 M

theorem candidates_nil_prefix (matrix : List (List Int)) (M n : Nat) :
    candidates matrix M n [] = (allVectors M n).filter (balancedInt32 matrix) := by
  simp [candidates]

/-! ### The solver started at column 0 -/

/-- The solver started at column 0 on a matrix with at least one row, all rows as
long as the first, and a coefficient vector of that length: it returns, and it
changes the result list only, by the passing vectors of `[1, M]^columns` in
lexicographic order. -/
theorem solving_matrix_spec (s : State) (row0 : List Int) (rest : List (List Int))
    (coefs : List Nat) (hmatrix : s._main_matrix = row0 :: rest)
    (hrect : ∀ row ∈ s._main_matrix, row.length = row0.length)
    (hcoefs : coefs.length = row0.length) :
    ∃ coefs', _solving_matrix_using_recursion s coefs 0 =
      some (flagAfter s._multiple_results row0.length
          ((allVectors s._max_coef row0.length).filter (balancedInt32 s._main_matrix)),
        coefs',
        { s with _results_coefs := (resultsAfter s._multiple_results s._results_coefs
            ((allVectors s._max_coef row0.length).filter (balancedInt32 s._main_matrix))) }) := by
  obtain ⟨c', hrun, _, _⟩ := solverFuel_spec s._multiple_results s._max_coef s._main_matrix
    row0.length (fun row hr => le_of_eq (hrect row hr).symm) row0.length 0 coefs
    s._results_coefs (by omega) hcoefs
  refine ⟨c', ?_⟩
  rw [List.take_zero, candidates_nil_prefix] at hrun
  unfold _solving_matrix_using_recursion
  rw [hmatrix] at hrun ⊢
  simp only [Nat.sub_zero, hrun]

theorem lexLt_irrefl : ∀ v : List Nat, lexLt v v = false
  | [] => rfl
  | x :: xs => by simp [lexLt, lexLt_irrefl xs]

theorem natAbs_dot_le (M : Nat) : ∀ (v : List Nat) (row : List Int),
    (∀ x ∈ v, x ≤ M) → (dot v row).natAbs ≤ (row.map Int.natAbs).sum * M := by
  intro v
  induction v with
  | nil => intro row _; simp [dot]
  | cons c cs ih =>
    intro row h
    cases row with
    | nil => simp [dot]
    | cons e es =>
      have h1 := ih es (fun x hx => h x (by simp [hx]))
      have hc : c ≤ M := h c (by simp)
      simp only [dot, List.map_cons, List.sum_cons]
      have h2 : ((c : Int) * e + dot cs es).natAbs ≤ ((c : Int) * e).natAbs + (dot cs es).natAbs :=
        Int.natAbs_add_le _ _
      have h3 : ((c : Int) * e).natAbs = c * e.natAbs := by
        rw [Int.natAbs_mul, Int.natAbs_ofNat]
      have h4 : c * e.natAbs ≤ M * e.natAbs := Nat.mul_le_mul_right _ hc
      rw [Nat.add_mul]
      nlinarith

/-- Where no dot product can leave the range of `int`, the solver's test is the
exact one. -/
theorem balancedInt32_eq_exact (matrix : List (List Int)) (M n : Nat) (v : List Nat)
    (hrange : withinIntRange matrix M) (hv : inBox M n v) :
    balancedInt32 matrix v = balancedExact matrix v := by
  have key : ∀ row ∈ matrix, (dot v row % 4294967296 = 0 ↔ dot v row = 0) := by
    intro row hrow
    have h1 := natAbs_dot_le M v row (fun x hx => (hv.2 x hx).2)
    have h2 := hrange row hrow
    have h3 : (dot v row).natAbs < 2147483648 := by omega
    omega
  rw [Bool.eq_iff_iff]
  simp only [balancedInt32, balancedExact, List.all_eq_true, decide_eq_true_eq]
  constructor
  · intro h row hrow
    exact (key row hrow).1 (h row hrow)
  · intro h row hrow
    exact (key row hrow).2 (h row hrow)

/-- C3 (as amended): in multi-result mode, for every matrix with at least one row
(all rows as long as the first) and every bound `M`, the solver started at
column 0 with an empty result list returns and leaves in the result list exactly
the vectors of `[1, M]^columns` whose dot product with every row is zero modulo
`2^32` (the sums are 32-bit `int`s), each exactly once, in increasing
lexicographic order; where no dot product can leave the range of `int`, these
are exactly the vectors whose dot product with every row is zero. -/
theorem solving_matrix_multi_enumerates (s : State) (row0 : List Int)
    (rest : List (List Int)) (coefs : List Nat)
    (hmatrix : s._main_matrix = row0 :: rest)
    (hrect : ∀ row ∈ s._main_matrix, row.length = row0.length)
    (hcoefs : coefs.length = row0.length)
    (hmulti : s._multiple_results = true) (hempty : s._results_coefs = []) :
    ∃ flag coefs' s', _solving_matrix_using_recursion s coefs 0 = some (flag, coefs', s') ∧
      (∀ v, v ∈ s'._results_coefs ↔
        inBox s._max_coef row0.length v ∧ balancedInt32 s._main_matrix v = true) ∧
      s'._results_coefs.Pairwise (fun a b => lexLt a b = true) ∧
      s'._results_coefs.Nodup ∧
      (withinIntRange s._main_matrix s._max_coef → ∀ v, v ∈ s'._results_coefs ↔
        inBox s._max_coef row0.length v ∧ balancedExact s._main_matrix v = true) := by
  obtain ⟨c', hrun⟩ := solving_matrix_spec s row0 rest coefs hmatrix hrect hcoefs
  refine ⟨_, c', _, hrun, ?_, ?_, ?_, ?_⟩
  · intro v
    simp [resultsAfter, hmulti, hempty, List.mem_filter, mem_allVectors]
  · simp only [resultsAfter, hmulti, hempty, if_true, List.nil_append]
    exact (pairwise_allVectors _ _).sublist (List.filter_sublist _)
  · simp only [resultsAfter, hmulti, hempty, if_true, List.nil_append]
    have hp := (pairwise_allVectors s._max_coef row0.length).sublist
      (List.filter_sublist (allVectors s._max_coef row0.length)
        (p := balancedInt32 s._main_matrix))
    exact List.Pairwise.imp (S := fun a b => a ≠ b) (fun {a b} h => fun e => by
      subst e
      rw [lexLt_irrefl] at h
      cases h) hp
  · intro hrange v
    simp only [resultsAfter, hmulti, hempty, if_true, List.nil_append, List.mem_filter,
      mem_allVectors]
    constructor
    · rintro ⟨hb, hp⟩
      exact ⟨hb, by rw [← balancedInt32_eq_exact _ _ _ v hrange hb]; exact hp⟩
    · rintro ⟨hb, hp⟩
      exact ⟨hb, by rw [balancedInt32_eq_exact _ _ _ v hrange hb]; exact hp⟩

/-- C3 at the matrix of `H2 + O2 -> H2O` with bound 3: the result list is `[(2,1,2)]`. -/
theorem solving_matrix_multi_enumerates_witness :
    (_solving_matrix_using_recursion (waterState true) [0, 0, 0] 0).map
        (fun r => r.2.2._results_coefs) = some [[2, 1, 2]] ∧
    ∃ flag coefs' s',
      _solving_matrix_using_recursion (waterState true) [0, 0, 0] 0 = some (flag, coefs', s') ∧
      (∀ v, v ∈ s'._results_coefs ↔
        inBox 3 3 v ∧ balancedInt32 [[2, 0, -2], [0, 2, -1]] v = true) ∧
      s'._results_coefs.Pairwise (fun a b => lexLt a b = true) ∧
      s'._results_coefs.Nodup ∧
      (withinIntRange [[2, 0, -2], [0, 2, -1]] 3 → ∀ v, v ∈ s'._results_coefs ↔
        inBox 3 3 v ∧ balancedExact [[2, 0, -2], [0, 2, -1]] v = true) :=
  ⟨by decide,
   solving_matrix_multi_enumerates (waterState true) [2, 0, -2] [[0, 2, -1]] [0, 0, 0] rfl
    (by decide) rfl rfl rfl⟩

/-- C3 as stated fails: on the one-row matrix `(2^30, 0)` with bound 4 the result
list holds `(4, 1)`, whose dot product with the row is `2^32`, not zero. -/
theorem solving_matrix_multi_exact_counterexample :
    (_solving_matrix_using_recursion overflowRowState [0, 0] 0).map
        (fun r => r.2.2._results_coefs) = some [[4, 1], [4, 2], [4, 3], [4, 4]] ∧
    overflowRowState._main_matrix = [[1073741824, 0]] ∧
    overflowRowState._multiple_results = true ∧
    dot [4, 1] [1073741824, 0] = 4294967296 ∧
    balancedExact overflowRowState._main_matrix [4, 1] = false := by
  refine ⟨by decide, by decide, by decide, by decide, by decide⟩

/-- C4 (as amended): in single-result mode, for every matrix with at least one row
(all rows as long as the first) for which some vector of `[1, M]^columns` has a
dot product with every row that is zero modulo `2^32`, the solver started with an
empty result list returns `true` and leaves exactly one vector, the
lexicographically smallest such vector; where no dot product can leave the
range of `int`, that is the lexicographically smallest balanced vector. -/
theorem solving_matrix_single_finds_least (s : State) (row0 : List Int)
    (rest : List (List Int)) (coefs : List Nat)
    (hmatrix : s._main_matrix = row0 :: rest)
    (hrect : ∀ row ∈ s._main_matrix, row.length = row0.length)
    (hcoefs : coefs.length = row0.length)
    (hsingle : s._multiple_results = false) (hempty : s._results_coefs = [])
    (hex : ∃ w, inBox s._max_coef row0.length w ∧ balancedInt32 s._main_matrix w = true) :
    ∃ coefs' s' v, _solving_matrix_using_recursion s coefs 0 = some (true, coefs', s') ∧
      s'._results_coefs = [v] ∧
      inBox s._max_coef row0.length v ∧ balancedInt32 s._main_matrix v = true ∧
      (∀ w, inBox s._max_coef row0.length w → balancedInt32 s._main_matrix w = true →
        w = v ∨ lexLt v w = true) ∧
      (withinIntRange s._main_matrix s._max_coef →
        balancedExact s._main_matrix v = true ∧
        ∀ w, inBox s._max_coef row0.length w → balancedExact s._main_matrix w = true →
          w = v ∨ lexLt v w = true) := by
  obtain ⟨c', hrun⟩ := solving_matrix_spec s row0 rest coefs hmatrix hrect hcoefs
  obtain ⟨w, hwb, hwp⟩ := hex
  have hwmem : w ∈ (allVectors s._max_coef row0.length).filter (balancedInt32 s._main_matrix) := by
    simp [List.mem_filter, mem_allVectors, hwb, hwp]
  have hsorted := (pairwise_allVectors s._max_coef row0.length).sublist
      (List.filter_sublist (allVectors s._max_coef row0.length)
        (p := balancedInt32 s._main_matrix))
  have hmem : ∀ u, u ∈ (allVectors s._max_coef row0.length).filter
      (balancedInt32 s._main_matrix) ↔
      inBox s._max_coef row0.length u ∧ balancedInt32 s._main_matrix u = true := by
    intro u
    simp [List.mem_filter, mem_allVectors]
  cases hF : (allVectors s._max_coef row0.length).filter (balancedInt32 s._main_matrix) with
  | nil => rw [hF] at hwmem; cases hwmem
  | cons v vs =>
    rw [hF] at hrun hsorted hmem
    have hv := (hmem v).1 (by simp)
    have hleast : ∀ u, inBox s._max_coef row0.length u →
        balancedInt32 s._main_matrix u = true → u = v ∨ lexLt v u = true := by
      intro u hub hup
      have hu := (hmem u).2 ⟨hub, hup⟩
      simp only [List.mem_cons] at hu
      rcases hu with h | h
      · exact Or.inl h
      · exact Or.inr ((List.pairwise_cons.1 hsorted).1 u h)
    refine ⟨c', { s with _results_coefs := [v] }, v, ?_, rfl, hv.1, hv.2, hleast, ?_⟩
    · rw [hrun, hsingle, hempty]
      simp [flagAfter, resultsAfter]
    · intro hrange
      refine ⟨by rw [← balancedInt32_eq_exact _ _ _ v hrange hv.1]; exact hv.2, ?_⟩
      intro u hub hup
      exact hleast u hub (by rw [balancedInt32_eq_exact _ _ _ u hrange hub]; exact hup)

/-- C4 at the matrix of `H2 + O2 -> H2O` with bound 3: the solver returns `true`
and leaves `(2,1,2)`. -/
theorem solving_matrix_single_finds_least_witness :
    (_solving_matrix_using_recursion (waterState false) [0, 0, 0] 0).map
        (fun r => (r.1, r.2.2._results_coefs)) = some (true, [[2, 1, 2]]) ∧
    ∃ coefs' s' v,
      _solving_matrix_using_recursion (waterState false) [0, 0, 0] 0 = some (true, coefs', s') ∧
      s'._results_coefs = [v] ∧
      inBox 3 3 v ∧ balancedInt32 [[2, 0, -2], [0, 2, -1]] v = true ∧
      (∀ w, inBox 3 3 w → balancedInt32 [[2, 0, -2], [0, 2, -1]] w = true →
        w = v ∨ lexLt v w = true) ∧
      (withinIntRange [[2, 0, -2], [0, 2, -1]] 3 →
        balancedExact [[2, 0, -2], [0, 2, -1]] v = true ∧
        ∀ w, inBox 3 3 w → balancedExact [[2, 0, -2], [0, 2, -1]] w = true →
          w = v ∨ lexLt v w = true) :=
  ⟨by decide,
   solving_matrix_single_finds_least (waterState false) [2, 0, -2] [[0, 2, -1]] [0, 0, 0] rfl
    (by decide) rfl rfl rfl ⟨[2, 1, 2], by decide, by decide⟩⟩

/-- C4 as stated fails: on the one-row matrix `(2^30, -3 * 2^29)` with bound 6 the
balanced vector `(3, 2)` exists, but the solver leaves `(1, 6)`, whose dot
product with the row is `-2^33`: it is not balanced, so it is not the smallest
balanced vector. -/
theorem solving_matrix_single_exact_counterexample :
    (_solving_matrix_using_recursion overflowPairState [0, 0] 0).map
        (fun r => (r.1, r.2.2._results_coefs)) = some (true, [[1, 6]]) ∧
    overflowPairState._multiple_results = false ∧
    inBox 6 2 [3, 2] ∧ balancedExact overflowPairState._main_matrix [3, 2] = true ∧
    dot [1, 6] [1073741824, -1610612736] = -8589934592 ∧
    balancedExact overflowPairState._main_matrix [1, 6] = false := by
  refine ⟨by decide, by decide, by decide, by decide, by decide, by decide⟩

/-! ### The deduplicator -/

/-- The fraction test is the test `|ratio - current_ratio| > 1e-9` on rationals. -/
theorem exceedsTolerance_iff_rat (ratio current : Fraction)
    (h1 : 0 < ratio.den) (h2 : 0 < current.den) :
    exceedsTolerance ratio current = true ↔ |ratio.toRat - current.toRat| > TOLERANCE := by
  have hd1 : (0 : ℚ) < (ratio.den : ℚ) := by exact_mod_cast h1
  have hd2 : (0 : ℚ) < (current.den : ℚ) := by exact_mod_cast h2
  have hpos : (0 : ℚ) < (ratio.den : ℚ) * (current.den : ℚ) := mul_pos hd1 hd2
  obtain ⟨z, hz⟩ : ∃ z : Int, z = (ratio.num : Int) * current.den - (current.num : Int) * ratio.den :=
    ⟨_, rfl⟩
  have hsub : ratio.toRat - current.toRat = (z : ℚ) / ((ratio.den : ℚ) * (current.den : ℚ)) := by
    unfold Fraction.toRat
    rw [div_sub_div _ _ (ne_of_gt hd1) (ne_of_gt hd2), hz]
    push_cast
    ring
  have habs : |(z : ℚ)| = ((z.natAbs : Nat) : ℚ) := by
    rw [← Int.cast_abs, Int.abs_eq_natAbs, Int.cast_natCast]
  rw [hsub, abs_div, abs_of_pos hpos, gt_iff_lt, TOLERANCE, lt_div_iff₀ hpos, habs]
  unfold exceedsTolerance
  rw [decide_eq_true_eq, ← hz]
  constructor
  · intro h
    have h' : ((ratio.den * current.den : Nat) : ℚ) < ((1000000000 * z.natAbs : Nat) : ℚ) := by
      exact_mod_cast h
    push_cast at h'
    linarith
  · intro h
    have h' : ((ratio.den * current.den : Nat) : ℚ) < ((1000000000 * z.natAbs : Nat) : ℚ) := by
      push_cast
      linarith
    exact_mod_cast h'

theorem filterLoop_append (xs ys acc : List (List Nat)) :
    filterLoop (xs ++ ys) acc = filterLoop ys (filterLoop xs acc) := by
  induction xs generalizing acc with
  | nil => rfl
  | cons x xs ih =>
    rw [List.cons_append]
    simp only [filterLoop]
    exact ih _

/-- The loop extends the confirmed list by a subsequence of the vectors it reads. -/
theorem filterLoop_sublist (raw : List (List Nat)) :
    ∀ acc, ∃ tail, tail.Sublist raw ∧ filterLoop raw acc = acc ++ tail := by
  induction raw with
  | nil => intro acc; exact ⟨[], List.Sublist.refl _, by simp [filterLoop]⟩
  | cons v rest ih =>
    intro acc
    simp only [filterLoop]
    by_cases hdep : acc.any (fun c => _are_linear_dependent c v) = true
    · obtain ⟨tail, ht, he⟩ := ih acc
      refine ⟨tail, ht.cons v, ?_⟩
      simp [hdep, he]
    · obtain ⟨tail, ht, he⟩ := ih (acc ++ [v])
      refine ⟨v :: tail, ht.cons₂ v, ?_⟩
      simp only [Bool.not_eq_true] at hdep
      simp [hdep, he]

/-- No confirmed vector makes a vector confirmed later dependent on it. -/
theorem filterLoop_pairwise (raw : List (List Nat)) :
    ∀ acc, acc.Pairwise (fun a b => _are_linear_dependent a b = false) →
      (filterLoop raw acc).Pairwise (fun a b => _are_linear_dependent a b = false) := by
  induction raw with
  | nil => intro acc h; exact h
  | cons v rest ih =>
    intro acc h
    simp only [filterLoop]
    by_cases hdep : acc.any (fun c => _are_linear_dependent c v) = true
    · simp only [hdep, Bool.not_true, Bool.false_eq_true, if_false]
      exact ih acc h
    · simp only [Bool.not_eq_true] at hdep
      simp only [hdep, Bool.not_false, if_true]
      apply ih
      rw [List.pairwise_append]
      refine ⟨h, by simp, ?_⟩
      intro a ha b hb
      simp only [List.mem_singleton] at hb
      subst hb
      have := List.any_eq_false.1 hdep a ha
      simpa using this

theorem crossAll_symm (n d : Nat) : ∀ (as bs : List Nat),
    crossAll n d as bs = crossAll d n bs as := by
  intro as
  induction as with
  | nil => intro bs; cases bs <;> rfl
  | cons a as ih =>
    intro bs
    cases bs with
    | nil => rfl
    | cons b bs =>
      simp only [crossAll, ih bs]
      congr 1
      rw [decide_eq_decide]
      constructor <;> intro h <;> nlinarith

/-- With all entries in `[1, B]` and `B * B < 10^9` the tolerance cannot hide a
difference of two ratios: the loop tests equality of the cross products. -/
theorem dependentLoop_eq_crossAll (B : Nat) (hB : B * B < 1000000000) (n d : Nat)
    (hd : d ≤ B) :
    ∀ (as bs : List Nat), (∀ x ∈ as, 1 ≤ x ∧ x ≤ B) → (∀ x ∈ bs, 1 ≤ x ∧ x ≤ B) →
      dependentLoop as bs ⟨n, d⟩ true = crossAll n d as bs := by
  intro as
  induction as with
  | nil => intro bs _ _; cases bs <;> rfl
  | cons a as ih =>
    intro bs ha hb
    cases bs with
    | nil => rfl
    | cons b bs =>
      have ha0 := ha a (by simp)
      have hb0 := hb b (by simp)
      have hane : a ≠ 0 := by omega
      have ih' := ih bs (fun x hx => ha x (by simp [hx])) (fun x hx => hb x (by simp [hx]))
      have hda : d * a ≤ B * B := Nat.mul_le_mul hd ha0.2
      have hex : exceedsTolerance ⟨n, d⟩ ⟨b, a⟩ = decide (¬ (n * a = b * d)) := by
        unfold exceedsTolerance
        rw [decide_eq_decide]
        simp only
        constructor
        · intro h e
          have : ((n : Int) * (a : Int) - (b : Int) * (d : Int)) = 0 := by
            have : ((n * a : Nat) : Int) = ((b * d : Nat) : Int) := by rw [e]
            push_cast at this
            omega
          rw [this] at h
          simp at h
        · intro hne
          have hnz : ((n : Int) * (a : Int) - (b : Int) * (d : Int)) ≠ 0 := by
            intro h0
            apply hne
            have : ((n * a : Nat) : Int) = ((b * d : Nat) : Int) := by
              push_cast
              omega
            exact_mod_cast this
          have hpos : 1 ≤ Int.natAbs ((n : Int) * (a : Int) - (b : Int) * (d : Int)) :=
            Int.natAbs_pos.2 hnz
          nlinarith
      simp only [dependentLoop, ne_eq, hane, not_false_eq_true, if_true, Bool.not_true,
        Bool.false_eq_true, if_false, hex, crossAll, ih']
      by_cases e : n * a = b * d <;> simp [e]

/-- With all entries in `[1, B]` and `B * B < 10^9`, dependence does not depend
on the order of the two arguments. -/
theorem are_linear_dependent_symm (B : Nat) (hB : B * B < 1000000000) (a b : List Nat)
    (ha : ∀ x ∈ a, 1 ≤ x ∧ x ≤ B) (hb : ∀ x ∈ b, 1 ≤ x ∧ x ≤ B) :
    _are_linear_dependent a b = _are_linear_dependent b a := by
  unfold _are_linear_dependent
  by_cases hlen : a.length = b.length
  swap
  · have : ¬ b.length = a.length := fun e => hlen e.symm
    simp [hlen, this]
  cases a with
  | nil => cases b <;> simp
  | cons a0 as =>
    cases b with
    | nil => simp
    | cons b0 bs =>
      have ha0 := ha a0 (by simp)
      have hb0 := hb b0 (by simp)
      have hane : a0 ≠ 0 := by omega
      have hbne : b0 ≠ 0 := by omega
      have has : ∀ x ∈ as, 1 ≤ x ∧ x ≤ B := fun x hx => ha x (by simp [hx])
      have hbs : ∀ x ∈ bs, 1 ≤ x ∧ x ≤ B := fun x hx => hb x (by simp [hx])
      have e1 := dependentLoop_eq_crossAll B hB b0 a0 ha0.2 as bs has hbs
      have e2 := dependentLoop_eq_crossAll B hB a0 b0 hb0.2 bs as hbs has
      have hlen' : (b0 :: bs).length = (a0 :: as).length := hlen.symm
      have hA : (if ((a0 :: as).isEmpty || (b0 :: bs).isEmpty ||
          decide ((a0 :: as).length ≠ (b0 :: bs).length)) = true then false
          else dependentLoop (a0 :: as) (b0 :: bs) ⟨0, 1⟩ false) =
          dependentLoop as bs ⟨b0, a0⟩ true := by
        rw [if_neg (by simp [hlen])]
        simp only [dependentLoop, ne_eq, hane, not_false_eq_true, if_true, Bool.not_false]
      have hB' : (if ((b0 :: bs).isEmpty || (a0 :: as).isEmpty ||
          decide ((b0 :: bs).length ≠ (a0 :: as).length)) = true then false
          else dependentLoop (b0 :: bs) (a0 :: as) ⟨0, 1⟩ false) =
          dependentLoop bs as ⟨a0, b0⟩ true := by
        rw [if_neg (by simp [hlen'])]
        simp only [dependentLoop, ne_eq, hbne, not_false_eq_true, if_true, Bool.not_false]
      rw [hA, hB', e1, e2]
      exact crossAll_symm b0 a0 as bs

/-- C6 (as amended): for every raw list of coefficient vectors, after
`_filter_linear_independent_results` no vector of the solution set is linearly
dependent on a vector at an earlier position (the earlier vector as first
argument, as the filter calls the test); and when every coefficient is non-zero
and at most `B` with `B * B < 10^9` (the solver's vectors for a bound up to
31622), no two distinct positions hold dependent vectors in either argument
order. -/
theorem filter_results_independent (s : State) :
    (_filter_linear_independent_results s)._results_coefs.Pairwise
      (fun a b => _are_linear_dependent a b = false) ∧
    ∀ B, B * B < 1000000000 → entriesWithin B s._results_coefs →
      (_filter_linear_independent_results s)._results_coefs.Pairwise
        (fun a b => _are_linear_dependent a b = false ∧ _are_linear_dependent b a = false) := by
  have h1 : (filterLoop s._results_coefs []).Pairwise
      (fun a b => _are_linear_dependent a b = false) :=
    filterLoop_pairwise s._results_coefs [] List.Pairwise.nil
  refine ⟨h1, ?_⟩
  intro B hB hin
  obtain ⟨tail, htail, he⟩ := filterLoop_sublist s._results_coefs []
  have hsub : (filterLoop s._results_coefs []).Sublist s._results_coefs := by
    rw [he]; simpa using htail
  apply List.Pairwise.imp_of_mem _ h1
  intro a b ha hb hab
  refine ⟨hab, ?_⟩
  rw [← are_linear_dependent_symm B hB a b (hin a (hsub.subset ha)) (hin b (hsub.subset hb))]
  exact hab

/-- C6 at the raw list `(1,2), (2,4), (2,1)` with `B = 4`: `(2,4)` is dropped and the
two vectors left are independent in both orders. -/
theorem filter_results_independent_witness :
    (_filter_linear_independent_results
      { State.fresh with _results_coefs := [[1, 2], [2, 4], [2, 1]] })._results_coefs =
      [[1, 2], [2, 1]] ∧
    (_filter_linear_independent_results
      { State.fresh with _results_coefs := [[1, 2], [2, 4], [2, 1]] })._results_coefs.Pairwise
        (fun a b => _are_linear_dependent a b = false ∧ _are_linear_dependent b a = false) :=
  ⟨by decide,
   (filter_results_independent
      { State.fresh with _results_coefs := [[1, 2], [2, 4], [2, 1]] }).2 4 (by decide)
      (by decide)⟩

/-- C6 as stated fails in the reverse argument order: the filter keeps both
`(1, 1)` and `(40000, 40001)`, and `(1, 1)` is dependent on `(40000, 40001)`: the
ratios `1/40000` and `1/40001` differ by less than `1e-9`. -/
theorem filter_results_reverse_order_counterexample :
    (_filter_linear_independent_results
      { State.fresh with _results_coefs := [[1, 1], [40000, 40001]] })._results_coefs =
      [[1, 1], [40000, 40001]] ∧
    _are_linear_dependent [40000, 40001] [1, 1] = true ∧
    _are_linear_dependent [1, 1] [40000, 40001] = false ∧
    ¬ (|Fraction.toRat ⟨1, 40000⟩ - Fraction.toRat ⟨1, 40001⟩| > TOLERANCE) := by
  refine ⟨by decide, by decide, by decide, ?_⟩
  rw [← exceedsTolerance_iff_rat ⟨1, 40000⟩ ⟨1, 40001⟩ (by decide) (by decide)]
  decide

theorem filterLoopWith_append (dependent : List Nat → List Nat → Bool)
    (xs ys acc : List (List Nat)) :
    filterLoopWith dependent (xs ++ ys) acc =
      filterLoopWith dependent ys (filterLoopWith dependent xs acc) := by
  induction xs generalizing acc with
  | nil => rfl
  | cons x xs ih =>
    rw [List.cons_append]
    simp only [filterLoopWith]
    exact ih _

/-- Whatever the test returns, the loop extends the confirmed list by a
subsequence of the vectors it reads. -/
theorem filterLoopWith_sublist (dependent : List Nat → List Nat → Bool)
    (raw : List (List Nat)) :
    ∀ acc, ∃ tail, tail.Sublist raw ∧ filterLoopWith dependent raw acc = acc ++ tail := by
  induction raw with
  | nil => intro acc; exact ⟨[], List.Sublist.refl _, by simp [filterLoopWith]⟩
  | cons v rest ih =>
    intro acc
    simp only [filterLoopWith]
    by_cases hdep : acc.any (fun c => dependent c v) = true
    · obtain ⟨tail, ht, he⟩ := ih acc
      refine ⟨tail, ht.cons v, ?_⟩
      simp [hdep, he]
    · obtain ⟨tail, ht, he⟩ := ih (acc ++ [v])
      refine ⟨v :: tail, ht.cons₂ v, ?_⟩
      simp only [Bool.not_eq_true] at hdep
      simp [hdep, he]

/-- The deduplicator with the exact-ratio test is the loop over a test, taken at
that test. -/
theorem filterLoop_eq_filterLoopWith (raw : List (List Nat)) :
    ∀ acc, filterLoop raw acc = filterLoopWith _are_linear_dependent raw acc := by
  induction raw with
  | nil => intro acc; rfl
  | cons v rest ih =>
    intro acc
    simp only [filterLoop, filterLoopWith]
    exact ih _

/-- The function `_filter_linear_independent_results` with the exact-ratio test is
`filterResultsWith` taken at that test. -/
theorem filter_results_eq_filterResultsWith (s : State) :
    _filter_linear_independent_results s = filterResultsWith _are_linear_dependent s := by
  unfold _filter_linear_independent_results filterResultsWith
  rw [filterLoop_eq_filterLoopWith]

/-- C7: for every raw list of coefficient vectors, and whatever the call
`_are_linear_dependent(confirmed_result, result)` returns (`dependent` stands
for the call, so the statement does not rest on how the ratios are compared):
the list left by `_filter_linear_independent_results` is a subsequence of the
raw list, it starts with the first raw vector, and at every position of the raw
list the vector there is kept exactly when it is dependent on none of the
vectors kept before it: with `kept` the vectors kept from the part `before` the
position (a subsequence of `before`), the list left is `kept`, then the vector
itself unless some vector of `kept` makes it dependent, then vectors from the
part after the position; and a vector that is dropped is dependent on a vector
that is in the list left and occurs earlier in the raw list. -/
theorem filter_results_maximal_subsequence (dependent : List Nat → List Nat → Bool)
    (s : State) :
    (filterResultsWith dependent s)._results_coefs.Sublist s._results_coefs ∧
    (filterResultsWith dependent s)._results_coefs.head? = s._results_coefs.head? ∧
    (∀ before v after, s._results_coefs = before ++ v :: after →
      (filterLoopWith dependent before []).Sublist before ∧
      ∃ tail, tail.Sublist after ∧
        (filterResultsWith dependent s)._results_coefs =
          (if (filterLoopWith dependent before []).any (fun kept => dependent kept v)
            then filterLoopWith dependent before []
            else filterLoopWith dependent before [] ++ [v]) ++ tail) ∧
    (∀ before v after, s._results_coefs = before ++ v :: after →
      (filterLoopWith dependent before []).any (fun kept => dependent kept v) = true →
      ∃ kept ∈ (filterResultsWith dependent s)._results_coefs,
        kept ∈ before ∧ dependent kept v = true) := by
  have hsub : ∀ raw, (filterLoopWith dependent raw []).Sublist raw := by
    intro raw
    obtain ⟨tail, htail, he⟩ := filterLoopWith_sublist dependent raw []
    rw [he]; simpa using htail
  refine ⟨hsub _, ?_, ?_, ?_⟩
  · show (filterLoopWith dependent s._results_coefs []).head? = s._results_coefs.head?
    cases hraw : s._results_coefs with
    | nil => rfl
    | cons v rest =>
      obtain ⟨tail, _, he⟩ := filterLoopWith_sublist dependent rest [v]
      simp [filterLoopWith, he]
  · intro before v after hraw
    refine ⟨hsub before, ?_⟩
    show ∃ tail, tail.Sublist after ∧ filterLoopWith dependent s._results_coefs [] = _
    rw [hraw, filterLoopWith_append]
    simp only [filterLoopWith]
    by_cases hdep : (filterLoopWith dependent before []).any (fun c => dependent c v) = true
    · obtain ⟨tail, ht, he⟩ := filterLoopWith_sublist dependent after
        (filterLoopWith dependent before [])
      exact ⟨tail, ht, by simp [hdep, he]⟩
    · simp only [Bool.not_eq_true] at hdep
      obtain ⟨tail, ht, he⟩ := filterLoopWith_sublist dependent after
        (filterLoopWith dependent before [] ++ [v])
      exact ⟨tail, ht, by simp [hdep, he]⟩
  · intro before v after hraw hdep
    obtain ⟨kept, hkept, hkv⟩ := List.any_eq_true.1 hdep
    refine ⟨kept, ?_, (hsub before).subset hkept, hkv⟩
    show kept ∈ filterLoopWith dependent s._results_coefs []
    rw [hraw, filterLoopWith_append]
    simp only [filterLoopWith, hdep, Bool.not_true, Bool.false_eq_true, if_false]
    obtain ⟨tail, _, he⟩ := filterLoopWith_sublist dependent after
      (filterLoopWith dependent before [])
    rw [he]
    simp [hkept]

/-- C7 at the raw list `(1,2), (2,4), (2,1)` with the exact-ratio test, at the
position of `(2,4)`: it is dropped, being dependent on the vector `(1,2)` kept
before it. -/
theorem filter_results_maximal_subsequence_witness :
    (filterResultsWith _are_linear_dependent
      { State.fresh with _results_coefs := [[1, 2], [2, 4], [2, 1]] })._results_coefs =
      [[1, 2], [2, 1]] ∧
    filterLoopWith _are_linear_dependent [[1, 2]] [] = [[1, 2]] ∧
    _are_linear_dependent [1, 2] [2, 4] = true ∧
    ((filterLoopWith _are_linear_dependent [[1, 2]] []).Sublist [[1, 2]] ∧
      ∃ tail, tail.Sublist [[2, 1]] ∧
        (filterResultsWith _are_linear_dependent
          { State.fresh with _results_coefs := [[1, 2], [2, 4], [2, 1]] })._results_coefs =
          (if (filterLoopWith _are_linear_dependent [[1, 2]] []).any
              (fun kept => _are_linear_dependent kept [2, 4])
            then filterLoopWith _are_linear_dependent [[1, 2]] []
            else filterLoopWith _are_linear_dependent [[1, 2]] [] ++ [[2, 4]]) ++ tail) :=
  ⟨by decide, by decide, by decide,
   (filter_results_maximal_subsequence _are_linear_dependent
      { State.fresh with _results_coefs := [[1, 2], [2, 4], [2, 1]] }).2.2.1
      [[1, 2]] [2, 4] [[2, 1]] rfl⟩

/-! ### Every token starts with a letter or `(`; the resolver returns -/

/-- One step of the tokenizer loop that goes on to success: the character opens
a new token, being an uppercase letter or `(`, or is appended to the last one. -/
theorem separatorLoop_step (c : Char) (cs : List Char) (d : Int) (toks out : List (List Char))
    (h : separatorLoop (c :: cs) d toks = .ok out) :
    ∃ d' toks', separatorLoop cs d' toks' = .ok out ∧
      ((toks' = toks ++ [[c]] ∧ (c.isUpper = true ∨ c = '(')) ∨
       (toks ≠ [] ∧ toks' = appendToBack c toks)) := by
  by_cases hv : _is_valid_char c = true
  swap
  · simp [separatorLoop, hv] at h
  have hne : ∀ toks : List (List Char), toks.isEmpty = false → toks ≠ [] := by
    intro t ht e; subst e; simp at ht
  by_cases ho : c = '('
  · subst ho
    by_cases hd1 : d + 1 = 1
    · have h' : separatorLoop cs (d + 1) (toks ++ [['(']]) = .ok out := by
        simpa [separatorLoop, hv, hd1] using h
      exact ⟨_, _, h', Or.inl ⟨rfl, Or.inr rfl⟩⟩
    · by_cases hd0 : d + 1 = 0
      · cases hE : toks.isEmpty <;> simp [separatorLoop, hv, hd1, hd0, hE] at h
      · by_cases hpos : 0 < d + 1
        · cases hE : toks.isEmpty
          · have h' : separatorLoop cs (d + 1) (appendToBack '(' toks) = .ok out := by
              simpa [separatorLoop, hv, hd1, hd0, hpos, hE] using h
            exact ⟨_, _, h', Or.inr ⟨hne toks hE, rfl⟩⟩
          · simp [separatorLoop, hv, hd1, hd0, hpos, hE] at h
        · simp [separatorLoop, hv, hd1, hd0, hpos] at h
  · by_cases hd0 : d = 0
    · subst hd0
      by_cases hu : c.isUpper = true
      · have h' : separatorLoop cs 0 (toks ++ [[c]]) = .ok out := by
          simpa [separatorLoop, hv, ho, hu] using h
        exact ⟨_, _, h', Or.inl ⟨rfl, Or.inl hu⟩⟩
      · cases hE : toks.isEmpty
        · by_cases hld : (c.isLower || c.isDigit) = true
          · have h' : separatorLoop cs 0 (appendToBack c toks) = .ok out := by
              simp only [Bool.or_eq_true] at hld
              simpa [separatorLoop, hv, ho, hu, hE, hld] using h
            exact ⟨_, _, h', Or.inr ⟨hne toks hE, rfl⟩⟩
          · simp only [Bool.or_eq_true, not_or, Bool.not_eq_true] at hld
            simp [separatorLoop, hv, ho, hu, hE, hld.1, hld.2] at h
        · simp [separatorLoop, hv, ho, hu, hE] at h
    · by_cases hpos : 0 < d
      · cases hE : toks.isEmpty
        · by_cases hc : c = ')'
          · subst hc
            have h' : separatorLoop cs (d - 1) (appendToBack ')' toks) = .ok out := by
              simpa [separatorLoop, hv, hd0, hpos, hE] using h
            exact ⟨_, _, h', Or.inr ⟨hne toks hE, rfl⟩⟩
          · have h' : separatorLoop cs d (appendToBack c toks) = .ok out := by
              simpa [separatorLoop, hv, ho, hc, hd0, hpos, hE] using h
            exact ⟨_, _, h', Or.inr ⟨hne toks hE, rfl⟩⟩
        · simp [separatorLoop, hv, ho, hd0, hpos, hE] at h
      · simp [separatorLoop, hv, ho, hd0, hpos] at h

/-- The sum of the lengths of the tokens. -/
theorem totalLength_appendToBack (c : Char) (toks : List (List Char)) (h : toks ≠ []) :
    ((appendToBack c toks).map List.length).sum = (toks.map List.length).sum + 1 ∧
    ((∀ t ∈ toks, startsUpperOrOpen t = true) →
      ∀ t ∈ appendToBack c toks, startsUpperOrOpen t = true) := by
  have hsplit := List.dropLast_append_getLast h
  rw [← hsplit, appendToBack_append]
  constructor
  · simp only [List.map_append, List.sum_append, List.map_cons, List.map_nil, List.sum_cons,
      List.sum_nil, List.length_append, List.length_cons, List.length_nil]
    omega
  · intro hall t ht
    simp only [List.mem_append, List.mem_singleton] at ht
    rcases ht with ht | ht
    · exact hall t (by simp [ht])
    · have hl := hall (toks.getLast h) (by simp)
      subst ht
      cases hg : toks.getLast h with
      | nil => rw [hg] at hl; simp [startsUpperOrOpen] at hl
      | cons x xs => rw [hg] at hl; simpa [startsUpperOrOpen] using hl

/-- The tokens returned start with an uppercase letter or `(`, and their lengths
add up to the length of what was read. -/
theorem separatorLoop_tokens (cs : List Char) :
    ∀ (d : Int) (toks out : List (List Char)), separatorLoop cs d toks = .ok out →
      (∀ t ∈ toks, startsUpperOrOpen t = true) →
      (∀ t ∈ out, startsUpperOrOpen t = true) ∧
        (out.map List.length).sum = (toks.map List.length).sum + cs.length := by
  induction cs with
  | nil =>
    intro d toks out h hall
    simp only [separatorLoop] at h
    split_ifs at h
    cases h
    exact ⟨hall, by simp⟩
  | cons c cs ih =>
    intro d toks out h hall
    obtain ⟨d', toks', hrun, hcase⟩ := separatorLoop_step c cs d toks out h
    rcases hcase with ⟨rfl, hc⟩ | ⟨hne, rfl⟩
    · have hall' : ∀ t ∈ toks ++ [[c]], startsUpperOrOpen t = true := by
        intro t ht
        simp only [List.mem_append, List.mem_singleton] at ht
        rcases ht with ht | rfl
        · exact hall t ht
        · rcases hc with hc | hc <;> simp [startsUpperOrOpen, hc]
      obtain ⟨h1, h2⟩ := ih d' _ out hrun hall'
      refine ⟨h1, ?_⟩
      rw [h2]
      simp only [List.map_append, List.sum_append, List.map_cons, List.map_nil, List.sum_cons,
        List.sum_nil, List.length_cons, List.length_nil]
      omega
    · obtain ⟨hlen, hst⟩ := totalLength_appendToBack c toks hne
      obtain ⟨h1, h2⟩ := ih d' _ out hrun (hst hall)
      refine ⟨h1, ?_⟩
      rw [h2, hlen]
      simp only [List.length_cons]
      omega

theorem length_le_sum_of_mem (t : List Char) (toks : List (List Char)) (h : t ∈ toks) :
    t.length ≤ (toks.map List.length).sum := by
  induction toks with
  | nil => cases h
  | cons x xs ih =>
    simp only [List.mem_cons] at h
    simp only [List.map_cons, List.sum_cons]
    rcases h with rfl | h
    · omega
    · have := ih h
      omega

/-- Every token of `_compound_str_separator` starts with an uppercase letter or
`(` and is no longer than the string. -/
theorem compound_str_separator_tokens (s : List Char) :
    ∀ t ∈ _compound_str_separator s, startsUpperOrOpen t = true ∧ t.length ≤ s.length := by
  intro t ht
  unfold _compound_str_separator separatorTry at ht
  cases hres : separatorLoop s 0 [] with
  | error e => rw [hres] at ht; cases ht
  | ok out =>
    rw [hres] at ht
    obtain ⟨h1, h2⟩ := separatorLoop_tokens s 0 [] out hres (by simp)
    refine ⟨h1 t ht, ?_⟩
    have := length_le_sum_of_mem t out ht
    simp at h2
    omega

theorem scanSeparatingIndex_some (xs : List Char) (c : Char) (hc : c.isDigit = false) :
    ∃ k, scanSeparatingIndex (xs ++ [c]) = some k ∧ 1 ≤ k ∧ k ≤ (xs ++ [c]).length := by
  induction xs with
  | nil => exact ⟨1, by simp [scanSeparatingIndex, hc], by simp⟩
  | cons x xs ih =>
    by_cases hx : x.isDigit = true
    · obtain ⟨k, hk, h1, h2⟩ := ih
      refine ⟨k, by simp [scanSeparatingIndex, hx, hk], h1, ?_⟩
      simp only [List.cons_append, List.length_cons] at h2 ⊢
      omega
    · exact ⟨(xs ++ [c]).length + 1, by simp [scanSeparatingIndex, hx], by simp, by simp⟩

/-- On a token that starts with an uppercase letter or `(` the entity splitter
returns; for a token in parentheses its base is shorter than the token. -/
theorem entity_returns (tok : List Char) (h : startsUpperOrOpen tok = true) :
    ∃ first second, _entity_str_to_entity_and_coef tok = some (first, second) ∧
      (tok.head? = some '(' → first.length < tok.length) := by
  cases tok with
  | nil => simp [startsUpperOrOpen] at h
  | cons x xs =>
    have hx : x.isDigit = false := by
      simp only [startsUpperOrOpen, Bool.or_eq_true, beq_iff_eq] at h
      rcases h with h | h
      · exact (upper_not_lower_digit x h).2
      · subst h; decide
    have hrev : (x :: xs).reverse = xs.reverse ++ [x] := by simp
    obtain ⟨k, hk, hk1, hk2⟩ := scanSeparatingIndex_some xs.reverse x hx
    simp only [List.length_append, List.length_reverse, List.length_cons, List.length_nil] at hk2
    unfold _entity_str_to_entity_and_coef
    cases hr : (x :: xs).reverse with
    | nil => simp at hr
    | cons last rest =>
      simp only
      rw [← hr, hrev, hk]
      by_cases hl : last.isDigit = true
      · simp only [hl, if_true]
        cases hst : stoi (substr (x :: xs) k ((x :: xs).length - k)) with
        | none => exact ⟨[], 0, rfl, fun _ => by simp⟩
        | some coef =>
          refine ⟨_, coef, rfl, ?_⟩
          intro hh
          simp only [hh, beq_self_eq_true, Bool.not_true, Bool.false_eq_true, if_false]
          split_ifs
          · simp
          · simp only [substr, List.length_take, List.length_drop, List.length_cons]
            omega
      · simp only [hl, Bool.false_eq_true, if_false]
        by_cases hh : (x :: xs).head? = some '('
        · refine ⟨substr (x :: xs) 1 ((x :: xs).length - 2), 1, by
            simp only [hh, beq_self_eq_true, Bool.not_true, Bool.false_eq_true, if_false], ?_⟩
          intro _
          simp only [substr, List.length_take, List.length_drop, List.length_cons]
          omega
        · refine ⟨x :: xs, 1, by
            have : ((x :: xs).head? == some '(') = false := by simpa using hh
            simp only [this, Bool.not_false, if_true], ?_⟩
          intro hh'
          exact absurd hh' hh

theorem compositionLoop_returns (recur : List Char → Option Composition) (L : Nat)
    (hrec : ∀ x : List Char, x.length < L → ∃ m, recur x = some m) :
    ∀ (toks : List (List Char)) (acc : Composition),
      (∀ t ∈ toks, startsUpperOrOpen t = true ∧ t.length ≤ L) →
      ∃ m, compositionLoop recur toks acc = some m := by
  intro toks
  induction toks with
  | nil => intro acc _; exact ⟨acc, rfl⟩
  | cons t rest ih =>
    intro acc h
    obtain ⟨ht1, ht2⟩ := h t (by simp)
    have hrest : ∀ t ∈ rest, startsUpperOrOpen t = true ∧ t.length ≤ L :=
      fun u hu => h u (by simp [hu])
    obtain ⟨first, second, he, hlen⟩ := entity_returns t ht1
    simp only [compositionLoop, he]
    by_cases hh : t.head? = some '('
    · obtain ⟨sub, hsub⟩ := hrec first (by have := hlen hh; omega)
      simp only [hh, beq_self_eq_true, if_true, hsub]
      exact ih _ hrest
    · have : (t.head? == some '(') = false := by simpa using hh
      simp only [this, Bool.false_eq_true, if_false]
      exact ih _ hrest

/-- With fuel above the length of the string the resolver returns a map. -/
theorem compositionFuel_returns : ∀ (fuel : Nat) (s : List Char), s.length < fuel →
    ∃ m, compositionFuel fuel s = some m := by
  intro fuel
  induction fuel with
  | zero => intro s h; omega
  | succ fuel ih =>
    intro s h
    simp only [compositionFuel]
    cases hsep : _compound_str_separator s with
    | nil => exact ⟨[], rfl⟩
    | cons t rest =>
      simp only
      apply compositionLoop_returns (compositionFuel fuel) s.length
      · intro x hx
        exact ih x (by omega)
      · intro u hu
        exact compound_str_separator_tokens s u (by rw [hsep]; exact hu)

/-- The function `_get_compound_composition` returns a map on every string. -/
theorem get_compound_composition_returns (s : List Char) :
    ∃ m, _get_compound_composition s = some m :=
  compositionFuel_returns (s.length + 1) s (by omega)

/-! ### The element list -/

theorem strLt_asymm (a b : List Char) (h : strLt a b = true) : strLt b a = false := by
  cases hba : strLt b a
  · rfl
  · have := strLt_trans a b a h hba
    rw [strLt_irrefl] at this
    cases this

theorem mem_setInsert (key : List Char) (l : List (List Char)) (x : List Char) :
    x ∈ setInsert key l ↔ x = key ∨ x ∈ l := by
  induction l with
  | nil => simp [setInsert]
  | cons k rest ih =>
    by_cases e1 : key = k
    · subst e1
      simp [setInsert]
    · by_cases e2 : strLt key k = true
      · simp [setInsert, e1, e2]
      · simp only [setInsert, e1, e2, if_false, Bool.false_eq_true, List.mem_cons, ih]
        tauto

theorem setInsert_sorted (key : List Char) (l : List (List Char))
    (h : l.Pairwise (fun a b => strLt a b = true)) :
    (setInsert key l).Pairwise (fun a b => strLt a b = true) := by
  induction l with
  | nil => simp [setInsert]
  | cons k rest ih =>
    have h' := List.pairwise_cons.1 h
    by_cases e1 : key = k
    · subst e1
      simpa [setInsert] using h
    · by_cases e2 : strLt key k = true
      · simp only [setInsert, e1, e2, if_true, if_false]
        refine List.pairwise_cons.2 ⟨?_, h⟩
        intro a ha
        simp only [List.mem_cons] at ha
        rcases ha with rfl | ha
        · exact e2
        · exact strLt_trans _ _ _ e2 (h'.1 a ha)
      · simp only [setInsert, e1, e2, if_false, Bool.false_eq_true]
        refine List.pairwise_cons.2 ⟨?_, ih h'.2⟩
        intro a ha
        rcases (mem_setInsert key rest a).1 ha with rfl | ha
        · exact strLt_total a k e1 (by simpa using e2)
        · exact h'.1 a ha

theorem stdSort_of_sorted (l : List (List Char))
    (h : l.Pairwise (fun a b => strLt a b = true)) : stdSort l = l := by
  induction l with
  | nil => rfl
  | cons k rest ih =>
    have h' := List.pairwise_cons.1 h
    have hr : stdSort rest = rest := ih h'.2
    show sortInsert k (stdSort rest) = k :: rest
    rw [hr]
    cases rest with
    | nil => rfl
    | cons k2 rest2 =>
      have : strLt k2 k = false := strLt_asymm k k2 (h'.1 k2 (by simp))
      simp [sortInsert, this]

theorem countOf_isSome_iff (x : List Char) (m : Composition) :
    (countOf x m).isSome = true ↔ ∃ e ∈ m, e.1 = x := by
  induction m with
  | nil => simp [countOf]
  | cons e rest ih =>
    obtain ⟨k, v⟩ := e
    by_cases hx : x = k
    · subst hx; simp [countOf]
    · have hx' : ¬ k = x := fun e => hx e.symm
      simp [countOf, hx, hx', ih]

theorem insertKeys_spec (m : Composition) :
    ∀ init : List (List Char), init.Pairwise (fun a b => strLt a b = true) →
      (m.foldl (fun set element => setInsert element.1 set) init).Pairwise
        (fun a b => strLt a b = true) ∧
      ∀ x, x ∈ m.foldl (fun set element => setInsert element.1 set) init ↔
        x ∈ init ∨ (countOf x m).isSome = true := by
  induction m with
  | nil => intro init h; simp [countOf, h]
  | cons e rest ih =>
    intro init h
    obtain ⟨h1, h2⟩ := ih (setInsert e.1 init) (setInsert_sorted _ _ h)
    refine ⟨h1, ?_⟩
    intro x
    simp only [List.foldl_cons, h2, mem_setInsert, countOf_isSome_iff, List.mem_cons]
    constructor
    · rintro ((rfl | hx) | ⟨e', he', rfl⟩)
      · exact Or.inr ⟨e, Or.inl rfl, rfl⟩
      · exact Or.inl hx
      · exact Or.inr ⟨e', Or.inr he', rfl⟩
    · rintro (hx | ⟨e', rfl | he', rfl⟩)
      · exact Or.inl (Or.inr hx)
      · exact Or.inl (Or.inl rfl)
      · exact Or.inr ⟨e', he', rfl⟩

theorem insertAllKeys_spec (comps : List Composition) :
    ∀ init : List (List Char), init.Pairwise (fun a b => strLt a b = true) →
      (comps.foldl (fun elements_set compound_composition =>
        compound_composition.foldl (fun set element => setInsert element.1 set) elements_set)
        init).Pairwise (fun a b => strLt a b = true) ∧
      ∀ x, x ∈ comps.foldl (fun elements_set compound_composition =>
        compound_composition.foldl (fun set element => setInsert element.1 set) elements_set)
        init ↔
        x ∈ init ∨ comps.any (fun m => (countOf x m).isSome) = true := by
  induction comps with
  | nil => intro init h; simp [h]
  | cons m rest ih =>
    intro init h
    obtain ⟨h1, h2⟩ := insertKeys_spec m init h
    obtain ⟨h3, h4⟩ := ih _ h1
    refine ⟨h3, ?_⟩
    intro x
    simp only [List.foldl_cons, h4, h2, List.any_cons, Bool.or_eq_true]
    tauto

/-- The element list of a non-empty list of compositions is strictly increasing
and holds exactly their keys. -/
theorem get_elements_spec (comps : List Composition) (hne : comps ≠ []) :
    (get_elements_from_compounds_composition comps).Pairwise (fun a b => strLt a b = true) ∧
    ∀ x, x ∈ get_elements_from_compounds_composition comps ↔
      comps.any (fun m => (countOf x m).isSome) = true := by
  obtain ⟨h1, h2⟩ := insertAllKeys_spec comps [] List.Pairwise.nil
  have hE : comps.isEmpty = false := by cases comps <;> simp_all
  unfold get_elements_from_compounds_composition
  simp only [hE, Bool.false_eq_true, if_false]
  rw [stdSort_of_sorted _ h1]
  exact ⟨h1, fun x => by simpa using h2 x⟩

/-- Two strictly increasing lists with the same members are equal. -/
theorem eq_of_sorted_of_mem_iff : ∀ (l1 l2 : List (List Char)),
    l1.Pairwise (fun a b => strLt a b = true) → l2.Pairwise (fun a b => strLt a b = true) →
    (∀ x, x ∈ l1 ↔ x ∈ l2) → l1 = l2 := by
  intro l1
  induction l1 with
  | nil =>
    intro l2 _ _ h
    cases l2 with
    | nil => rfl
    | cons b l2 => exact absurd ((h b).2 (by simp)) (by simp)
  | cons a l1 ih =>
    intro l2 h1 h2 h
    cases l2 with
    | nil => exact absurd ((h a).1 (by simp)) (by simp)
    | cons b l2 =>
      have h1' := List.pairwise_cons.1 h1
      have h2' := List.pairwise_cons.1 h2
      have hab : a = b := by
        by_contra hne
        have ha : a ∈ l2 := by
          have := (h a).1 (by simp)
          simp only [List.mem_cons] at this
          rcases this with e | e
          · exact absurd e hne
          · exact e
        have hb : b ∈ l1 := by
          have := (h b).2 (by simp)
          simp only [List.mem_cons] at this
          rcases this with e | e
          · exact absurd e.symm hne
          · exact e
        have := strLt_asymm a b (h1'.1 b hb)
        rw [h2'.1 a ha] at this
        cases this
      subst hab
      congr 1
      apply ih l2 h1'.2 h2'.2
      intro x
      constructor
      · intro hx
        have := (h x).1 (by simp [hx])
        simp only [List.mem_cons] at this
        rcases this with e | e
        · subst e
          exact absurd (h1'.1 x hx) (by simp [strLt_irrefl])
        · exact e
      · intro hx
        have := (h x).2 (by simp [hx])
        simp only [List.mem_cons] at this
        rcases this with e | e
        · subst e
          exact absurd (h2'.1 x hx) (by simp [strLt_irrefl])
        · exact e

/-- The element lists of the two sides are equal exactly when the two sides
have the same keys. -/
theorem sideElements_eq_iff (reactants products : List (List Char))
    (hr : reactants ≠ []) (hp : products ≠ []) :
    sideElements reactants = sideElements products ↔
      ∀ symbol, sideHasKey reactants symbol = sideHasKey products symbol := by
  have hR : sideCompositions reactants ≠ [] := by
    cases reactants <;> simp_all [sideCompositions]
  have hP : sideCompositions products ≠ [] := by
    cases products <;> simp_all [sideCompositions]
  obtain ⟨hs1, hm1⟩ := get_elements_spec _ hR
  obtain ⟨hs2, hm2⟩ := get_elements_spec _ hP
  constructor
  · intro h symbol
    have h1 := hm1 symbol
    have h2 := hm2 symbol
    unfold sideElements at h
    rw [h] at h1
    unfold sideHasKey
    rw [Bool.eq_iff_iff, ← h1, ← h2]
  · intro h
    apply eq_of_sorted_of_mem_iff _ _ hs1 hs2
    intro x
    rw [hm1 x, hm2 x]
    have := h x
    unfold sideHasKey at this
    rw [this]

/-! ### The balance attempt, step by step -/

/-- The parsing loop on one side: it returns, with `INCOMPLETE_REACTANT` when a
string is empty and with the compositions otherwise. -/
theorem parseCompounds_eq (compounds : List (List Char)) :
    parseCompounds compounds =
      some (if compounds.any List.isEmpty then .error .INCOMPLETE_REACTANT
            else .ok (sideCompositions compounds)) := by
  induction compounds with
  | nil => rfl
  | cons c rest ih =>
    cases hc : c.isEmpty
    · obtain ⟨m, hm⟩ := get_compound_composition_returns c
      simp only [parseCompounds, hc, Bool.false_eq_true, if_false, hm, ih, List.any_cons,
        Bool.false_or]
      cases hr : rest.any List.isEmpty
      · simp [sideCompositions, hm]
      · simp
    · simp [parseCompounds, hc]

theorem zipWith_map_map {α β γ δ : Type} (f : β → γ → δ) (g : α → β) (h : α → γ) (l : List α) :
    List.zipWith f (l.map g) (l.map h) = l.map (fun x => f (g x) (h x)) := by
  induction l with
  | nil => rfl
  | cons x xs ih => simp [ih]

/-- The matrix built for an equation with at least one element is the signed
matrix over its element list. -/
theorem buildMainMatrix_eq (elements reactants products : List (List Char))
    (hr : reactants ≠ []) (hp : products ≠ []) (he : elements ≠ []) :
    buildMainMatrix (_build_matrix (sideCompositions reactants) elements)
      (_build_matrix (sideCompositions products) elements) =
      signedMatrix elements reactants products := by
  have hR : (sideCompositions reactants).isEmpty = false := by
    cases reactants <;> simp_all [sideCompositions]
  have hP : (sideCompositions products).isEmpty = false := by
    cases products <;> simp_all [sideCompositions]
  have hE : elements.isEmpty = false := by cases elements <;> simp_all
  unfold buildMainMatrix _build_matrix
  simp only [hR, hP, hE, Bool.or_self, Bool.false_eq_true, if_false]
  rw [zipWith_map_map]
  unfold signedMatrix sideCompositions countIn
  simp [List.map_map, Function.comp_def]

theorem buildMainMatrix_nil (reactants products : List (List Char)) :
    buildMainMatrix (_build_matrix (sideCompositions reactants) [])
      (_build_matrix (sideCompositions products) []) = [] := by
  simp [buildMainMatrix, _build_matrix]

theorem signedMatrix_row_length (elements reactants products : List (List Char)) :
    ∀ row ∈ signedMatrix elements reactants products,
      row.length = reactants.length + products.length := by
  intro row hrow
  simp only [signedMatrix, List.mem_map] at hrow
  obtain ⟨el, _, rfl⟩ := hrow
  simp

/-- What `_balance_with_given_compounds_str` does, case by case: the two early
exceptions, the element check, the read outside the empty matrix when the
equation has no element, and otherwise the state left by solver and filter,
with `FAILED_TO_BALANCE` exactly when the filtered result list is empty. -/
theorem balance_with_given_compounds_str_eq (s : State) (reactants products : List (List Char)) :
    _balance_with_given_compounds_str s reactants products =
      if (reactants.isEmpty || products.isEmpty) = true then
        some (s, some .EMPTY_COMPOUND_LIST)
      else if (reactants.any List.isEmpty || products.any List.isEmpty) = true then
        some ({ s with _reactants_and_products := (reactants, products) },
          some .INCOMPLETE_REACTANT)
      else if sideElements reactants ≠ sideElements products then
        some ({ s with _reactants_and_products := (reactants, products) },
          some .ELEMENTS_MISMATCH_BETWEEN_REACTANTS_AND_PRODUCTS)
      else if sideElements reactants = [] then none
      else
        some (stateAfterSolving s reactants products,
          if (stateAfterSolving s reactants products)._results_coefs.isEmpty
          then some .FAILED_TO_BALANCE else none) := by
  unfold _balance_with_given_compounds_str
  by_cases h0 : (reactants.isEmpty || products.isEmpty) = true
  · simp only [h0, if_true]
  simp only [h0, if_false, Bool.false_eq_true]
  have hr : reactants ≠ [] := by
    intro e; subst e; simp at h0
  have hp : products ≠ [] := by
    intro e; subst e; simp at h0
  rw [parseCompounds_eq reactants, parseCompounds_eq products]
  cases hre : reactants.any List.isEmpty
  swap
  · simp
  cases hpe : products.any List.isEmpty
  swap
  · simp
  simp only [Bool.false_eq_true, if_false, Bool.or_self]
  have hse : ∀ c, get_elements_from_compounds_composition (sideCompositions c) = sideElements c :=
    fun _ => rfl
  simp only [hse]
  by_cases hm : sideElements reactants = sideElements products
  swap
  · simp only [ne_eq, hm, not_false_eq_true, if_true]
  simp only [ne_eq, hm, not_true_eq_false, if_false]
  by_cases hE : sideElements products = []
  · simp only [hE, if_true]
    rw [buildMainMatrix_nil]
    simp [_solving_matrix_using_recursion]
  simp only [hE, if_false]
  have hE' : sideElements reactants ≠ [] := by rw [hm]; exact hE
  rw [buildMainMatrix_eq _ reactants products hr hp hE]
  -- the solver on the signed matrix
  obtain ⟨row0, rest, hrows⟩ : ∃ row0 rest,
      signedMatrix (sideElements products) reactants products = row0 :: rest := by
    cases hsm : signedMatrix (sideElements products) reactants products with
    | nil =>
      simp only [signedMatrix, List.map_eq_nil_iff] at hsm
      exact absurd hsm hE
    | cons a b => exact ⟨a, b, rfl⟩
  have hlen0 : row0.length = reactants.length + products.length :=
    signedMatrix_row_length _ reactants products row0 (by rw [hrows]; simp)
  obtain ⟨c', hrun⟩ := solving_matrix_spec
    { s with _reactants_and_products := (reactants, products)
             _elements := sideElements products
             _main_matrix := signedMatrix (sideElements products) reactants products }
    row0 rest (List.replicate (reactants.length + products.length) 0) hrows
    (fun row hrow => by
      rw [hlen0]; exact signedMatrix_row_length _ reactants products row hrow)
    (by simp [hlen0])
  simp only [hrun]
  simp only [stateAfterSolving, _filter_linear_independent_results, hm, hlen0]
  split <;> rfl

/-! ### The balance attempt: what it leaves and what it reports -/

theorem filterLoop_eq_nil_iff (raw : List (List Nat)) : filterLoop raw [] = [] ↔ raw = [] := by
  cases raw with
  | nil => simp [filterLoop]
  | cons v rest =>
    obtain ⟨tail, _, he⟩ := filterLoop_sublist rest [v]
    simp [filterLoop, he]

theorem resultsAfter_nil_eq_nil_iff (multi : Bool) (found : List (List Nat)) :
    resultsAfter multi [] found = [] ↔ found = [] := by
  cases multi <;> cases found <;> simp [resultsAfter]

theorem mem_resultsAfter_nil (multi : Bool) (found : List (List Nat)) (v : List Nat)
    (h : v ∈ resultsAfter multi [] found) : v ∈ found := by
  cases multi
  · simp only [resultsAfter, Bool.false_eq_true, if_false, List.isEmpty_nil, if_true] at h
    exact List.mem_of_mem_take h
  · simpa [resultsAfter] using h

/-- On a balancer with an empty result list, every vector left by an attempt that
reaches the solver lies in `[1, M]^columns` and passes the solver's test on the
matrix left. -/
theorem mem_results_stateAfterSolving (s : State) (reactants products : List (List Char))
    (hclear : s._results_coefs = []) (v : List Nat)
    (hv : v ∈ (stateAfterSolving s reactants products)._results_coefs) :
    inBox s._max_coef (reactants.length + products.length) v ∧
      balancedInt32 (stateAfterSolving s reactants products)._main_matrix v = true := by
  simp only [stateAfterSolving, hclear] at hv ⊢
  obtain ⟨tail, htail, he⟩ := filterLoop_sublist
    (resultsAfter s._multiple_results []
      ((allVectors s._max_coef (reactants.length + products.length)).filter
        (balancedInt32 (signedMatrix (sideElements reactants) reactants products)))) []
  rw [he, List.nil_append] at hv
  have h1 := mem_resultsAfter_nil _ _ v (htail.subset hv)
  simp only [List.mem_filter, mem_allVectors] at h1
  exact h1

/-- What an attempt leaves in the result list and the matrix, on a balancer
with an empty result list: every vector left passes the solver's test. -/
theorem attempt_results_balanced (s : State) (hclear : s._results_coefs = [])
    (reactants products : List (List Char)) (s' : State) (err : Option BalanceError)
    (hrun : _balance_with_given_compounds_str s reactants products = some (s', err)) :
    ∀ v ∈ s'._results_coefs,
      (∀ row ∈ s'._main_matrix, dot v row % 4294967296 = 0) ∧
      (withinIntRange s'._main_matrix s._max_coef → ∀ row ∈ s'._main_matrix, dot v row = 0) := by
  rw [balance_with_given_compounds_str_eq] at hrun
  have main : ∀ v ∈ (stateAfterSolving s reactants products)._results_coefs,
      (∀ row ∈ (stateAfterSolving s reactants products)._main_matrix,
        dot v row % 4294967296 = 0) ∧
      (withinIntRange (stateAfterSolving s reactants products)._main_matrix s._max_coef →
        ∀ row ∈ (stateAfterSolving s reactants products)._main_matrix, dot v row = 0) := by
    intro v hv
    obtain ⟨hbox, hpass⟩ := mem_results_stateAfterSolving s reactants products hclear v hv
    refine ⟨?_, ?_⟩
    · simpa [balancedInt32] using hpass
    · intro hrange
      rw [balancedInt32_eq_exact _ _ _ v hrange hbox] at hpass
      simpa [balancedExact] using hpass
  split_ifs at hrun <;> cases hrun
  · intro v hv; rw [hclear] at hv; cases hv
  · intro v hv; simp only [hclear] at hv; cases hv
  · intro v hv; simp only [hclear] at hv; cases hv
  · exact main
  · exact main

/-- C2 (as amended): after `balance_with_given_compounds` or `balance` has run on a
balancer whose result list is empty, every vector `v` of the solution set
satisfies, for every row `r` of the stored matrix, that the sum over `i` of
`v[i] * matrix[r][i]` is zero modulo `2^32` (the solver sums in a 32-bit `int`);
the sum is exactly zero where no dot product can leave the range of `int`. -/
theorem balance_results_balanced (s : State) (hclear : s._results_coefs = []) :
    (∀ reactants products s' err,
      balance_with_given_compounds s reactants products = some (s', err) →
      ∀ v ∈ s'._results_coefs,
        (∀ row ∈ s'._main_matrix, dot v row % 4294967296 = 0) ∧
        (withinIntRange s'._main_matrix s._max_coef →
          ∀ row ∈ s'._main_matrix, dot v row = 0)) ∧
    (∀ equation s' err, balance s equation = some (s', err) →
      ∀ v ∈ s'._results_coefs,
        (∀ row ∈ s'._main_matrix, dot v row % 4294967296 = 0) ∧
        (withinIntRange s'._main_matrix s._max_coef →
          ∀ row ∈ s'._main_matrix, dot v row = 0)) := by
  constructor
  · intro reactants products s' err hrun
    exact attempt_results_balanced s hclear reactants products s' err hrun
  · intro equation s' err hrun
    exact attempt_results_balanced
      { s with _reactants_and_products := _get_compounds_str equation } hclear _ _ s' err hrun

/-- C2 at `H2 + O2 -> H2O` with bound 3 on a fresh balancer: the vector left is
`(2,1,2)` and its dot products with the rows `(2,0,-2)`, `(0,2,-1)` are zero. -/
theorem balance_results_balanced_witness :
    (balance (set_max_coef State.fresh 3) "H2 + O2 -> H2O".toList).map
        (fun r => (r.1._main_matrix, r.1._results_coefs)) =
      some ([[2, 0, -2], [0, 2, -1]], [[2, 1, 2]]) ∧
    ∀ s' err, balance (set_max_coef State.fresh 3) "H2 + O2 -> H2O".toList = some (s', err) →
      ∀ v ∈ s'._results_coefs,
        (∀ row ∈ s'._main_matrix, dot v row % 4294967296 = 0) ∧
        (withinIntRange s'._main_matrix (set_max_coef State.fresh 3)._max_coef →
          ∀ row ∈ s'._main_matrix, dot v row = 0) :=
  ⟨by decide,
   (balance_results_balanced (set_max_coef State.fresh 3) rfl).2 "H2 + O2 -> H2O".toList⟩

/-- C2 as stated fails: `balance` on a fresh balancer with bound 2 and the
equation `H2147483647H -> H0` stores the row `(-2^31, 0)` and the vector `(2, 1)`,
whose exact dot product with the row is `-2^32`. -/
theorem balance_results_exact_counterexample :
    (balance (set_max_coef State.fresh 2) "H2147483647H -> H0".toList).map
        (fun r => (r.1._main_matrix, r.1._results_coefs)) =
      some ([[-2147483648, 0]], [[2, 1], [2, 2]]) ∧
    (set_max_coef State.fresh 2)._results_coefs = [] ∧
    dot [2, 1] [-2147483648, 0] = -4294967296 := by
  refine ⟨by decide, by decide, by decide⟩

/-- C5 (as amended): for every input of non-empty compound strings that passes the
element check and has at least one element, `balance_with_given_compounds` on a
balancer with an empty result list returns, and it reports `FAILED_TO_BALANCE`
(leaving the solution set empty) if and only if no vector of `[1, M]^columns`
has a dot product with every row of the built matrix that is zero modulo `2^32`;
where no dot product can leave the range of `int`, if and only if no vector of
`[1, M]^columns` is balanced; and with `max_coef = 0` it always reports it. -/
theorem balance_fails_iff_no_vector (s : State) (reactants products : List (List Char))
    (hclear : s._results_coefs = [])
    (hr : reactants ≠ []) (hp : products ≠ [])
    (hrne : ∀ c ∈ reactants, c ≠ []) (hpne : ∀ c ∈ products, c ≠ [])
    (hcheck : sideElements reactants = sideElements products)
    (helem : sideElements reactants ≠ []) :
    ∃ s' err, balance_with_given_compounds s reactants products = some (s', err) ∧
      s'._main_matrix = signedMatrix (sideElements reactants) reactants products ∧
      (err = some .FAILED_TO_BALANCE ∨ err = none) ∧
      (err = some .FAILED_TO_BALANCE ↔
        ¬ ∃ v, inBox s._max_coef (reactants.length + products.length) v ∧
          balancedInt32 s'._main_matrix v = true) ∧
      (err = some .FAILED_TO_BALANCE ↔ s'._results_coefs = []) ∧
      (withinIntRange s'._main_matrix s._max_coef →
        (err = some .FAILED_TO_BALANCE ↔
          ¬ ∃ v, inBox s._max_coef (reactants.length + products.length) v ∧
            balancedExact s'._main_matrix v = true)) ∧
      (s._max_coef = 0 → err = some .FAILED_TO_BALANCE) := by
  have h0 : (reactants.isEmpty || products.isEmpty) = false := by
    cases reactants <;> cases products <;> simp_all
  have h1 : (reactants.any List.isEmpty || products.any List.isEmpty) = false := by
    simp only [Bool.or_eq_false_iff, List.any_eq_false, List.isEmpty_iff]
    exact ⟨fun c hc => hrne c hc, fun c hc => hpne c hc⟩
  have hrun := balance_with_given_compounds_str_eq s reactants products
  simp only [h0, h1, Bool.false_eq_true, if_false, ne_eq, hcheck, not_true_eq_false] at hrun
  rw [← hcheck] at hrun
  simp only [helem, if_false] at hrun
  -- the filtered result list is empty exactly when no vector passes
  have hempty : (stateAfterSolving s reactants products)._results_coefs = [] ↔
      ¬ ∃ v, inBox s._max_coef (reactants.length + products.length) v ∧
        balancedInt32 (signedMatrix (sideElements reactants) reactants products) v = true := by
    simp only [stateAfterSolving, hclear, filterLoop_eq_nil_iff, resultsAfter_nil_eq_nil_iff,
      List.filter_eq_nil_iff, mem_allVectors]
    constructor
    · rintro h ⟨v, hb, hpass⟩
      exact h v hb hpass
    · intro h v hb hpass
      exact h ⟨v, hb, hpass⟩
  have herr : ∀ l : List (List Nat),
      ((if l.isEmpty = true then some BalanceError.FAILED_TO_BALANCE else none) =
        some BalanceError.FAILED_TO_BALANCE ↔ l = []) := by
    intro l; cases l <;> simp
  refine ⟨_, _, hrun, rfl, ?_, ?_, herr _, ?_, ?_⟩
  · cases (stateAfterSolving s reactants products)._results_coefs <;> simp
  · rw [herr, hempty]
    rfl
  · intro hrange
    rw [herr, hempty]
    have hmat : (stateAfterSolving s reactants products)._main_matrix =
        signedMatrix (sideElements reactants) reactants products := rfl
    rw [hmat] at hrange ⊢
    constructor
    · rintro h ⟨v, hb, hpass⟩
      exact h ⟨v, hb, by rw [balancedInt32_eq_exact _ _ _ v hrange hb]; exact hpass⟩
    · rintro h ⟨v, hb, hpass⟩
      exact h ⟨v, hb, by rw [← balancedInt32_eq_exact _ _ _ v hrange hb]; exact hpass⟩
  · intro hM
    rw [herr, hempty]
    rintro ⟨v, ⟨hlen, hbox⟩, _⟩
    cases v with
    | nil =>
      have : 0 < reactants.length := List.length_pos.2 hr
      simp only [List.length_nil] at hlen
      omega
    | cons x xs =>
      have := hbox x (by simp)
      omega

/-- C5 at `H2 + O2 -> H2O`: with bound 1 the attempt reports `FAILED_TO_BALANCE`,
with bound 3 it does not. -/
theorem balance_fails_iff_no_vector_witness :
    (balance_with_given_compounds (set_max_coef State.fresh 1)
        ["H2".toList, "O2".toList] ["H2O".toList]).map (fun r => (r.1._results_coefs, r.2)) =
      some ([], some .FAILED_TO_BALANCE) ∧
    (balance_with_given_compounds (set_max_coef State.fresh 3)
        ["H2".toList, "O2".toList] ["H2O".toList]).map (fun r => (r.1._results_coefs, r.2)) =
      some ([[2, 1, 2]], none) ∧
    ∃ s' err, balance_with_given_compounds (set_max_coef State.fresh 1)
        ["H2".toList, "O2".toList] ["H2O".toList] = some (s', err) ∧
      s'._main_matrix = signedMatrix (sideElements ["H2".toList, "O2".toList])
        ["H2".toList, "O2".toList] ["H2O".toList] ∧
      (err = some .FAILED_TO_BALANCE ∨ err = none) ∧
      (err = some .FAILED_TO_BALANCE ↔
        ¬ ∃ v, inBox 1 (2 + 1) v ∧ balancedInt32 s'._main_matrix v = true) ∧
      (err = some .FAILED_TO_BALANCE ↔ s'._results_coefs = []) ∧
      (withinIntRange s'._main_matrix 1 →
        (err = some .FAILED_TO_BALANCE ↔
          ¬ ∃ v, inBox 1 (2 + 1) v ∧ balancedExact s'._main_matrix v = true)) ∧
      ((1 : Nat) = 0 → err = some .FAILED_TO_BALANCE) :=
  ⟨by decide, by decide,
   balance_fails_iff_no_vector (set_max_coef State.fresh 1)
    ["H2".toList, "O2".toList] ["H2O".toList] rfl (by decide) (by decide) (by decide)
    (by decide) (by decide) (by decide)⟩

/-- C5 as stated fails: `H1073741824 -> H0` with bound 4 parses and passes the
element check; no vector of `[1, 4]^2` is balanced for the built row `(2^30, 0)`,
yet the attempt does not report `FAILED_TO_BALANCE` and leaves four vectors. -/
theorem balance_fails_exact_counterexample :
    (balance_with_given_compounds (set_max_coef State.fresh 4)
        ["H1073741824".toList] ["H0".toList]).map
        (fun r => (r.1._main_matrix, r.1._results_coefs, r.2)) =
      some ([[1073741824, 0]], [[4, 1], [4, 2], [4, 3], [4, 4]], none) ∧
    (set_max_coef State.fresh 4)._results_coefs = [] ∧
    acceptedCompound "H1073741824".toList = true ∧ acceptedCompound "H0".toList = true ∧
    sideElements ["H1073741824".toList] = sideElements ["H0".toList] ∧
    (allVectors 4 2).all (fun v => !balancedExact [[1073741824, 0]] v) = true := by
  refine ⟨by decide, by decide, by decide, by decide, by decide, by decide⟩

/-- C8: for all non-empty lists of non-empty compound strings,
`balance_with_given_compounds` reports `ELEMENTS_MISMATCH` if and only if the
keys of the reactant compositions and the keys of the product compositions are
not the same set; when it reports it, the element list, the matrix and the
solution set are left as they were (the solver has not run). -/
theorem balance_mismatch_iff (s : State) (reactants products : List (List Char))
    (hr : reactants ≠ []) (hp : products ≠ [])
    (hrne : ∀ c ∈ reactants, c ≠ []) (hpne : ∀ c ∈ products, c ≠ []) :
    ((∃ s', balance_with_given_compounds s reactants products =
        some (s', some .ELEMENTS_MISMATCH_BETWEEN_REACTANTS_AND_PRODUCTS)) ↔
      ¬ ∀ symbol, sideHasKey reactants symbol = sideHasKey products symbol) ∧
    (∀ s', balance_with_given_compounds s reactants products =
        some (s', some .ELEMENTS_MISMATCH_BETWEEN_REACTANTS_AND_PRODUCTS) →
      s'._elements = s._elements ∧ s'._main_matrix = s._main_matrix ∧
        s'._results_coefs = s._results_coefs) := by
  have h0 : (reactants.isEmpty || products.isEmpty) = false := by
    cases reactants <;> cases products <;> simp_all
  have h1 : (reactants.any List.isEmpty || products.any List.isEmpty) = false := by
    simp only [Bool.or_eq_false_iff, List.any_eq_false, List.isEmpty_iff]
    exact ⟨fun c hc => hrne c hc, fun c hc => hpne c hc⟩
  have hrun := balance_with_given_compounds_str_eq s reactants products
  simp only [h0, h1, Bool.false_eq_true, if_false] at hrun
  have hiff := sideElements_eq_iff reactants products hr hp
  unfold balance_with_given_compounds
  rw [hrun]
  by_cases hm : sideElements reactants = sideElements products
  · simp only [ne_eq, hm, not_true_eq_false, if_false]
    have hall := hiff.1 hm
    constructor
    · constructor
      · rintro ⟨s', hs'⟩
        split_ifs at hs' <;> cases hs'
      · intro h; exact absurd hall h
    · intro s' hs'
      split_ifs at hs' <;> cases hs'
  · simp only [ne_eq, hm, not_false_eq_true, if_true]
    have hnall : ¬ ∀ symbol, sideHasKey reactants symbol = sideHasKey products symbol :=
      fun h => hm (hiff.2 h)
    constructor
    · exact ⟨fun _ => hnall, fun _ => ⟨_, rfl⟩⟩
    · intro s' hs'
      cases hs'
      exact ⟨rfl, rfl, rfl⟩

/-- C8 at `Na -> K`: the attempt is rejected with `ELEMENTS_MISMATCH`, and the
element list, matrix and solution set are as before. -/
theorem balance_mismatch_iff_witness :
    (balance State.fresh "Na -> K".toList).map (fun r => r.2) =
      some (some .ELEMENTS_MISMATCH_BETWEEN_REACTANTS_AND_PRODUCTS) ∧
    ((∃ s', balance_with_given_compounds State.fresh ["Na".toList] ["K".toList] =
        some (s', some .ELEMENTS_MISMATCH_BETWEEN_REACTANTS_AND_PRODUCTS)) ↔
      ¬ ∀ symbol, sideHasKey ["Na".toList] symbol = sideHasKey ["K".toList] symbol) ∧
    (∀ s', balance_with_given_compounds State.fresh ["Na".toList] ["K".toList] =
        some (s', some .ELEMENTS_MISMATCH_BETWEEN_REACTANTS_AND_PRODUCTS) →
      s'._elements = State.fresh._elements ∧ s'._main_matrix = State.fresh._main_matrix ∧
        s'._results_coefs = State.fresh._results_coefs) :=
  ⟨by decide,
   balance_mismatch_iff State.fresh ["Na".toList] ["K".toList] (by decide) (by decide)
    (by decide) (by decide)⟩

theorem toInt32_of_lt (x : Nat) (h : x < 2147483648) :
    toInt32 x = (x : Int) ∧ wrap32 (-(toInt32 x)) = -(x : Int) := by
  unfold toInt32 wrap32
  omega

/-- C9 (as amended): for every input of non-empty compound strings that passes the
element check and has at least one element, the attempt returns and stores an
element list that is strictly increasing and holds exactly the symbols that are
keys of a composition of any compound, and a matrix with one row per element
and one column per compound, reactants first in input order, then products in
input order; the entry for element `i` and reactant `j` is the count of the
element in the reactant converted to a 32-bit `int`, the entry for a product is
the `int` negation of its converted count, both 0 when the compound does not
contain the element; for a count below `2^31` these are the count and minus the
count. -/
theorem balance_stores_signed_matrix (s : State) (reactants products : List (List Char))
    (hr : reactants ≠ []) (hp : products ≠ [])
    (hrne : ∀ c ∈ reactants, c ≠ []) (hpne : ∀ c ∈ products, c ≠ [])
    (hcheck : sideElements reactants = sideElements products)
    (helem : sideElements reactants ≠ []) :
    ∃ s' err, balance_with_given_compounds s reactants products = some (s', err) ∧
      s'._elements.Pairwise (fun a b => strLt a b = true) ∧
      (∀ symbol, symbol ∈ s'._elements ↔
        (sideHasKey reactants symbol = true ∨ sideHasKey products symbol = true)) ∧
      s'._main_matrix.length = s'._elements.length ∧
      (∀ row ∈ s'._main_matrix, row.length = reactants.length + products.length) ∧
      s'._main_matrix = s'._elements.map (fun element =>
        reactants.map (fun compound => toInt32 (countIn element compound)) ++
        products.map (fun compound => wrap32 (-(toInt32 (countIn element compound))))) ∧
      (∀ element compound, countIn element compound < 2147483648 →
        toInt32 (countIn element compound) = (countIn element compound : Int) ∧
        wrap32 (-(toInt32 (countIn element compound))) = -(countIn element compound : Int)) ∧
      (∀ element compound, sideHasKey [compound] element = false →
        countIn element compound = 0) := by
  have h0 : (reactants.isEmpty || products.isEmpty) = false := by
    cases reactants <;> cases products <;> simp_all
  have h1 : (reactants.any List.isEmpty || products.any List.isEmpty) = false := by
    simp only [Bool.or_eq_false_iff, List.any_eq_false, List.isEmpty_iff]
    exact ⟨fun c hc => hrne c hc, fun c hc => hpne c hc⟩
  have hrun := balance_with_given_compounds_str_eq s reactants products
  simp only [h0, h1, Bool.false_eq_true, if_false, ne_eq, hcheck, not_true_eq_false] at hrun
  rw [← hcheck] at hrun
  simp only [helem, if_false] at hrun
  have hR : sideCompositions reactants ≠ [] := by
    cases reactants <;> simp_all [sideCompositions]
  have hP : sideCompositions products ≠ [] := by
    cases products <;> simp_all [sideCompositions]
  obtain ⟨hs1, hm1⟩ := get_elements_spec _ hR
  obtain ⟨_, hm2⟩ := get_elements_spec _ hP
  refine ⟨_, _, hrun, hs1, ?_, ?_, ?_, rfl, ?_, ?_⟩
  · intro symbol
    show symbol ∈ sideElements reactants ↔ _
    constructor
    · intro h
      exact Or.inl ((hm1 symbol).1 h)
    · rintro (h | h)
      · exact (hm1 symbol).2 h
      · rw [hcheck]
        exact (hm2 symbol).2 h
  · simp [stateAfterSolving, signedMatrix]
  · intro row hrow
    exact signedMatrix_row_length _ reactants products row hrow
  · intro element compound h
    exact toInt32_of_lt _ h
  · intro element compound h
    simp only [sideHasKey, sideCompositions, List.map_cons, List.map_nil, List.any_cons,
      List.any_nil, Bool.or_false] at h
    unfold countIn
    cases hc : countOf element ((_get_compound_composition compound).getD []) with
    | none => rfl
    | some x => rw [hc] at h; simp at h

/-- C9 at `Ca(OH)2 + HCl -> CaCl2 + H2O` with bound 2: the element list is
`Ca, Cl, H, O` and the matrix has the reactant counts and the negated product
counts. -/
theorem balance_stores_signed_matrix_witness :
    (balance_with_given_compounds (set_max_coef State.fresh 2)
        ["Ca(OH)2".toList, "HCl".toList] ["CaCl2".toList, "H2O".toList]).map
        (fun r => (r.1._elements, r.1._main_matrix)) =
      some (["Ca".toList, "Cl".toList, "H".toList, "O".toList],
        [[1, 0, -1, 0], [0, 1, -2, 0], [2, 1, 0, -2], [2, 0, 0, -1]]) ∧
    ∃ s' err, balance_with_given_compounds (set_max_coef State.fresh 2)
        ["Ca(OH)2".toList, "HCl".toList] ["CaCl2".toList, "H2O".toList] = some (s', err) ∧
      s'._elements.Pairwise (fun a b => strLt a b = true) ∧
      (∀ symbol, symbol ∈ s'._elements ↔
        (sideHasKey ["Ca(OH)2".toList, "HCl".toList] symbol = true ∨
          sideHasKey ["CaCl2".toList, "H2O".toList] symbol = true)) ∧
      s'._main_matrix.length = s'._elements.length ∧
      (∀ row ∈ s'._main_matrix, row.length = 2 + 2) ∧
      s'._main_matrix = s'._elements.map (fun element =>
        ["Ca(OH)2".toList, "HCl".toList].map
          (fun compound => toInt32 (countIn element compound)) ++
        ["CaCl2".toList, "H2O".toList].map
          (fun compound => wrap32 (-(toInt32 (countIn element compound))))) ∧
      (∀ element compound, countIn element compound < 2147483648 →
        toInt32 (countIn element compound) = (countIn element compound : Int) ∧
        wrap32 (-(toInt32 (countIn element compound))) = -(countIn element compound : Int)) ∧
      (∀ element compound, sideHasKey [compound] element = false →
        countIn element compound = 0) :=
  ⟨by decide,
   balance_stores_signed_matrix (set_max_coef State.fresh 2)
    ["Ca(OH)2".toList, "HCl".toList] ["CaCl2".toList, "H2O".toList]
    (by decide) (by decide) (by decide) (by decide) (by decide) (by decide)⟩

/-- C9 as stated fails: for `H2147483647H -> H` the count of `H` in the reactant
is `2^31`, and the entry stored for it is `-2^31`. -/
theorem balance_stores_count_counterexample :
    (balance_with_given_compounds (set_max_coef State.fresh 1)
        ["H2147483647H".toList] ["H".toList]).map
        (fun r => (r.1._elements, r.1._main_matrix, r.2)) =
      some (["H".toList], [[-2147483648, -1]], some .FAILED_TO_BALANCE) ∧
    acceptedCompound "H2147483647H".toList = true ∧ acceptedCompound "H".toList = true ∧
    sideElements ["H2147483647H".toList] = sideElements ["H".toList] ∧
    countIn "H".toList "H2147483647H".toList = 2147483648 := by
  refine ⟨by decide, by decide, by decide, by decide, by decide⟩

/-! ### The renderer -/

theorem intercalate_single (sep x : List Char) : sep.intercalate [x] = x := by
  simp [List.intercalate]

theorem intercalate_cons_cons (sep x y : List Char) (ys : List (List Char)) :
    sep.intercalate (x :: y :: ys) = x ++ sep ++ sep.intercalate (y :: ys) := by
  simp [List.intercalate]

theorem renderTerms_eq (solution : List Nat) :
    ∀ (compounds : List (List Char)) (index : Nat) (result_str : List Char),
      index + compounds.length ≤ solution.length →
      renderTerms solution compounds index result_str =
        some (result_str ++ [' ', '+', ' '].intercalate
          (renderedTerms ((solution.drop index).take compounds.length) compounds)) := by
  intro compounds
  induction compounds with
  | nil => intro index result_str _; simp [renderTerms, renderedTerms, List.intercalate]
  | cons compound rest ih =>
    intro index result_str hlen
    simp only [List.length_cons] at hlen
    have hidx : index < solution.length := by omega
    have hdrop : solution.drop index = solution[index] :: solution.drop (index + 1) :=
      List.drop_eq_getElem_cons hidx
    have hget : solution[index]? = some solution[index] := List.getElem?_eq_getElem hidx
    simp only [renderTerms, hget]
    rw [ih (index + 1) _ (by omega), hdrop]
    simp only [List.length_cons, List.take_succ_cons, renderedTerms, List.zipWith_cons_cons,
      renderedTerm]
    cases rest with
    | nil =>
      simp [List.intercalate]
    | cons y ys =>
      have hidx2 : index + 1 < solution.length := by simp only [List.length_cons] at hlen; omega
      rw [List.drop_eq_getElem_cons hidx2]
      simp only [List.length_cons, List.take_succ_cons, List.zipWith_cons_cons,
        intercalate_cons_cons]
      by_cases h1 : solution[index] = 1 <;> simp [h1]

theorem renderedTerms_take : ∀ (compounds : List (List Char)) (coefficients : List Nat),
    renderedTerms (coefficients.take compounds.length) compounds =
      renderedTerms coefficients compounds := by
  intro compounds
  induction compounds with
  | nil => intro c; simp [renderedTerms]
  | cons x xs ih =>
    intro c
    cases c with
    | nil => simp [renderedTerms]
    | cons a as =>
      have := ih as
      simp only [renderedTerms] at this ⊢
      simp [this]

theorem renderTerms_line (reactants products : List (List Char)) (solution : List Nat)
    (hlen : reactants.length + products.length ≤ solution.length) (result_str : List Char) :
    (match renderTerms solution reactants 0 result_str with
      | none => none
      | some result1 =>
        renderTerms solution products reactants.length (result1 ++ [' ', '=', '=', ' '])) =
      some (result_str ++ renderedLine reactants products solution) := by
  rw [renderTerms_eq solution reactants 0 result_str (by omega)]
  simp only []
  rw [renderTerms_eq solution products reactants.length _ (by omega)]
  simp only [renderedLine, List.drop_zero, List.append_assoc]
  rw [renderedTerms_take products]

theorem join_lines (nl : Char) : ∀ (lines : List (List Char)), lines ≠ [] →
    (lines.map (fun l => l ++ [nl])).flatten = [nl].intercalate lines ++ [nl] := by
  intro lines
  induction lines with
  | nil => intro h; exact absurd rfl h
  | cons l rest ih =>
    intro _
    cases rest with
    | nil => simp [List.intercalate]
    | cons l2 rest2 =>
      have := ih (by simp)
      rw [List.map_cons, List.flatten_cons, this, intercalate_cons_cons]
      simp

theorem renderSolutions_eq (reactants products : List (List Char)) :
    ∀ (solutions : List (List Nat)) (result_str : List Char),
      (∀ v ∈ solutions, reactants.length + products.length ≤ v.length) →
      renderSolutions reactants products solutions result_str =
        some (result_str ++
          ((solutions.map (renderedLine reactants products)).map (fun l => l ++ ['\n'])).flatten) := by
  intro solutions
  induction solutions with
  | nil => intro r _; simp [renderSolutions]
  | cons v rest ih =>
    intro r hall
    have hv := hall v (by simp)
    have hline := renderTerms_line reactants products v hv r
    simp only [renderSolutions]
    cases h1 : renderTerms v reactants 0 r with
    | none => rw [h1] at hline; cases hline
    | some r1 =>
      rw [h1] at hline
      simp only [] at hline ⊢
      rw [hline]
      simp only []
      rw [ih _ (fun w hw => hall w (by simp [hw]))]
      simp

/-- What `get_result` returns when both compound lists are non-empty and every
stored vector has an entry for every compound. -/
theorem get_result_eq (s : State)
    (hr : s._reactants_and_products.1 ≠ []) (hp : s._reactants_and_products.2 ≠ [])
    (hlen : ∀ v ∈ s._results_coefs,
      s._reactants_and_products.1.length + s._reactants_and_products.2.length ≤ v.length) :
    get_result s = some (['\n'].intercalate (s._results_coefs.map
      (renderedLine s._reactants_and_products.1 s._reactants_and_products.2)), none) := by
  unfold get_result
  have h0 : (s._reactants_and_products.1.isEmpty || s._reactants_and_products.2.isEmpty) = false := by
    cases h1 : s._reactants_and_products.1 with
    | nil => exact absurd h1 hr
    | cons a as =>
      cases h2 : s._reactants_and_products.2 with
      | nil => exact absurd h2 hp
      | cons b bs => rfl
  rw [h0, renderSolutions_eq _ _ _ _ hlen]
  simp only [Bool.false_eq_true, if_false, List.nil_append]
  cases hres : s._results_coefs with
  | nil => simp [substr, List.intercalate]
  | cons v rest =>
    rw [join_lines '\n' _ (by simp)]
    simp [substr]
theorem decimalValue_append (xs ys : List Char) :
    decimalValue (xs ++ ys) = ys.foldl (fun acc c => acc * 10 + digitValue c) (decimalValue xs) := by
  simp [decimalValue, List.foldl_append]

theorem digitChar_spec (k : Nat) (hk : k < 10) :
    (Nat.digitChar k).isDigit = true ∧ digitValue (Nat.digitChar k) = k := by
  interval_cases k <;> exact ⟨by decide, by decide⟩

theorem toDigitsCore_spec : ∀ (fuel n : Nat) (ds : List Char), n < fuel →
    ∃ pre, Nat.toDigitsCore 10 fuel n ds = pre ++ ds ∧ pre ≠ [] ∧
      pre.all Char.isDigit = true ∧ decimalValue pre = n := by
  intro fuel
  induction fuel with
  | zero => intro n ds h; omega
  | succ fuel ih =>
    intro n ds h
    obtain ⟨hd, hv⟩ := digitChar_spec (n % 10) (Nat.mod_lt _ (by decide))
    by_cases h0 : n / 10 = 0
    · refine ⟨[Nat.digitChar (n % 10)], by simp [Nat.toDigitsCore, h0], by simp, by simp [hd], ?_⟩
      simp only [decimalValue, List.foldl_cons, List.foldl_nil, hv]
      omega
    · obtain ⟨pre, he, hne, hall, hval⟩ := ih (n / 10) (Nat.digitChar (n % 10) :: ds) (by omega)
      refine ⟨pre ++ [Nat.digitChar (n % 10)], by simp [Nat.toDigitsCore, h0, he], by simp,
        by simp [hall, hd], ?_⟩
      rw [decimalValue_append, hval]
      simp only [List.foldl_cons, List.foldl_nil, hv]
      omega

/-- The string `std::to_string` gives is a non-empty run of digits whose decimal
value is the number. -/
theorem to_string_spec (n : Nat) :
    to_string n ≠ [] ∧ (to_string n).all Char.isDigit = true ∧ decimalValue (to_string n) = n := by
  obtain ⟨pre, he, hne, hall, hval⟩ := toDigitsCore_spec (n + 1) n [] (by omega)
  unfold to_string Nat.toDigits
  rw [he, List.append_nil]
  exact ⟨hne, hall, hval⟩

/-- C13: for all non-empty reactant and product lists and every non-empty
solution set whose vectors have length `|reactants| + |products|`, `get_result`
returns (and throws nothing) one line per solution in stored order, the lines
separated by a single newline with none after the last; each line is the
reactant terms joined by `" + "`, then `" == "`, then the product terms joined
by `" + "`, where a term is the compound string preceded by its coefficient in
decimal, the coefficient being omitted exactly when it equals 1. -/
theorem get_result_renders_lines (s : State)
    (hr : s._reactants_and_products.1 ≠ []) (hp : s._reactants_and_products.2 ≠ [])
    (_hres : s._results_coefs ≠ [])
    (hlen : ∀ v ∈ s._results_coefs,
      v.length = s._reactants_and_products.1.length + s._reactants_and_products.2.length) :
    get_result s = some (['\n'].intercalate (s._results_coefs.map
      (renderedLine s._reactants_and_products.1 s._reactants_and_products.2)), none) ∧
    (∀ v, renderedLine s._reactants_and_products.1 s._reactants_and_products.2 v =
      [' ', '+', ' '].intercalate
          (List.zipWith renderedTerm (v.take s._reactants_and_products.1.length)
            s._reactants_and_products.1) ++
        [' ', '=', '=', ' '] ++
        [' ', '+', ' '].intercalate
          (List.zipWith renderedTerm (v.drop s._reactants_and_products.1.length)
            s._reactants_and_products.2)) ∧
    (∀ compound, renderedTerm 1 compound = compound) ∧
    (∀ coefficient compound, coefficient ≠ 1 →
      renderedTerm coefficient compound = to_string coefficient ++ compound) ∧
    (∀ coefficient, to_string coefficient ≠ [] ∧
      (to_string coefficient).all Char.isDigit = true ∧
      decimalValue (to_string coefficient) = coefficient) := by
  refine ⟨get_result_eq s hr hp (fun v hv => by rw [hlen v hv]), fun v => rfl, ?_, ?_,
    to_string_spec⟩
  · intro compound; simp [renderedTerm]
  · intro coefficient compound h; simp [renderedTerm, h]

/-- C13 at the compounds of `H2 + O2 -> H2O` with the vectors `(2, 1, 2)` and
`(4, 2, 4)` stored: two lines, the coefficient 1 of `O2` left out. -/
theorem get_result_renders_lines_witness :
    get_result waterRendered =
      some ("2H2 + O2 == 2H2O\n4H2 + 2O2 == 4H2O".toList, none) ∧
    get_result waterRendered = some (['\n'].intercalate (waterRendered._results_coefs.map
      (renderedLine waterRendered._reactants_and_products.1
        waterRendered._reactants_and_products.2)), none) :=
  ⟨by decide,
   (get_result_renders_lines waterRendered (by decide) (by decide) (by decide)
    (by decide)).1⟩
/-! ### The splitter -/

theorem splitArrow_cons (c : Char) (rest current : List Char) :
    splitArrow (c :: rest) current =
      if c = '-' ∧ rest.head? = some '>' then current :: splitArrow rest.tail []
      else splitArrow rest (current ++ [c]) := by
  by_cases hc : c = '-'
  · subst hc
    cases rest with
    | nil => simp [splitArrow]
    | cons d rest2 =>
      by_cases hd : d = '>'
      · subst hd; simp [splitArrow]
      · simp only [List.head?_cons, Option.some.injEq, hd, and_false, if_false]
        rw [splitArrow]
        intro r _ h
        exact hd (List.cons.inj h).1
  · simp only [hc, false_and, if_false]
    rw [splitArrow]
    intro r h _
    exact hc h

theorem countArrows_gt (rest : List Char) : countArrows ('>' :: rest) = countArrows rest := by
  simp [countArrows]

theorem length_splitArrow : ∀ (n : Nat) (s current : List Char), s.length ≤ n →
    (splitArrow s current).length = countArrows s + 1 := by
  intro n
  induction n with
  | zero =>
    intro s current h
    cases s with
    | nil => simp [splitArrow, countArrows]
    | cons c r => simp at h
  | succ n ih =>
    intro s current h
    cases s with
    | nil => simp [splitArrow, countArrows]
    | cons c rest =>
      simp only [List.length_cons] at h
      rw [splitArrow_cons, countArrows]
      by_cases hc : c = '-' ∧ rest.head? = some '>'
      · simp only [hc, and_self, if_true, List.length_cons]
        cases rest with
        | nil => simp at hc
        | cons d rest2 =>
          have hd : d = '>' := by simpa using hc.2
          subst hd
          simp only [List.tail_cons, countArrows_gt]
          rw [ih rest2 [] (by simp only [List.length_cons] at h; omega)]
          omega
      · simp only [hc, if_false]
        rw [ih rest _ (by omega)]
        omega

theorem splitArrow_of_no_arrow : ∀ (s current : List Char), countArrows s = 0 →
    splitArrow s current = [current ++ s] := by
  intro s
  induction s with
  | nil => intro current _; simp [splitArrow]
  | cons c rest ih =>
    intro current h
    rw [countArrows] at h
    have h1 : ¬ (c = '-' ∧ rest.head? = some '>') := by
      intro hc; simp [hc] at h
    rw [splitArrow_cons, if_neg h1, ih _ (by omega)]
    simp

theorem countArrows_arrow_pos : ∀ (left right : List Char),
    1 ≤ countArrows (left ++ '-' :: '>' :: right) := by
  intro left
  induction left with
  | nil => intro right; simp [countArrows]
  | cons c left ih =>
    intro right
    have := ih right
    rw [List.cons_append, countArrows]
    omega

/-- With one occurrence of `->` the pieces are what stands before it and what
stands after it. -/
theorem splitArrow_of_one : ∀ (left right current : List Char),
    countArrows (left ++ '-' :: '>' :: right) = 1 →
    splitArrow (left ++ '-' :: '>' :: right) current = [current ++ left, right] ∧
      countArrows left = 0 ∧ countArrows right = 0 := by
  intro left
  induction left with
  | nil =>
    intro right current h
    simp only [List.nil_append, countArrows, List.head?_cons, and_self, if_true] at h
    have h' : countArrows right = 0 := by
      have : (if '>' = '-' ∧ right.head? = some '>' then 1 else 0) = 0 := by simp
      omega
    simp only [List.nil_append]
    rw [splitArrow_cons]
    simp [splitArrow_of_no_arrow right [] h', h', countArrows]
  | cons c left ih =>
    intro right current h
    have hpos := countArrows_arrow_pos left right
    rw [List.cons_append, countArrows] at h
    have h1 : ¬ (c = '-' ∧ (left ++ '-' :: '>' :: right).head? = some '>') := by
      intro hc; simp only [hc, and_self, if_true] at h; omega
    have h2 : countArrows (left ++ '-' :: '>' :: right) = 1 := by
      simp only [h1, if_false] at h; omega
    obtain ⟨e1, e2, e3⟩ := ih right (current ++ [c]) h2
    rw [List.cons_append, splitArrow_cons, if_neg h1, e1]
    refine ⟨by simp, ?_, e3⟩
    rw [countArrows, e2]
    have h3 : ¬ (c = '-' ∧ left.head? = some '>') := by
      intro hc
      apply h1
      refine ⟨hc.1, ?_⟩
      cases left with
      | nil => simp at hc
      | cons d l2 => simpa using hc.2
    simp [h3]

theorem exists_arrow_of_pos : ∀ (s : List Char), 1 ≤ countArrows s →
    ∃ left right, s = left ++ '-' :: '>' :: right := by
  intro s
  induction s with
  | nil => intro h; simp [countArrows] at h
  | cons c rest ih =>
    intro h
    by_cases hc : c = '-' ∧ rest.head? = some '>'
    · cases rest with
      | nil => simp at hc
      | cons d rest2 =>
        have hd : d = '>' := by simpa using hc.2
        exact ⟨[], rest2, by simp [hc.1, hd]⟩
    · rw [countArrows, if_neg hc] at h
      obtain ⟨l, r, e⟩ := ih (by omega)
      exact ⟨c :: l, r, by simp [e]⟩

theorem splitPlus_ne_nil : ∀ (s current : List Char), splitPlus s current ≠ [] := by
  intro s
  induction s with
  | nil => intro c; simp [splitPlus]
  | cons x rest ih =>
    intro c
    simp only [splitPlus]
    split
    · simp
    · exact ih _

theorem intercalate_cons_of_ne_nil (sep x : List Char) (xs : List (List Char)) (h : xs ≠ []) :
    sep.intercalate (x :: xs) = x ++ sep ++ sep.intercalate xs := by
  cases xs with
  | nil => exact absurd rfl h
  | cons y ys => exact intercalate_cons_cons sep x y ys

/-- The pieces `splitPlus` gives hold no `+`, are one more than the `+`
characters read, and joined with `+` give back what was read. -/
theorem splitPlus_spec : ∀ (s current : List Char), '+' ∉ current →
    (∀ piece ∈ splitPlus s current, '+' ∉ piece) ∧
    (splitPlus s current).length = s.count '+' + 1 ∧
    ['+'].intercalate (splitPlus s current) = current ++ s := by
  intro s
  induction s with
  | nil =>
    intro current hc
    simp [splitPlus, hc, List.intercalate]
  | cons x rest ih =>
    intro current hc
    simp only [splitPlus]
    by_cases hx : x = '+'
    · subst hx
      obtain ⟨h1, h2, h3⟩ := ih [] (by simp)
      simp only [if_true]
      refine ⟨?_, ?_, ?_⟩
      · intro piece hp
        simp only [List.mem_cons] at hp
        rcases hp with rfl | hp
        · exact hc
        · exact h1 piece hp
      · simp [h2]
      · rw [intercalate_cons_of_ne_nil _ _ _ (splitPlus_ne_nil rest []), h3]
        simp
    · simp only [hx, if_false]
      have hc' : '+' ∉ current ++ [x] := by
        simp only [List.mem_append, List.mem_singleton, not_or]
        exact ⟨hc, fun h => hx h.symm⟩
      obtain ⟨h1, h2, h3⟩ := ih (current ++ [x]) hc'
      refine ⟨h1, ?_, ?_⟩
      · rw [h2, List.count_cons_of_ne (fun h => hx h.symm)]
      · rw [h3]; simp
/-- The function `_get_reactants_and_products_str` is its `try` body, with two
empty strings for a thrown message. -/
theorem get_reactants_and_products_str_eq (equation : List Char) :
    _get_reactants_and_products_str equation =
      match reactantsAndProductsTry equation with
      | .ok halves => halves
      | .error _ => ([], []) := by
  unfold _get_reactants_and_products_str reactantsAndProductsTry
  rcases splitArrow equation [] with _ | ⟨a, _ | ⟨b, _ | ⟨c, rest⟩⟩⟩ <;> rfl

theorem reactantsAndProductsTry_of_ne_one (s : List Char) (h : countArrows s ≠ 1) :
    reactantsAndProductsTry s = .error .INVALID_EQUATION := by
  have hl := length_splitArrow s.length s [] (le_refl _)
  unfold reactantsAndProductsTry
  split
  · rename_i first second he
    rw [he] at hl
    simp only [List.length_cons, List.length_nil] at hl
    omega
  · rfl

theorem reactantsAndProductsTry_of_one (left right : List Char)
    (h : countArrows (left ++ ['-', '>'] ++ right) = 1) :
    reactantsAndProductsTry (left ++ ['-', '>'] ++ right) = .ok (left, right) := by
  have e : left ++ ['-', '>'] ++ right = left ++ '-' :: '>' :: right := by simp
  rw [e] at h ⊢
  unfold reactantsAndProductsTry
  rw [(splitArrow_of_one left right [] h).1]
  rfl

/-- C12: for every equation text, with `s` the text without its whitespace: if
`s` holds zero or at least two occurrences of `->`, the splitter throws
`INVALID_EQUATION` and `_get_compounds_str` returns two empty lists; if `s`
holds exactly one, `s` is `left ++ "->" ++ right` and `_get_compounds_str`
returns what `_separate_half_equation` gives for `left` and for `right`; for a
non-empty half that is the half split at every `+`: no compound holds `+`,
the list has one more entry than the half has `+` characters, and joining it
with `+` gives back the half; for an empty half `INCOMPLETE_EQUATION` is thrown
and the list is empty. -/
theorem get_compounds_str_splits (equation : List Char) :
    (countArrows (_remove_spaces equation) ≠ 1 →
      reactantsAndProductsTry (_remove_spaces equation) = .error .INVALID_EQUATION ∧
      _get_compounds_str equation = ([], [])) ∧
    (countArrows (_remove_spaces equation) = 1 →
      ∃ left right, _remove_spaces equation = left ++ ['-', '>'] ++ right) ∧
    (∀ left right, _remove_spaces equation = left ++ ['-', '>'] ++ right →
      countArrows (_remove_spaces equation) = 1 →
      reactantsAndProductsTry (_remove_spaces equation) = .ok (left, right) ∧
      _get_compounds_str equation =
        (_separate_half_equation left, _separate_half_equation right)) ∧
    (∀ half, half ≠ [] →
      separateHalfTry half = .ok (_separate_half_equation half) ∧
      (∀ compound ∈ _separate_half_equation half, '+' ∉ compound) ∧
      (_separate_half_equation half).length = half.count '+' + 1 ∧
      ['+'].intercalate (_separate_half_equation half) = half) ∧
    separateHalfTry [] = .error .INCOMPLETE_EQUATION ∧ _separate_half_equation [] = [] := by
  refine ⟨?_, ?_, ?_, ?_, rfl, rfl⟩
  · intro h
    have ht := reactantsAndProductsTry_of_ne_one _ h
    refine ⟨ht, ?_⟩
    unfold _get_compounds_str
    simp only [get_reactants_and_products_str_eq, ht]
    rfl
  · intro h
    obtain ⟨l, r, e⟩ := exists_arrow_of_pos _ (by omega : 1 ≤ countArrows (_remove_spaces equation))
    exact ⟨l, r, by simp [e]⟩
  · intro left right e h
    rw [e] at h
    have ht := reactantsAndProductsTry_of_one left right h
    rw [← e] at ht
    refine ⟨ht, ?_⟩
    unfold _get_compounds_str
    simp only [get_reactants_and_products_str_eq, ht]
  · intro half hne
    have hE : half.isEmpty = false := by cases half <;> simp_all
    obtain ⟨h1, h2, h3⟩ := splitPlus_spec half [] (by simp)
    simp only [separateHalfTry, _separate_half_equation, hE, Bool.false_eq_true, if_false]
    exact ⟨trivial, h1, h2, by simpa using h3⟩

/-- C12 at `H2 + O2 -> H2O` and at two texts with no arrow and with two. -/
theorem get_compounds_str_splits_witness :
    _get_compounds_str "H2 + O2 -> H2O".toList = (["H2".toList, "O2".toList], ["H2O".toList]) ∧
    _get_compounds_str "H2 + O2 = H2O".toList = ([], []) ∧
    _get_compounds_str "H2 -> O2 -> H2O".toList = ([], []) ∧
    _get_compounds_str "-> H2O".toList = ([], ["H2O".toList]) ∧
    (reactantsAndProductsTry (_remove_spaces "H2 + O2 -> H2O".toList) =
        .ok ("H2+O2".toList, "H2O".toList) ∧
      _get_compounds_str "H2 + O2 -> H2O".toList =
        (_separate_half_equation "H2+O2".toList, _separate_half_equation "H2O".toList)) :=
  ⟨by decide, by decide, by decide, by decide,
   (get_compounds_str_splits "H2 + O2 -> H2O".toList).2.2.1 "H2+O2".toList "H2O".toList
    (by decide) (by decide)⟩
/-! ### Attempts one after another -/

/-- The function `balance`, case by case: the compound lists of the text are
stored first, then the attempt runs on them. -/
theorem balance_eq (s : State) (equation : List Char) :
    balance s equation =
      if ((_get_compounds_str equation).1.isEmpty ||
          (_get_compounds_str equation).2.isEmpty) = true then
        some ({ s with _reactants_and_products := _get_compounds_str equation },
          some .EMPTY_COMPOUND_LIST)
      else if ((_get_compounds_str equation).1.any List.isEmpty ||
          (_get_compounds_str equation).2.any List.isEmpty) = true then
        some ({ s with _reactants_and_products := _get_compounds_str equation },
          some .INCOMPLETE_REACTANT)
      else if sideElements (_get_compounds_str equation).1 ≠
          sideElements (_get_compounds_str equation).2 then
        some ({ s with _reactants_and_products := _get_compounds_str equation },
          some .ELEMENTS_MISMATCH_BETWEEN_REACTANTS_AND_PRODUCTS)
      else if sideElements (_get_compounds_str equation).1 = [] then none
      else
        some (stateAfterSolving s (_get_compounds_str equation).1 (_get_compounds_str equation).2,
          if (stateAfterSolving s (_get_compounds_str equation).1
            (_get_compounds_str equation).2)._results_coefs.isEmpty
          then some .FAILED_TO_BALANCE else none) := by
  unfold balance
  simp only []
  rw [balance_with_given_compounds_str_eq]
  rfl

/-- An attempt keeps the three settings. -/
theorem balance_settings (s s1 : State) (equation : List Char) (err : Option BalanceError)
    (h : balance s equation = some (s1, err)) :
    s1._multiple_results = s._multiple_results ∧ s1._max_coef = s._max_coef ∧
      s1._log_status = s._log_status := by
  rw [balance_eq] at h
  split_ifs at h <;> cases h <;> exact ⟨rfl, rfl, rfl⟩

theorem clear_data_eq_of_settings (s t : State)
    (h : t._multiple_results = s._multiple_results ∧ t._max_coef = s._max_coef ∧
      t._log_status = s._log_status) : clear_data t = clear_data s := by
  cases s; cases t
  simp only [clear_data] at h ⊢
  obtain ⟨h1, h2, h3⟩ := h
  simp_all

/-- C16: on a cleared balancer with any settings, for every equation text: when
`balance(e)` returns, `clear_data()` followed by `balance(e)` again ends in the
same state (compound lists, element list, matrix, solution set) with the same
message as the first `balance(e)`; `clear_data` empties the compound lists, the
element list, the matrix and the solution set and leaves the three settings
unchanged. -/
theorem balance_clear_balance (s : State) (hfresh : clear_data s = s) (equation : List Char) :
    (∀ s1 err, balance s equation = some (s1, err) →
      balance (clear_data s1) equation = some (s1, err)) ∧
    (balance s equation).bind (fun r => balance (clear_data r.1) equation) =
      balance s equation ∧
    (∀ t : State, (clear_data t)._reactants_and_products = ([], []) ∧
      (clear_data t)._elements = [] ∧ (clear_data t)._main_matrix = [] ∧
      (clear_data t)._results_coefs = [] ∧
      (clear_data t)._multiple_results = t._multiple_results ∧
      (clear_data t)._max_coef = t._max_coef ∧ (clear_data t)._log_status = t._log_status) := by
  have main : ∀ s1 err, balance s equation = some (s1, err) →
      balance (clear_data s1) equation = some (s1, err) := by
    intro s1 err h
    rw [clear_data_eq_of_settings s s1 (balance_settings s s1 equation err h), hfresh]
    exact h
  refine ⟨main, ?_, fun t => ⟨rfl, rfl, rfl, rfl, rfl, rfl, rfl⟩⟩
  cases h : balance s equation with
  | none => rfl
  | some r =>
    obtain ⟨s1, err⟩ := r
    simp only [Option.bind]
    exact main s1 err h

/-- C16 at `H2 + O2 -> H2O` with bound 4, in both modes: the second attempt
ends as the first, with the vector `(2, 1, 2)`. -/
theorem balance_clear_balance_witness :
    (balance (set_max_coef State.fresh 4) "H2 + O2 -> H2O".toList).map
        (fun r => r.1._results_coefs) = some [[2, 1, 2]] ∧
    ((balance (set_max_coef State.fresh 4) "H2 + O2 -> H2O".toList).bind
        (fun r => balance (clear_data r.1) "H2 + O2 -> H2O".toList)).map
        (fun r => r.1._results_coefs) = some [[2, 1, 2]] ∧
    (balance (set_max_coef State.fresh 4) "H2 + O2 -> H2O".toList).bind
        (fun r => balance (clear_data r.1) "H2 + O2 -> H2O".toList) =
      balance (set_max_coef State.fresh 4) "H2 + O2 -> H2O".toList :=
  ⟨by decide, by decide,
   (balance_clear_balance (set_max_coef State.fresh 4) (by decide)
    "H2 + O2 -> H2O".toList).2.1⟩
/-- On a balancer with an empty result list, every vector an attempt leaves has
one entry per compound stored and per matrix column, each in `[1, M]`. -/
theorem attempt_results_in_range (s : State) (hclear : s._results_coefs = [])
    (reactants products : List (List Char)) (s' : State) (err : Option BalanceError)
    (hrun : _balance_with_given_compounds_str s reactants products = some (s', err)) :
    ∀ v ∈ s'._results_coefs,
      (s'._reactants_and_products = (reactants, products) ∧
        v.length = reactants.length + products.length) ∧
      (∀ row ∈ s'._main_matrix, row.length = v.length) ∧
      ∀ c ∈ v, 1 ≤ c ∧ c ≤ s._max_coef ∧ c ≠ 0 := by
  rw [balance_with_given_compounds_str_eq] at hrun
  have main : ∀ v ∈ (stateAfterSolving s reactants products)._results_coefs,
      ((stateAfterSolving s reactants products)._reactants_and_products =
          (reactants, products) ∧
        v.length = reactants.length + products.length) ∧
      (∀ row ∈ (stateAfterSolving s reactants products)._main_matrix, row.length = v.length) ∧
      ∀ c ∈ v, 1 ≤ c ∧ c ≤ s._max_coef ∧ c ≠ 0 := by
    intro v hv
    obtain ⟨⟨hlen, hbox⟩, _⟩ := mem_results_stateAfterSolving s reactants products hclear v hv
    refine ⟨⟨rfl, hlen⟩, ?_, ?_⟩
    · intro row hrow
      rw [hlen]
      exact signedMatrix_row_length _ reactants products row hrow
    · intro c hc
      have := hbox c hc
      exact ⟨this.1, this.2, by omega⟩
  split_ifs at hrun <;> cases hrun
  · intro v hv; rw [hclear] at hv; cases hv
  · intro v hv; simp only [hclear] at hv; cases hv
  · intro v hv; simp only [hclear] at hv; cases hv
  · exact main
  · exact main

/-- C19: after `balance` (or `balance_with_given_compounds`) on a balancer whose
solution set is empty, with bound `M`, every vector of the solution set has
exactly `|reactants| + |products|` entries, as many as every row of the matrix
has columns, and every entry `c` satisfies `1 ≤ c ≤ M`; no entry is zero. -/
theorem balance_results_in_range (s : State) (hclear : s._results_coefs = []) :
    (∀ equation s' err, balance s equation = some (s', err) →
      ∀ v ∈ s'._results_coefs,
        v.length = s'._reactants_and_products.1.length +
          s'._reactants_and_products.2.length ∧
        (∀ row ∈ s'._main_matrix, row.length = v.length) ∧
        ∀ c ∈ v, 1 ≤ c ∧ c ≤ s._max_coef ∧ c ≠ 0) ∧
    (∀ reactants products s' err,
      balance_with_given_compounds s reactants products = some (s', err) →
      ∀ v ∈ s'._results_coefs,
        v.length = s'._reactants_and_products.1.length +
          s'._reactants_and_products.2.length ∧
        (∀ row ∈ s'._main_matrix, row.length = v.length) ∧
        ∀ c ∈ v, 1 ≤ c ∧ c ≤ s._max_coef ∧ c ≠ 0) := by
  constructor
  · intro equation s' err hrun v hv
    obtain ⟨⟨hrp, hlen⟩, h2, h3⟩ := attempt_results_in_range
      { s with _reactants_and_products := _get_compounds_str equation } hclear _ _ s' err hrun v hv
    rw [hrp]
    exact ⟨hlen, h2, h3⟩
  · intro reactants products s' err hrun v hv
    obtain ⟨⟨hrp, hlen⟩, h2, h3⟩ :=
      attempt_results_in_range s hclear reactants products s' err hrun v hv
    rw [hrp]
    exact ⟨hlen, h2, h3⟩

/-- C19 at `H2 + O2 -> H2O` with bound 4: the attempt leaves the vector
`(2, 1, 2)`, of three entries between 1 and 4. -/
theorem balance_results_in_range_witness :
    (balance (set_max_coef State.fresh 4) "H2 + O2 -> H2O".toList).map
        (fun r => (r.1._reactants_and_products, r.1._results_coefs)) =
      some ((["H2".toList, "O2".toList], ["H2O".toList]), [[2, 1, 2]]) ∧
    ∀ s' err, balance (set_max_coef State.fresh 4) "H2 + O2 -> H2O".toList = some (s', err) →
      ∀ v ∈ s'._results_coefs,
        v.length = s'._reactants_and_products.1.length +
          s'._reactants_and_products.2.length ∧
        (∀ row ∈ s'._main_matrix, row.length = v.length) ∧
        ∀ c ∈ v, 1 ≤ c ∧ c ≤ (set_max_coef State.fresh 4)._max_coef ∧ c ≠ 0 :=
  ⟨by decide,
   (balance_results_in_range (set_max_coef State.fresh 4) (by decide)).1
    "H2 + O2 -> H2O".toList⟩
/-! ### The guard of `get_result` -/

/-- The guard of `get_result`: `NO_RESULT` is thrown exactly when a stored
compound list is empty, and then the empty string is returned. -/
theorem get_result_of_empty_list (s : State)
    (h : s._reactants_and_products.1 = [] ∨ s._reactants_and_products.2 = []) :
    get_result s = some ([], some .NO_RESULT) := by
  unfold get_result
  have h0 : (s._reactants_and_products.1.isEmpty || s._reactants_and_products.2.isEmpty) = true := by
    rcases h with h | h <;> simp [h]
  rw [h0]
  rfl

theorem get_result_of_lists (s : State)
    (hr : s._reactants_and_products.1 ≠ []) (hp : s._reactants_and_products.2 ≠ []) :
    ∀ str e, get_result s = some (str, e) → e = none := by
  intro str e h
  unfold get_result at h
  have h0 : (s._reactants_and_products.1.isEmpty || s._reactants_and_products.2.isEmpty) = false := by
    cases h1 : s._reactants_and_products.1 with
    | nil => exact absurd h1 hr
    | cons a as =>
      cases h2 : s._reactants_and_products.2 with
      | nil => exact absurd h2 hp
      | cons b bs => rfl
  rw [h0] at h
  simp only [Bool.false_eq_true, if_false] at h
  split at h
  · cases h
  · cases h; rfl

theorem get_result_of_no_results (s : State) (h : s._results_coefs = []) :
    get_result s = some ([],
      if s._reactants_and_products.1 = [] ∨ s._reactants_and_products.2 = []
      then some .NO_RESULT else none) := by
  by_cases hl : s._reactants_and_products.1 = [] ∨ s._reactants_and_products.2 = []
  · rw [get_result_of_empty_list s hl, if_pos hl]
  · rw [if_neg hl]
    simp only [not_or] at hl
    rw [get_result_eq s hl.1 hl.2 (by rw [h]; intro v hv; cases hv), h]
    rfl

theorem ne_nil_of_isEmpty_false {α : Type} (l : List α) (h : l.isEmpty = false) : l ≠ [] := by
  intro e; subst e; simp at h
/-- What `get_result` gives after an attempt of `balance` on a balancer whose
solution set is empty. -/
theorem get_result_after_balance (s : State) (hclear : s._results_coefs = [])
    (equation : List Char) (s' : State) (err : Option BalanceError)
    (hrun : balance s equation = some (s', err)) :
    (∀ e, err = some e →
      get_result s' =
        some ([], if e = .EMPTY_COMPOUND_LIST then some .NO_RESULT else none)) ∧
    (err = none → s'._results_coefs ≠ [] ∧
      get_result s' = some (['\n'].intercalate (s'._results_coefs.map
        (renderedLine s'._reactants_and_products.1 s'._reactants_and_products.2)), none)) := by
  have hin := attempt_results_in_range
    { s with _reactants_and_products := _get_compounds_str equation } hclear _ _ s' err hrun
  rw [balance_eq] at hrun
  by_cases h0 : ((_get_compounds_str equation).1.isEmpty ||
      (_get_compounds_str equation).2.isEmpty) = true
  · rw [if_pos h0] at hrun
    cases hrun
    refine ⟨?_, by intro h; cases h⟩
    intro e he
    cases he
    rw [get_result_of_no_results
      { s with _reactants_and_products := _get_compounds_str equation } hclear]
    have : (_get_compounds_str equation).1 = [] ∨ (_get_compounds_str equation).2 = [] := by
      simpa [List.isEmpty_iff] using h0
    simp [this]
  rw [if_neg h0] at hrun
  have hr : (_get_compounds_str equation).1 ≠ [] := by
    intro e; rw [e] at h0; simp at h0
  have hp : (_get_compounds_str equation).2 ≠ [] := by
    intro e; rw [e] at h0; simp at h0
  have hno : ¬ ((_get_compounds_str equation).1 = [] ∨ (_get_compounds_str equation).2 = []) := by
    simp [hr, hp]
  split_ifs at hrun with h1 h2 h3 h4 <;> cases hrun
  · refine ⟨?_, by intro h; cases h⟩
    intro e he; cases he
    rw [get_result_of_no_results
      { s with _reactants_and_products := _get_compounds_str equation } hclear]
    simp [hr, hp]
  · refine ⟨?_, by intro h; cases h⟩
    intro e he; cases he
    rw [get_result_of_no_results
      { s with _reactants_and_products := _get_compounds_str equation } hclear]
    simp [hr, hp]
  · refine ⟨?_, by intro h; cases h⟩
    intro e he; cases he
    rw [get_result_of_no_results _ (by simpa [List.isEmpty_iff] using h4)]
    have : (stateAfterSolving s (_get_compounds_str equation).1
        (_get_compounds_str equation).2)._reactants_and_products = _get_compounds_str equation := rfl
    rw [this]
    simp [hr, hp]
  · refine ⟨(by intro e he; cases he), ?_⟩
    intro _
    refine ⟨fun e => h4 (by rw [e]; rfl), ?_⟩
    apply get_result_eq _ hr hp
    intro v hv
    exact le_of_eq (hin v hv).1.2.symm
/-- C17 (as amended): `get_result` throws `NO_RESULT`, returning the empty
string, exactly when the stored reactant list or the stored product list is
empty: on a fresh balancer, after `clear_data`, and after an attempt of
`balance` that ended in `EMPTY_COMPOUND_LIST`. With an empty solution set it
returns the empty string in every case. After an attempt of `balance` on a
balancer with an empty solution set that ended in `INCOMPLETE_REACTANT`,
`ELEMENTS_MISMATCH` or `FAILED_TO_BALANCE` it returns the empty string and
throws nothing; after one that succeeded the solution set is not empty and it
returns the rendered lines and throws nothing. -/
theorem get_result_no_result (s : State) :
    ((∃ str, get_result s = some (str, some .NO_RESULT)) ↔
      (s._reactants_and_products.1 = [] ∨ s._reactants_and_products.2 = [])) ∧
    (∀ str, get_result s = some (str, some .NO_RESULT) → str = []) ∧
    get_result State.fresh = some ([], some .NO_RESULT) ∧
    get_result (clear_data s) = some ([], some .NO_RESULT) ∧
    (s._results_coefs = [] →
      get_result s = some ([],
        if s._reactants_and_products.1 = [] ∨ s._reactants_and_products.2 = []
        then some .NO_RESULT else none)) ∧
    (s._results_coefs = [] → ∀ equation s' err, balance s equation = some (s', err) →
      (∀ e, err = some e →
        get_result s' =
          some ([], if e = .EMPTY_COMPOUND_LIST then some .NO_RESULT else none)) ∧
      (err = none → s'._results_coefs ≠ [] ∧
        get_result s' = some (['\n'].intercalate (s'._results_coefs.map
          (renderedLine s'._reactants_and_products.1 s'._reactants_and_products.2)),
          none))) := by
  have hiff : (∃ str, get_result s = some (str, some .NO_RESULT)) ↔
      (s._reactants_and_products.1 = [] ∨ s._reactants_and_products.2 = []) := by
    constructor
    · rintro ⟨str, h⟩
      by_contra hl
      simp only [not_or] at hl
      have := get_result_of_lists s hl.1 hl.2 str _ h
      cases this
    · intro h
      exact ⟨[], get_result_of_empty_list s h⟩
  refine ⟨hiff, ?_, rfl, rfl, get_result_of_no_results s, ?_⟩
  · intro str h
    have hl := hiff.1 ⟨str, h⟩
    rw [get_result_of_empty_list s hl] at h
    cases h
    rfl
  · intro hclear equation s' err hrun
    exact get_result_after_balance s hclear equation s' err hrun

/-- C17 at a fresh balancer with bound 1 and `H2 -> H`: the attempt ends in
`FAILED_TO_BALANCE`, and `get_result` returns the empty string and throws
nothing. -/
theorem get_result_no_result_witness :
    (balance (set_max_coef State.fresh 1) "H2 -> H".toList).map
        (fun r => (r.2, get_result r.1)) =
      some (some .FAILED_TO_BALANCE, some ([], none)) ∧
    get_result (set_max_coef State.fresh 1) = some ([],
      if (set_max_coef State.fresh 1)._reactants_and_products.1 = [] ∨
        (set_max_coef State.fresh 1)._reactants_and_products.2 = []
      then some .NO_RESULT else none) :=
  ⟨by decide, (get_result_no_result (set_max_coef State.fresh 1)).2.2.2.2.1 (by decide)⟩

/-- C17 as stated fails: after `Na -> K` on a fresh balancer, which ends in
`ELEMENTS_MISMATCH`, `get_result` returns the empty string and throws nothing;
and after `H -> H` followed by the empty text, with no `clear_data` between,
the solution set holds `(1, 1)` and `get_result` throws `NO_RESULT`. -/
theorem get_result_no_result_counterexample :
    (balance State.fresh "Na -> K".toList).map (fun r => (r.2, get_result r.1)) =
      some (some .ELEMENTS_MISMATCH_BETWEEN_REACTANTS_AND_PRODUCTS, some ([], none)) ∧
    ((balance (set_max_coef State.fresh 2) "H -> H".toList).bind
        (fun r => balance r.1 [])).map (fun r => (r.2, r.1._results_coefs)) =
      some (some .EMPTY_COMPOUND_LIST, [[1, 1]]) ∧
    ((balance (set_max_coef State.fresh 2) "H -> H".toList).bind
        (fun r => balance r.1 [])).map (fun r => get_result r.1) =
      some (some ([], some .NO_RESULT)) := by
  refine ⟨by decide, by decide, by decide⟩
/-! ### A second attempt with no `clear_data` -/

theorem filterLoop_of_pairwise : ∀ (raw acc : List (List Nat)),
    (acc ++ raw).Pairwise (fun a b => _are_linear_dependent a b = false) →
    filterLoop raw acc = acc ++ raw := by
  intro raw
  induction raw with
  | nil => intro acc _; simp [filterLoop]
  | cons v rest ih =>
    intro acc h
    have hany : acc.any (fun c => _are_linear_dependent c v) = false := by
      rw [List.any_eq_false]
      intro c hc
      rw [List.pairwise_append] at h
      simp [h.2.2 c hc v (by simp)]
    simp only [filterLoop, hany, Bool.not_false, if_true]
    rw [ih (acc ++ [v]) (by simpa using h)]
    simp

/-- The result list an attempt leaves on a balancer with an empty result list
is left as it is by the filter. -/
theorem balance_results_pairwise (s : State) (hclear : s._results_coefs = [])
    (equation : List Char) (s1 : State) (err : Option BalanceError)
    (h : balance s equation = some (s1, err)) :
    s1._results_coefs.Pairwise (fun a b => _are_linear_dependent a b = false) := by
  rw [balance_eq] at h
  split_ifs at h <;> cases h
  · simp [hclear]
  · simp [hclear]
  · simp [hclear]
  · exact filterLoop_pairwise _ [] List.Pairwise.nil
  · exact filterLoop_pairwise _ [] List.Pairwise.nil

/-- The result list of an attempt that reaches the solver starts with the
vectors that were there before, when the filter leaves those as they are. -/
theorem stateAfterSolving_results_prefix (s : State) (reactants products : List (List Char))
    (hp : s._results_coefs.Pairwise (fun a b => _are_linear_dependent a b = false)) :
    ∃ tail, (stateAfterSolving s reactants products)._results_coefs =
      s._results_coefs ++ tail := by
  simp only [stateAfterSolving, resultsAfter]
  have hfix : filterLoop s._results_coefs [] = s._results_coefs := by
    rw [filterLoop_of_pairwise _ [] (by simpa using hp)]
    simp
  cases hm : s._multiple_results
  · simp only [Bool.false_eq_true, if_false]
    cases hR : s._results_coefs with
    | nil =>
      simp only [List.isEmpty_nil, if_true, List.nil_append]
      exact ⟨_, rfl⟩
    | cons v rest =>
      rw [hR] at hfix
      simp only [List.isEmpty_cons, Bool.false_eq_true, if_false]
      exact ⟨[], by rw [hfix]; simp⟩
  · simp only [if_true]
    rw [filterLoop_append, hfix]
    obtain ⟨tail, _, he⟩ := filterLoop_sublist
      ((allVectors s._max_coef (reactants.length + products.length)).filter
        (balancedInt32 (signedMatrix (sideElements reactants) reactants products)))
      s._results_coefs
    exact ⟨tail, he⟩
theorem stateAfterSolving_congr (s t : State) (reactants products : List (List Char))
    (h1 : t._multiple_results = s._multiple_results) (h2 : t._max_coef = s._max_coef)
    (h3 : t._results_coefs = s._results_coefs) :
    (stateAfterSolving t reactants products)._results_coefs =
      (stateAfterSolving s reactants products)._results_coefs := by
  simp only [stateAfterSolving, h1, h2, h3]

/-- C15 (as amended): on a cleared balancer, after `balance(e1)` has returned, a
second `balance(e2)` with no `clear_data` between stores the same compound
lists as `balance(e2)` on the cleared balancer, and, when the attempt on `e2`
reaches the solver, the same element list and matrix (when it stops before,
the element list and matrix of `e1` stay). The solution set is not cleared by
`balance`: every vector left by `e1` stays, in front of what the attempt on
`e2` adds; the solution set and the message are those of `balance(e2)` on the
cleared balancer when `e1` left no vector. With `clear_data` between the two
attempts the second ends as on the cleared balancer. -/
theorem balance_again_keeps_results (s : State) (hfresh : clear_data s = s)
    (e1 e2 : List Char) (s1 : State) (err1 : Option BalanceError)
    (h1 : balance s e1 = some (s1, err1)) :
    (balance s1 e2 = none ↔ balance s e2 = none) ∧
    (∀ sA errA sB errB, balance s1 e2 = some (sA, errA) → balance s e2 = some (sB, errB) →
      sA._reactants_and_products = sB._reactants_and_products ∧
      (∃ tail, sA._results_coefs = s1._results_coefs ++ tail) ∧
      ((errB = none ∨ errB = some .FAILED_TO_BALANCE) →
        sA._elements = sB._elements ∧ sA._main_matrix = sB._main_matrix) ∧
      ((errB ≠ none ∧ errB ≠ some .FAILED_TO_BALANCE) →
        errA = errB ∧ sA._elements = s1._elements ∧ sA._main_matrix = s1._main_matrix ∧
        sA._results_coefs = s1._results_coefs) ∧
      (s1._results_coefs = [] → sA._results_coefs = sB._results_coefs ∧ errA = errB)) ∧
    balance (clear_data s1) e2 = balance s e2 := by
  have hset := balance_settings s s1 e1 err1 h1
  have hclear : s._results_coefs = [] := by
    have := congrArg State._results_coefs hfresh
    simpa [clear_data] using this.symm
  have hcd : clear_data s1 = s := by
    rw [clear_data_eq_of_settings s s1 hset, hfresh]
  have hp1 := balance_results_pairwise s hclear e1 s1 err1 h1
  refine ⟨?_, ?_, by rw [hcd]⟩
  · rw [balance_eq, balance_eq]
    split_ifs <;> simp
  · intro sA errA sB errB hA hB
    rw [balance_eq] at hA hB
    by_cases c0 : ((_get_compounds_str e2).1.isEmpty || (_get_compounds_str e2).2.isEmpty) = true
    · rw [if_pos c0] at hA hB
      cases hA; cases hB
      exact ⟨rfl, ⟨[], by simp⟩, (by intro h; rcases h with h | h <;> cases h),
        fun _ => ⟨rfl, rfl, rfl, rfl⟩, fun h => ⟨(by simp [h, hclear]), rfl⟩⟩
    rw [if_neg c0] at hA hB
    by_cases c1 : ((_get_compounds_str e2).1.any List.isEmpty ||
        (_get_compounds_str e2).2.any List.isEmpty) = true
    · rw [if_pos c1] at hA hB
      cases hA; cases hB
      exact ⟨rfl, ⟨[], by simp⟩, (by intro h; rcases h with h | h <;> cases h),
        fun _ => ⟨rfl, rfl, rfl, rfl⟩, fun h => ⟨(by simp [h, hclear]), rfl⟩⟩
    rw [if_neg c1] at hA hB
    by_cases c2 : sideElements (_get_compounds_str e2).1 ≠ sideElements (_get_compounds_str e2).2
    · rw [if_pos c2] at hA hB
      cases hA; cases hB
      exact ⟨rfl, ⟨[], by simp⟩, (by intro h; rcases h with h | h <;> cases h),
        fun _ => ⟨rfl, rfl, rfl, rfl⟩, fun h => ⟨(by simp [h, hclear]), rfl⟩⟩
    rw [if_neg c2] at hA hB
    by_cases c3 : sideElements (_get_compounds_str e2).1 = []
    · rw [if_pos c3] at hA
      cases hA
    rw [if_neg c3] at hA hB
    have hres : s1._results_coefs = [] →
        (stateAfterSolving s1 (_get_compounds_str e2).1 (_get_compounds_str e2).2)._results_coefs =
        (stateAfterSolving s (_get_compounds_str e2).1 (_get_compounds_str e2).2)._results_coefs :=
      fun h => stateAfterSolving_congr s s1 _ _ hset.1 hset.2.1 (by rw [h, hclear])
    cases hA; cases hB
    refine ⟨rfl, stateAfterSolving_results_prefix s1 _ _ hp1, fun _ => ⟨rfl, rfl⟩, ?_, ?_⟩
    · rintro ⟨hn, hf⟩
      exfalso
      split_ifs at hn hf
      · exact hf rfl
      · exact hn rfl
    · intro h
      refine ⟨hres h, ?_⟩
      rw [hres h]
/-- C15 at `H -> H` followed by `H2 -> H` with bound 2: the first attempt leaves
`hydrogenBalanced`; with `clear_data` between, the second ends as on the
cleared balancer, with `(1, 2)` alone. -/
theorem balance_again_keeps_results_witness :
    balance (set_max_coef State.fresh 2) "H -> H".toList = some (hydrogenBalanced, none) ∧
    (balance (set_max_coef State.fresh 2) "H2 -> H".toList).map (fun r => r.1._results_coefs) =
      some [[1, 2]] ∧
    balance (clear_data hydrogenBalanced) "H2 -> H".toList =
      balance (set_max_coef State.fresh 2) "H2 -> H".toList :=
  ⟨by decide, by decide,
   (balance_again_keeps_results (set_max_coef State.fresh 2) (by decide)
    "H -> H".toList "H2 -> H".toList hydrogenBalanced none (by decide)).2.2⟩

/-- C15 as stated fails: with bound 2, after `H -> H` followed by `H2 -> H` with
no `clear_data` between, the solution set is `(1, 1), (1, 2)`, where `(1, 1)`
was found for `H -> H`; on a fresh balancer `H2 -> H` alone leaves `(1, 2)`.
After `H -> H` followed by `Na -> K` the element list and the matrix are still
those of `H -> H`; on a fresh balancer `Na -> K` leaves both empty. -/
theorem balance_again_replaces_counterexample :
    ((balance (set_max_coef State.fresh 2) "H -> H".toList).bind
        (fun r => balance r.1 "H2 -> H".toList)).map (fun r => r.1._results_coefs) =
      some [[1, 1], [1, 2]] ∧
    (balance (set_max_coef State.fresh 2) "H2 -> H".toList).map (fun r => r.1._results_coefs) =
      some [[1, 2]] ∧
    ((balance (set_max_coef State.fresh 2) "H -> H".toList).bind
        (fun r => balance r.1 "Na -> K".toList)).map
        (fun r => (r.1._elements, r.1._main_matrix)) =
      some (["H".toList], [[1, -1]]) ∧
    (balance (set_max_coef State.fresh 2) "Na -> K".toList).map
        (fun r => (r.1._elements, r.1._main_matrix)) = some ([], []) := by
  refine ⟨by decide, by decide, by decide, by decide⟩
/-! ### A compound that fails to parse -/

theorem resultsAfter_eq_nil (multi : Bool) (results found : List (List Nat))
    (h : resultsAfter multi results found = []) : found = [] := by
  cases multi <;> cases results <;> cases found <;> simp_all [resultsAfter]

/-- An attempt of `balance` succeeds when the text passes the checks before the
solver, has an element, and some vector of `[1, M]^columns` passes the solver's
test. -/
theorem balance_succeeds_of_vector (s : State) (equation : List Char) (v : List Nat)
    (h0 : ((_get_compounds_str equation).1.isEmpty ||
      (_get_compounds_str equation).2.isEmpty) = false)
    (h1 : ((_get_compounds_str equation).1.any List.isEmpty ||
      (_get_compounds_str equation).2.any List.isEmpty) = false)
    (h2 : sideElements (_get_compounds_str equation).1 =
      sideElements (_get_compounds_str equation).2)
    (h3 : sideElements (_get_compounds_str equation).1 ≠ [])
    (hbox : inBox s._max_coef
      ((_get_compounds_str equation).1.length + (_get_compounds_str equation).2.length) v)
    (hpass : balancedInt32 (signedMatrix (sideElements (_get_compounds_str equation).1)
      (_get_compounds_str equation).1 (_get_compounds_str equation).2) v = true) :
    ∃ s', balance s equation = some (s', none) ∧ s'._results_coefs ≠ [] := by
  have hne : (stateAfterSolving s (_get_compounds_str equation).1
      (_get_compounds_str equation).2)._results_coefs ≠ [] := by
    intro he
    simp only [stateAfterSolving] at he
    rw [filterLoop_eq_nil_iff] at he
    have hf := resultsAfter_eq_nil _ _ _ he
    have hv : v ∈ (allVectors s._max_coef ((_get_compounds_str equation).1.length +
        (_get_compounds_str equation).2.length)).filter
        (balancedInt32 (signedMatrix (sideElements (_get_compounds_str equation).1)
          (_get_compounds_str equation).1 (_get_compounds_str equation).2)) := by
      rw [List.mem_filter, mem_allVectors]
      exact ⟨hbox, hpass⟩
    rw [hf] at hv
    cases hv
  refine ⟨_, ?_, hne⟩
  rw [balance_eq, h0, h1]
  simp only [Bool.false_eq_true, if_false, ne_eq, h2, not_true_eq_false]
  rw [← h2, if_neg h3]
  have : (stateAfterSolving s (_get_compounds_str equation).1
      (_get_compounds_str equation).2)._results_coefs.isEmpty = false := by
    cases hh : (stateAfterSolving s (_get_compounds_str equation).1
      (_get_compounds_str equation).2)._results_coefs with
    | nil => exact absurd hh hne
    | cons a b => rfl
  rw [this]
  rfl

/-- C14 at its failing input: the reactant `Ca(OH` of `Ca(OH + CaO -> CaO` is
rejected by the tokenizer with `UNMATCHED_PARENTHESES` and gets the empty
composition; the attempt is not aborted: with default settings it ends without
a message and leaves a non-empty solution set, and with bound 2 the solution
set is `(1, 1, 1), (1, 2, 2), (2, 1, 1)` and `get_result` returns three lines.
The text `Ca(OH -> CaO` ends in `ELEMENTS_MISMATCH` with an empty solution
set. -/
theorem balance_unparsed_compound_not_aborted :
    rejectedCompound "Ca(OH".toList = true ∧
    separatorTry "Ca(OH".toList = .error .UNMATCHED_PARENTHESES ∧
    _get_compound_composition "Ca(OH".toList = some [] ∧
    (∃ s', balance State.fresh "Ca(OH + CaO -> CaO".toList = some (s', none) ∧
      s'._results_coefs ≠ []) ∧
    (balance (set_max_coef State.fresh 2) "Ca(OH + CaO -> CaO".toList).map
        (fun r => (r.2, r.1._results_coefs)) =
      some (none, [[1, 1, 1], [1, 2, 2], [2, 1, 1]]) ∧
    (balance (set_max_coef State.fresh 2) "Ca(OH + CaO -> CaO".toList).map
        (fun r => get_result r.1) =
      some (some ("Ca(OH + CaO == CaO\nCa(OH + 2CaO == 2CaO\n2Ca(OH + CaO == CaO".toList,
        none)) ∧
    (balance State.fresh "Ca(OH -> CaO".toList).map (fun r => (r.2, r.1._results_coefs)) =
      some (some .ELEMENTS_MISMATCH_BETWEEN_REACTANTS_AND_PRODUCTS, []) := by
  refine ⟨by decide, by rfl, by decide, ?_, by decide, by decide, by decide⟩
  exact balance_succeeds_of_vector State.fresh "Ca(OH + CaO -> CaO".toList [1, 1, 1]
    (by decide) (by decide) (by decide) (by decide) (by decide) (by decide)
/-! ### The scenario `Ca(OH)2 + HCl -> CaCl2 + H2O`, solved -/

theorem lexLt_asymm : ∀ a b : List Nat, lexLt a b = true → lexLt b a = false
  | [], _, h => by cases h
  | _ :: _, [], h => by simp [lexLt] at h
  | x :: xs, y :: ys, h => by
    simp only [lexLt, Bool.or_eq_true, Bool.and_eq_true, decide_eq_true_eq] at h
    simp only [lexLt, Bool.or_eq_false_iff, Bool.and_eq_false_imp, decide_eq_false_iff_not,
      decide_eq_true_eq]
    rcases h with h | ⟨h1, h2⟩
    · exact ⟨by omega, fun e => by omega⟩
    · exact ⟨by omega, fun _ => lexLt_asymm xs ys h2⟩

/-- Two lists of vectors in strictly increasing lexicographic order with the
same members are equal. -/
theorem eq_of_lexSorted_of_mem_iff : ∀ (l1 l2 : List (List Nat)),
    l1.Pairwise (fun a b => lexLt a b = true) → l2.Pairwise (fun a b => lexLt a b = true) →
    (∀ x, x ∈ l1 ↔ x ∈ l2) → l1 = l2 := by
  intro l1
  induction l1 with
  | nil =>
    intro l2 _ _ h
    cases l2 with
    | nil => rfl
    | cons b l2 => exact absurd ((h b).2 (by simp)) (by simp)
  | cons a l1 ih =>
    intro l2 h1 h2 h
    cases l2 with
    | nil => exact absurd ((h a).1 (by simp)) (by simp)
    | cons b l2 =>
      have h1' := List.pairwise_cons.1 h1
      have h2' := List.pairwise_cons.1 h2
      have hab : a = b := by
        by_contra hne
        have ha : a ∈ l2 := by
          have := (h a).1 (by simp)
          simp only [List.mem_cons] at this
          rcases this with e | e
          · exact absurd e hne
          · exact e
        have hb : b ∈ l1 := by
          have := (h b).2 (by simp)
          simp only [List.mem_cons] at this
          rcases this with e | e
          · exact absurd e.symm hne
          · exact e
        have := lexLt_asymm a b (h1'.1 b hb)
        rw [h2'.1 a ha] at this
        cases this
      subst hab
      congr 1
      apply ih l2 h1'.2 h2'.2
      intro x
      constructor
      · intro hx
        have := (h x).1 (by simp [hx])
        simp only [List.mem_cons] at this
        rcases this with e | e
        · subst e
          exact absurd (h1'.1 x hx) (by simp [lexLt_irrefl])
        · exact e
      · intro hx
        have := (h x).2 (by simp [hx])
        simp only [List.mem_cons] at this
        rcases this with e | e
        · subst e
          exact absurd (h2'.1 x hx) (by simp [lexLt_irrefl])
        · exact e
/-- The vectors of `[1, 20]^4` that pass the solver's test on the matrix of the
scenario are the multiples `(a, 2a, a, 2a)`, `a` from 1 to 10, in this order. -/
theorem neutralization_found :
    (allVectors 20 4).filter (balancedInt32 neutralizationMatrix) = neutralizationVectors := by
  apply eq_of_lexSorted_of_mem_iff
  · exact (pairwise_allVectors 20 4).filter _
  · decide
  · intro v
    rw [List.mem_filter, mem_allVectors]
    constructor
    · rintro ⟨hbox, hpass⟩
      rw [balancedInt32_eq_exact neutralizationMatrix 20 4 v (by decide) hbox] at hpass
      obtain ⟨hlen, hb⟩ := hbox
      rcases v with _ | ⟨a, _ | ⟨b, _ | ⟨c, _ | ⟨d, _ | ⟨e, t⟩⟩⟩⟩⟩ <;>
        simp only [List.length_nil, List.length_cons] at hlen <;> try omega
      have ha := hb a (by simp)
      have hb' := hb b (by simp)
      have hc := hb c (by simp)
      have hd := hb d (by simp)
      simp only [balancedExact, neutralizationMatrix, dot, List.all_cons, List.all_nil,
        Bool.and_true, Bool.and_eq_true, decide_eq_true_eq] at hpass
      obtain ⟨h1, h2, h3, h4⟩ := hpass
      simp only [neutralizationVectors, List.mem_map, List.mem_range'_1]
      refine ⟨a, ⟨by omega, by omega⟩, ?_⟩
      have e1 : b = 2 * a := by omega
      have e2 : c = a := by omega
      have e3 : d = 2 * a := by omega
      rw [e1, e2, e3]
    · intro hv
      have hall : ∀ w ∈ neutralizationVectors,
          inBox 20 4 w ∧ balancedInt32 neutralizationMatrix w = true := by decide
      exact hall v hv
theorem neutralization_results :
    (stateAfterSolving State.fresh ["Ca(OH)2".toList, "HCl".toList]
      ["CaCl2".toList, "H2O".toList])._results_coefs = [[1, 2, 1, 2]] := by
  have hM : signedMatrix (sideElements ["Ca(OH)2".toList, "HCl".toList])
      ["Ca(OH)2".toList, "HCl".toList] ["CaCl2".toList, "H2O".toList] =
      neutralizationMatrix := by decide
  have hfound : (allVectors State.fresh._max_coef
      (["Ca(OH)2".toList, "HCl".toList].length + ["CaCl2".toList, "H2O".toList].length)).filter
      (balancedInt32 neutralizationMatrix) = neutralizationVectors := neutralization_found
  simp only [stateAfterSolving, hM, hfound]
  decide

/-- C20: with default settings (multiple results on, bound 20) on a fresh
balancer, `balance("Ca(OH)2 + HCl -> CaCl2 + H2O")` returns without a message
and leaves a solution set with exactly one vector, `(1, 2, 1, 2)`, and
`get_result` then returns exactly `Ca(OH)2 + 2HCl == CaCl2 + 2H2O` and throws
nothing. -/
theorem balance_neutralization :
    State.fresh._multiple_results = true ∧ State.fresh._max_coef = 20 ∧
    ∃ s', balance State.fresh "Ca(OH)2 + HCl -> CaCl2 + H2O".toList = some (s', none) ∧
      s'._results_coefs = [[1, 2, 1, 2]] ∧
      get_result s' = some ("Ca(OH)2 + 2HCl == CaCl2 + 2H2O".toList, none) := by
  have hcs : _get_compounds_str "Ca(OH)2 + HCl -> CaCl2 + H2O".toList =
      (["Ca(OH)2".toList, "HCl".toList], ["CaCl2".toList, "H2O".toList]) := by decide
  have hel : sideElements ["Ca(OH)2".toList, "HCl".toList] =
      sideElements ["CaCl2".toList, "H2O".toList] := by decide
  have hne : sideElements ["Ca(OH)2".toList, "HCl".toList] ≠ [] := by decide
  refine ⟨rfl, rfl, stateAfterSolving State.fresh ["Ca(OH)2".toList, "HCl".toList]
    ["CaCl2".toList, "H2O".toList], ?_, neutralization_results, ?_⟩
  · rw [balance_eq, hcs]
    have h0 : ((["Ca(OH)2".toList, "HCl".toList].isEmpty ||
        ["CaCl2".toList, "H2O".toList].isEmpty) = true) = False := by decide
    have h1 : ((["Ca(OH)2".toList, "HCl".toList].any List.isEmpty ||
        ["CaCl2".toList, "H2O".toList].any List.isEmpty) = true) = False := by decide
    simp only [h0, h1, if_false, ne_eq, hel, not_true_eq_false]
    rw [← hel, if_neg hne, neutralization_results]
    rfl
  · rw [get_result_eq _ (by simp [stateAfterSolving]) (by simp [stateAfterSolving])
      (by rw [neutralization_results]; decide), neutralization_results]
    decide

/-! ### The shape of tokens and keys -/

/-- One step of the tokenizer loop that goes on to success, with the depth it
goes on at. -/
theorem separatorLoop_step_depth (c : Char) (cs : List Char) (d : Int)
    (toks out : List (List Char)) (h : separatorLoop (c :: cs) d toks = .ok out) :
    (d = 0 ∧ c.isUpper = true ∧ separatorLoop cs 0 (toks ++ [[c]]) = .ok out) ∨
    (d = 0 ∧ c = '(' ∧ separatorLoop cs 1 (toks ++ [[c]]) = .ok out) ∨
    (d = 0 ∧ lowerOrDigit c = true ∧ toks ≠ [] ∧
      separatorLoop cs 0 (appendToBack c toks) = .ok out) ∨
    (0 < d ∧ c = '(' ∧ toks ≠ [] ∧
      separatorLoop cs (d + 1) (appendToBack c toks) = .ok out) ∨
    (0 < d ∧ c = ')' ∧ toks ≠ [] ∧
      separatorLoop cs (d - 1) (appendToBack c toks) = .ok out) ∨
    (0 < d ∧ c ≠ '(' ∧ c ≠ ')' ∧ toks ≠ [] ∧
      separatorLoop cs d (appendToBack c toks) = .ok out) := by
  by_cases hv : _is_valid_char c = true
  swap
  · simp [separatorLoop, hv] at h
  have hne : ∀ toks : List (List Char), toks.isEmpty = false → toks ≠ [] := by
    intro t ht e; subst e; simp at ht
  by_cases ho : c = '('
  · subst ho
    by_cases hd1 : d + 1 = 1
    · have h' : separatorLoop cs (d + 1) (toks ++ [['(']]) = .ok out := by
        simpa [separatorLoop, hv, hd1] using h
      have hd : d = 0 := by omega
      subst hd
      exact Or.inr (Or.inl ⟨rfl, rfl, h'⟩)
    · by_cases hd0 : d + 1 = 0
      · cases hE : toks.isEmpty <;> simp [separatorLoop, hv, hd1, hd0, hE] at h
      · by_cases hpos : 0 < d + 1
        · cases hE : toks.isEmpty
          · have h' : separatorLoop cs (d + 1) (appendToBack '(' toks) = .ok out := by
              simpa [separatorLoop, hv, hd1, hd0, hpos, hE] using h
            exact Or.inr (Or.inr (Or.inr (Or.inl ⟨by omega, rfl, hne toks hE, h'⟩)))
          · simp [separatorLoop, hv, hd1, hd0, hpos, hE] at h
        · simp [separatorLoop, hv, hd1, hd0, hpos] at h
  · by_cases hd0 : d = 0
    · subst hd0
      by_cases hu : c.isUpper = true
      · have h' : separatorLoop cs 0 (toks ++ [[c]]) = .ok out := by
          simpa [separatorLoop, hv, ho, hu] using h
        exact Or.inl ⟨rfl, hu, h'⟩
      · cases hE : toks.isEmpty
        · by_cases hld : (c.isLower || c.isDigit) = true
          · have h' : separatorLoop cs 0 (appendToBack c toks) = .ok out := by
              simp only [Bool.or_eq_true] at hld
              simpa [separatorLoop, hv, ho, hu, hE, hld] using h
            exact Or.inr (Or.inr (Or.inl ⟨rfl, hld, hne toks hE, h'⟩))
          · simp only [Bool.or_eq_true, not_or, Bool.not_eq_true] at hld
            simp [separatorLoop, hv, ho, hu, hE, hld.1, hld.2] at h
        · simp [separatorLoop, hv, ho, hu, hE] at h
    · by_cases hpos : 0 < d
      · cases hE : toks.isEmpty
        · by_cases hc : c = ')'
          · subst hc
            have h' : separatorLoop cs (d - 1) (appendToBack ')' toks) = .ok out := by
              simpa [separatorLoop, hv, hd0, hpos, hE] using h
            exact Or.inr (Or.inr (Or.inr (Or.inr (Or.inl ⟨hpos, rfl, hne toks hE, h'⟩))))
          · have h' : separatorLoop cs d (appendToBack c toks) = .ok out := by
              simpa [separatorLoop, hv, ho, hc, hd0, hpos, hE] using h
            exact Or.inr (Or.inr (Or.inr (Or.inr (Or.inr ⟨hpos, ho, hc, hne toks hE, h'⟩))))
        · simp [separatorLoop, hv, ho, hd0, hpos, hE] at h
      · simp [separatorLoop, hv, ho, hd0, hpos] at h
theorem groupRest_open (tail : List Char → Bool) (d : Nat) (cs : List Char) :
    groupRest tail d ('(' :: cs) = groupRest tail (d + 1) cs := by
  simp [groupRest]

theorem groupRest_close_zero (tail : List Char → Bool) (cs : List Char) :
    groupRest tail 0 (')' :: cs) = false := by
  simp [groupRest]

theorem groupRest_close_one (tail : List Char → Bool) (cs : List Char) :
    groupRest tail 1 (')' :: cs) = tail cs := by
  simp [groupRest]

theorem groupRest_close_succ (tail : List Char → Bool) (k : Nat) (cs : List Char) :
    groupRest tail (k + 2) (')' :: cs) = groupRest tail (k + 1) cs := by
  simp [groupRest]

theorem groupRest_other (tail : List Char → Bool) (d : Nat) (c : Char) (cs : List Char)
    (ho : c ≠ '(') (hc : c ≠ ')') : groupRest tail d (c :: cs) = groupRest tail d cs := by
  simp [groupRest, ho, hc]

theorem groupRest_snoc (c : Char) (hc : lowerOrDigit c = true) :
    ∀ (rest : List Char) (d : Nat),
      groupRest (fun tail => tail.all lowerOrDigit) d rest = true →
      groupRest (fun tail => tail.all lowerOrDigit) d (rest ++ [c]) = true := by
  intro rest
  induction rest with
  | nil => intro d h; simp [groupRest] at h
  | cons x xs ih =>
    intro d h
    rw [List.cons_append]
    by_cases hx : x = '('
    · subst hx
      rw [groupRest_open] at h ⊢
      exact ih _ h
    · by_cases hy : x = ')'
      · subst hy
        rcases d with _ | _ | k
        · rw [groupRest_close_zero] at h; cases h
        · rw [groupRest_close_one] at h ⊢
          simp only [List.all_append, h, List.all_cons, hc, List.all_nil, Bool.and_self]
        · rw [groupRest_close_succ] at h ⊢
          exact ih _ h
      · rw [groupRest_other _ _ _ _ hx hy] at h ⊢
        exact ih _ h

theorem tokenShape_snoc (c : Char) (hc : lowerOrDigit c = true) (t : List Char)
    (h : tokenShape t = true) : tokenShape (t ++ [c]) = true := by
  cases t with
  | nil => simp [tokenShape, looseBare, looseGroup] at h
  | cons x xs =>
    simp only [tokenShape, looseBare, looseGroup, Bool.or_eq_true, Bool.and_eq_true,
      decide_eq_true_eq, List.cons_append] at h ⊢
    rcases h with ⟨h1, h2⟩ | ⟨h1, h2⟩
    · exact Or.inl ⟨h1, by simp [List.all_append, h2, hc]⟩
    · exact Or.inr ⟨h1, groupRest_snoc c hc xs 1 h2⟩
/-- The invariant of the tokenizer loop: at depth 0 every token has the token
shape; inside parentheses every token but the last has it, and the last is an
opened group read up to the current depth. -/
theorem separatorLoop_shapes (cs : List Char) :
    ∀ (k : Nat) (toks out : List (List Char)), separatorLoop cs (k : Int) toks = .ok out →
      (k = 0 → ∀ t ∈ toks, tokenShape t = true) →
      (0 < k → ∃ init body, toks = init ++ ['(' :: body] ∧
        (∀ t ∈ init, tokenShape t = true) ∧
        ∀ w, groupRest (fun tail => tail.all lowerOrDigit) 1 (body ++ w) =
          groupRest (fun tail => tail.all lowerOrDigit) k w) →
      ∀ t ∈ out, tokenShape t = true := by
  induction cs with
  | nil =>
    intro k toks out h h0 _
    simp only [separatorLoop] at h
    split_ifs at h with hk
    cases h
    exact h0 (by simpa using hk)
  | cons c cs ih =>
    intro k toks out h h0 hpos
    rcases separatorLoop_step_depth c cs k toks out h with
      ⟨hd, hu, hrun⟩ | ⟨hd, hc, hrun⟩ | ⟨hd, hld, hne, hrun⟩ | ⟨hd, hc, hne, hrun⟩ |
      ⟨hd, hc, hne, hrun⟩ | ⟨hd, ho, hc, hne, hrun⟩
    · have hk : k = 0 := by exact_mod_cast hd
      apply ih 0 _ out (by simpa using hrun)
      · intro _ t ht
        simp only [List.mem_append, List.mem_singleton] at ht
        rcases ht with ht | rfl
        · exact h0 hk t ht
        · simp [tokenShape, looseBare, hu]
      · intro h; omega
    · have hk : k = 0 := by exact_mod_cast hd
      subst hc
      apply ih 1 _ out (by simpa using hrun)
      · intro h; omega
      · intro _
        exact ⟨toks, [], rfl, h0 hk, fun w => rfl⟩
    · have hk : k = 0 := by exact_mod_cast hd
      apply ih 0 _ out (by simpa using hrun)
      · intro _ t ht
        rw [← List.dropLast_append_getLast hne, appendToBack_append] at ht
        simp only [List.mem_append, List.mem_singleton] at ht
        rcases ht with ht | rfl
        · exact h0 hk t (List.mem_of_mem_dropLast ht)
        · exact tokenShape_snoc c hld _ (h0 hk _ (List.getLast_mem hne))
      · intro h; omega
    · have hk : 0 < k := by exact_mod_cast hd
      subst hc
      obtain ⟨init, body, rfl, hinit, hw⟩ := hpos hk
      apply ih (k + 1) _ out (by simpa using hrun)
      · intro h; omega
      · intro _
        refine ⟨init, body ++ ['('], by rw [appendToBack_append]; simp, hinit, ?_⟩
        intro w
        rw [List.append_assoc, hw, List.singleton_append, groupRest_open]
    · have hk : 0 < k := by exact_mod_cast hd
      subst hc
      obtain ⟨init, body, rfl, hinit, hw⟩ := hpos hk
      rw [appendToBack_append] at hrun
      rcases k with _ | _ | j
      · omega
      · apply ih 0 _ out (by simpa using hrun)
        · intro _ t ht
          simp only [List.mem_append, List.mem_singleton] at ht
          rcases ht with ht | rfl
          · exact hinit t ht
          · have := hw [')']
            rw [groupRest_close_one] at this
            simp [tokenShape, looseGroup, this]
        · intro h; omega
      · apply ih (j + 1) _ out (by
          have e : ((j + 1 + 1 : Nat) : Int) - 1 = ((j + 1 : Nat) : Int) := by push_cast; ring
          rw [e] at hrun
          exact hrun)
        · intro h; omega
        · intro _
          refine ⟨init, body ++ [')'], by simp, hinit, ?_⟩
          intro w
          rw [List.append_assoc, hw, List.singleton_append, groupRest_close_succ]
    · have hk : 0 < k := by exact_mod_cast hd
      obtain ⟨init, body, rfl, hinit, hw⟩ := hpos hk
      rw [appendToBack_append] at hrun
      apply ih k _ out hrun
      · intro h; omega
      · intro _
        refine ⟨init, body ++ [c], by simp, hinit, ?_⟩
        intro w
        rw [List.append_assoc, hw, List.singleton_append, groupRest_other _ _ _ _ ho hc]

/-- Every token of `_compound_str_separator` is an uppercase letter or a
parenthesised group with matching parentheses, followed by lowercase letters
and digits in any order. -/
theorem compound_str_separator_shapes (s : List Char) :
    ∀ t ∈ _compound_str_separator s, tokenShape t = true := by
  intro t ht
  unfold _compound_str_separator separatorTry at ht
  cases hres : separatorLoop s 0 [] with
  | error e => rw [hres] at ht; cases ht
  | ok out =>
    rw [hres] at ht
    exact separatorLoop_shapes s 0 [] out (by simpa using hres) (by simp) (by simp) t ht
theorem scanSeparatingIndex_spec : ∀ (r : List Char) (k : Nat),
    scanSeparatingIndex r = some k →
    ∃ ds x rest, r = ds ++ x :: rest ∧ x.isDigit = false ∧ k = rest.length + 1 := by
  intro r
  induction r with
  | nil => intro k h; simp [scanSeparatingIndex] at h
  | cons c rest ih =>
    intro k h
    by_cases hc : c.isDigit = true
    · simp only [scanSeparatingIndex, hc, Bool.not_true, Bool.false_eq_true, if_false] at h
      obtain ⟨ds, x, rest2, e, hx, hk⟩ := ih k h
      exact ⟨c :: ds, x, rest2, by simp [e], hx, hk⟩
    · simp only [Bool.not_eq_true] at hc
      simp only [scanSeparatingIndex, hc, Bool.not_false, if_true, Option.some.injEq] at h
      exact ⟨[], c, rest, rfl, hc, h.symm⟩

/-- A prefix of a bare token that ends in a character that is no digit has the
shape of a symbol. -/
theorem symbolShape_of_prefix (c x : Char) (rest pre : List Char)
    (hc : c.isUpper = true) (hrest : rest.all lowerOrDigit = true)
    (hpre : (pre ++ [x]).IsPrefix (c :: rest)) (hx : x.isDigit = false) :
    symbolShape (pre ++ [x]) = true := by
  obtain ⟨suffix, e⟩ := hpre
  cases pre with
  | nil =>
    simp only [List.nil_append, List.singleton_append, List.cons.injEq] at e
    obtain ⟨rfl, _⟩ := e
    simp [symbolShape, hc, hx]
  | cons p ps =>
    simp only [List.cons_append, List.cons.injEq] at e
    obtain ⟨rfl, e2⟩ := e
    have hall : (ps ++ [x]).all lowerOrDigit = true := by
      rw [← e2] at hrest
      simp only [List.append_assoc, List.all_append, Bool.and_eq_true] at hrest
      simp only [List.all_append, Bool.and_eq_true]
      exact ⟨hrest.1, by simpa using hrest.2.1⟩
    simp only [symbolShape, List.cons_append, hc, hall, Bool.true_and]
    have : (p :: (ps ++ [x])).reverse.head? = some x := by simp
    rw [this]
    simp [hx]

/-- On a token that is an uppercase letter followed by lowercase letters and
digits, the symbol the entity splitter returns is empty or has the shape of a
symbol. -/
theorem entity_symbol_shape (c : Char) (rest first : List Char) (second : Nat)
    (hc : c.isUpper = true) (hrest : rest.all lowerOrDigit = true)
    (h : _entity_str_to_entity_and_coef (c :: rest) = some (first, second)) :
    first = [] ∨ symbolShape first = true := by
  have hsub : ((c :: rest).head? == some '(') = false := by
    have : c ≠ '(' := by intro e; subst e; exact absurd hc (by decide)
    simp [this]
  unfold _entity_str_to_entity_and_coef at h
  cases hrev : (c :: rest).reverse with
  | nil => simp at hrev
  | cons last more =>
    have ht : c :: rest = more.reverse ++ [last] := by
      have := congrArg List.reverse hrev
      simpa using this
    rw [hrev] at h
    simp only [hsub, Bool.not_false, if_true, Bool.false_eq_true, if_false] at h
    by_cases hl : last.isDigit = true
    · simp only [hl, if_true] at h
      cases hscan : scanSeparatingIndex (last :: more) with
      | none => rw [hscan] at h; cases h
      | some k =>
        rw [hscan] at h
        simp only [] at h
        obtain ⟨ds, x, rest2, e, hx, hk⟩ := scanSeparatingIndex_spec _ _ hscan
        cases hst : stoi (substr (c :: rest) k ((c :: rest).length - k)) with
        | none =>
          rw [hst] at h
          simp only [Option.some.injEq, Prod.mk.injEq] at h
          exact Or.inl h.1.symm
        | some coef =>
          rw [hst] at h
          simp only [Option.some.injEq, Prod.mk.injEq] at h
          right
          rw [← h.1]
          have ht2 : c :: rest = (rest2.reverse ++ [x]) ++ ds.reverse := by
            have := congrArg List.reverse e
            rw [← hrev] at this
            simpa using this
          have htake : substr (c :: rest) 0 k = rest2.reverse ++ [x] := by
            unfold substr
            rw [List.drop_zero, ht2, hk]
            exact List.take_left' (by simp)
          rw [htake]
          exact symbolShape_of_prefix c x rest _ hc hrest ⟨ds.reverse, ht2.symm⟩ hx
    · simp only [Bool.not_eq_true] at hl
      simp only [hl, Bool.false_eq_true, if_false, Option.some.injEq, Prod.mk.injEq] at h
      right
      rw [← h.1, ht]
      exact symbolShape_of_prefix c last rest _ hc hrest ⟨[], by simp [ht]⟩ hl
theorem keys_addToKey (key : List Char) (x : Nat) : ∀ (m : Composition) (e : List Char × Nat),
    e ∈ addToKey key x m → e.1 = key ∨ ∃ e' ∈ m, e'.1 = e.1 := by
  intro m
  induction m with
  | nil =>
    intro e he
    simp only [addToKey, List.mem_singleton] at he
    exact Or.inl (by rw [he])
  | cons a rest ih =>
    intro e he
    obtain ⟨k, v⟩ := a
    simp only [addToKey] at he
    by_cases h1 : key = k
    · simp only [h1, if_true, List.mem_cons] at he
      rcases he with rfl | he
      · exact Or.inl h1.symm
      · exact Or.inr ⟨e, by simp [he], rfl⟩
    · simp only [h1, if_false] at he
      by_cases h2 : strLt key k = true
      · simp only [h2, if_true, List.mem_cons] at he
        rcases he with rfl | rfl | he
        · exact Or.inl rfl
        · exact Or.inr ⟨(k, v), by simp, rfl⟩
        · exact Or.inr ⟨e, by simp [he], rfl⟩
      · simp only [h2, if_false, List.mem_cons, Bool.false_eq_true] at he
        rcases he with rfl | he
        · exact Or.inr ⟨(k, v), by simp, rfl⟩
        · rcases ih e he with h | ⟨e', he', h⟩
          · exact Or.inl h
          · exact Or.inr ⟨e', by simp [he'], h⟩

theorem keys_addScaled (coefficient : Nat) : ∀ (sub m : Composition) (e : List Char × Nat),
    e ∈ addScaled sub coefficient m → (∃ e' ∈ sub, e'.1 = e.1) ∨ ∃ e' ∈ m, e'.1 = e.1 := by
  intro sub
  induction sub with
  | nil => intro m e he; exact Or.inr ⟨e, he, rfl⟩
  | cons a rest ih =>
    intro m e he
    simp only [addScaled, List.foldl_cons] at he
    rcases ih _ e he with ⟨e', he', h⟩ | ⟨e', he', h⟩
    · exact Or.inl ⟨e', by simp [he'], h⟩
    · rcases keys_addToKey _ _ _ e' he' with h2 | ⟨e2, he2, h2⟩
      · exact Or.inl ⟨a, by simp, by rw [← h, h2]⟩
      · exact Or.inr ⟨e2, he2, by rw [h2, h]⟩

theorem compositionLoop_keys (recur : List Char → Option Composition)
    (hrec : ∀ s c, recur s = some c → ∀ e ∈ c, e.1 = [] ∨ symbolShape e.1 = true) :
    ∀ (toks : List (List Char)) (acc comp : Composition),
      (∀ t ∈ toks, tokenShape t = true) →
      (∀ e ∈ acc, e.1 = [] ∨ symbolShape e.1 = true) →
      compositionLoop recur toks acc = some comp →
      ∀ e ∈ comp, e.1 = [] ∨ symbolShape e.1 = true := by
  intro toks
  induction toks with
  | nil =>
    intro acc comp _ hacc h
    simp only [compositionLoop, Option.some.injEq] at h
    subst h
    exact hacc
  | cons t rest ih =>
    intro acc comp htoks hacc h
    simp only [compositionLoop] at h
    cases hent : _entity_str_to_entity_and_coef t with
    | none => rw [hent] at h; cases h
    | some p =>
      obtain ⟨first, second⟩ := p
      rw [hent] at h
      simp only [] at h
      have hrest : ∀ t' ∈ rest, tokenShape t' = true := fun t' ht' => htoks t' (by simp [ht'])
      by_cases hopen : (t.head? == some '(') = true
      · simp only [hopen, if_true] at h
        cases hsub : recur first with
        | none => rw [hsub] at h; cases h
        | some sub =>
          rw [hsub] at h
          simp only [] at h
          apply ih _ comp hrest _ h
          intro e he
          rcases keys_addScaled _ _ _ e he with ⟨e', he', h2⟩ | ⟨e', he', h2⟩
          · rw [← h2]; exact hrec first sub hsub e' he'
          · rw [← h2]; exact hacc e' he'
      · simp only [hopen, if_false, Bool.false_eq_true] at h
        apply ih _ comp hrest _ h
        intro e he
        rcases keys_addToKey _ _ _ e he with h2 | ⟨e', he', h2⟩
        · rw [h2]
          have hshape := htoks t (by simp)
          cases t with
          | nil => simp [tokenShape, looseBare, looseGroup] at hshape
          | cons c cs =>
            have hc : c ≠ '(' := by
              intro e; subst e; simp at hopen
            simp only [tokenShape, looseBare, looseGroup, hc, decide_False, Bool.false_and,
              Bool.or_false, Bool.and_eq_true] at hshape
            exact entity_symbol_shape c cs first second hshape.1 hshape.2 hent
        · rw [← h2]; exact hacc e' he'

theorem compositionFuel_keys : ∀ (fuel : Nat) (s : List Char) (comp : Composition),
    compositionFuel fuel s = some comp → ∀ e ∈ comp, e.1 = [] ∨ symbolShape e.1 = true := by
  intro fuel
  induction fuel with
  | zero => intro s comp h; simp [compositionFuel] at h
  | succ fuel ih =>
    intro s comp h
    simp only [compositionFuel] at h
    cases htok : _compound_str_separator s with
    | nil =>
      rw [htok] at h
      simp only [Option.some.injEq] at h
      subst h
      intro e he; cases he
    | cons t rest =>
      rw [htok] at h
      simp only [] at h
      refine compositionLoop_keys _ ih _ [] comp ?_ (by intro e he; cases he) h
      intro t' ht'
      exact compound_str_separator_shapes s t' (by rw [htok]; exact ht')
theorem groupRest_mono (tail1 tail2 : List Char → Bool)
    (h : ∀ cs, tail1 cs = true → tail2 cs = true) :
    ∀ (cs : List Char) (d : Nat), groupRest tail1 d cs = true → groupRest tail2 d cs = true := by
  intro cs
  induction cs with
  | nil => intro d hd; simp [groupRest] at hd
  | cons x xs ih =>
    intro d hd
    by_cases hx : x = '('
    · subst hx
      rw [groupRest_open] at hd ⊢
      exact ih _ hd
    · by_cases hy : x = ')'
      · subst hy
        rcases d with _ | _ | k
        · rw [groupRest_close_zero] at hd; cases hd
        · rw [groupRest_close_one] at hd ⊢
          exact h _ hd
        · rw [groupRest_close_succ] at hd ⊢
          exact ih _ hd
      · rw [groupRest_other _ _ _ _ hx hy] at hd ⊢
        exact ih _ hd

theorem all_lowerOrDigit_of_digits (cs : List Char) (h : cs.all Char.isDigit = true) :
    cs.all lowerOrDigit = true := by
  rw [List.all_eq_true] at h ⊢
  intro x hx
  simp [lowerOrDigit, h x hx]

theorem all_lowerOrDigit_of_lowersThenDigits (cs : List Char)
    (h : lowersThenDigits cs = true) : cs.all lowerOrDigit = true := by
  unfold lowersThenDigits at h
  rw [← List.takeWhile_append_dropWhile Char.isLower cs, List.all_append,
    all_lowerOrDigit_of_digits _ h, Bool.and_true, List.all_eq_true]
  intro x hx
  have := List.mem_takeWhile_imp hx
  simp [lowerOrDigit, this]

/-- The shapes as specified are among the shapes the tokenizer gives. -/
theorem tokenShape_of_entityShape (t : List Char) (h : entityShape t = true) :
    tokenShape t = true := by
  cases t with
  | nil => simp [entityShape, bareEntity, groupEntity] at h
  | cons c rest =>
    simp only [entityShape, bareEntity, groupEntity, Bool.or_eq_true, Bool.and_eq_true,
      decide_eq_true_eq] at h
    simp only [tokenShape, looseBare, looseGroup, Bool.or_eq_true, Bool.and_eq_true,
      decide_eq_true_eq]
    rcases h with ⟨h1, h2⟩ | ⟨h1, h2⟩
    · exact Or.inl ⟨h1, all_lowerOrDigit_of_lowersThenDigits rest h2⟩
    · exact Or.inr ⟨h1, groupRest_mono _ _ all_lowerOrDigit_of_digits rest 1 h2⟩

theorem symbolShape_of_elementSymbol (k : List Char) (h : elementSymbol k = true) :
    symbolShape k = true := by
  cases k with
  | nil => simp [elementSymbol] at h
  | cons c rest =>
    simp only [elementSymbol, Bool.and_eq_true] at h
    obtain ⟨hc, hrest⟩ := h
    rw [List.all_eq_true] at hrest
    have hall : rest.all lowerOrDigit = true := by
      rw [List.all_eq_true]
      intro x hx
      simp [lowerOrDigit, hrest x hx]
    simp only [symbolShape, hc, hall, Bool.true_and, Bool.not_eq_true', Bool.and_self]
    cases hl : (c :: rest).reverse.head? with
    | none => rfl
    | some x =>
      have hx : x ∈ c :: rest := by
        have := List.mem_of_mem_head? hl
        exact List.mem_reverse.1 this
      simp only [Option.any_some]
      simp only [List.mem_cons] at hx
      rcases hx with rfl | hx
      · exact (upper_not_lower_digit x hc).2
      · exact lower_not_digit x (hrest x hx)

/-- C11 (as amended): for every compound string, every token
`_compound_str_separator` returns is an uppercase letter followed by lowercase
letters and digits in any order, or a parenthesised group, `(`, a body with
matching parentheses, the matching `)`, followed by lowercase letters and
digits in any order; the shapes `[A-Z][a-z]*[0-9]*` and group-then-digits are
among these. `_get_compound_composition` returns, and every non-empty key of
the composition is an uppercase letter followed by lowercase letters and
digits and does not end in a digit; the symbols `[A-Z][a-z]*` are among these. -/
theorem compound_str_separator_token_shapes (s : List Char) :
    (∀ t ∈ _compound_str_separator s, tokenShape t = true) ∧
    (∃ composition, _get_compound_composition s = some composition ∧
      ∀ e ∈ composition, e.1 ≠ [] → symbolShape e.1 = true) ∧
    (∀ t, entityShape t = true → tokenShape t = true) ∧
    (∀ k, elementSymbol k = true → symbolShape k = true) := by
  refine ⟨compound_str_separator_shapes s, ?_, tokenShape_of_entityShape,
    symbolShape_of_elementSymbol⟩
  obtain ⟨m, hm⟩ := get_compound_composition_returns s
  refine ⟨m, hm, ?_⟩
  intro e he hne
  rcases compositionFuel_keys _ s m hm e he with h | h
  · exact absurd h hne
  · exact h

/-- C11 at `Ca(OH)2`: the tokens are `Ca` and `(OH)2`, of the shapes as
specified, and the keys are `Ca`, `H`, `O`. -/
theorem compound_str_separator_token_shapes_witness :
    _compound_str_separator "Ca(OH)2".toList = ["Ca".toList, "(OH)2".toList] ∧
    entityShape "Ca".toList = true ∧ entityShape "(OH)2".toList = true ∧
    _get_compound_composition "Ca(OH)2".toList =
      some [("Ca".toList, 1), ("H".toList, 2), ("O".toList, 2)] ∧
    ∀ t ∈ _compound_str_separator "Ca(OH)2".toList, tokenShape t = true :=
  ⟨by decide, by decide, by decide, by decide,
   (compound_str_separator_token_shapes "Ca(OH)2".toList).1⟩

/-- C11 as stated fails: `Ca2b3` is returned as the one token `Ca2b3`, which is
neither `[A-Z][a-z]*[0-9]*` nor a group, and its composition has the key
`Ca2b`; `(OH)2a` is returned as the one token `(OH)2a`, a group followed by
more than digits. -/
theorem compound_str_separator_token_counterexample :
    _compound_str_separator "Ca2b3".toList = ["Ca2b3".toList] ∧
    entityShape "Ca2b3".toList = false ∧
    _get_compound_composition "Ca2b3".toList = some [("Ca2b".toList, 3)] ∧
    elementSymbol "Ca2b".toList = false ∧
    _compound_str_separator "(OH)2a".toList = ["(OH)2a".toList] ∧
    entityShape "(OH)2a".toList = false := by
  refine ⟨by decide, by decide, by decide, by decide, by decide, by decide⟩
/-! ### Parsing a rendered line again -/

theorem countArrows_cons_ne (c : Char) (rest : List Char) (h : c ≠ '-') :
    countArrows (c :: rest) = countArrows rest := by
  simp [countArrows, h]

theorem countArrows_append_cons (c : Char) (hc : c ≠ '>') : ∀ (xs ys : List Char),
    countArrows (xs ++ c :: ys) = countArrows xs + countArrows (c :: ys) := by
  intro xs
  induction xs with
  | nil => intro ys; simp [countArrows]
  | cons x xs ih =>
    intro ys
    rw [List.cons_append, countArrows, countArrows, ih ys]
    have hhead : ((xs ++ c :: ys).head? = some '>') ↔ (xs.head? = some '>') := by
      cases xs with
      | nil => simp [hc]
      | cons y l => simp
    simp only [hhead]
    omega

theorem countArrows_append_of_no_dash : ∀ (xs ys : List Char), (∀ x ∈ xs, x ≠ '-') →
    countArrows (xs ++ ys) = countArrows ys := by
  intro xs
  induction xs with
  | nil => intro ys _; rfl
  | cons x xs ih =>
    intro ys h
    rw [List.cons_append, countArrows_cons_ne _ _ (h x (by simp))]
    exact ih ys (fun y hy => h y (by simp [hy]))

theorem countArrows_nil_or (xs : List Char) (c : Char) (hc1 : c ≠ '>') (hc2 : c ≠ '-')
    (ys : List Char) : countArrows (xs ++ c :: ys) = countArrows xs + countArrows ys := by
  rw [countArrows_append_cons c hc1, countArrows_cons_ne c ys hc2]

theorem countArrows_intercalate_plus : ∀ (terms : List (List Char)),
    countArrows (['+'].intercalate terms) = (terms.map countArrows).sum := by
  intro terms
  induction terms with
  | nil => simp [List.intercalate, countArrows]
  | cons t rest ih =>
    cases rest with
    | nil => simp [intercalate_single]
    | cons u more =>
      rw [intercalate_cons_cons, List.append_assoc, List.singleton_append,
        countArrows_nil_or t '+' (by decide) (by decide), ih]
      simp

theorem splitPlus_append_no_plus : ∀ (t rest current : List Char), '+' ∉ t →
    splitPlus (t ++ rest) current = splitPlus rest (current ++ t) := by
  intro t
  induction t with
  | nil => intro rest current _; simp
  | cons x xs ih =>
    intro rest current h
    have hx : x ≠ '+' := fun e => h (by simp [e])
    rw [List.cons_append]
    simp only [splitPlus, hx, if_false]
    rw [ih rest _ (fun hm => h (by simp [hm]))]
    simp

/-- Splitting at `+` undoes joining with `+` a non-empty list of strings that
hold no `+`. -/
theorem splitPlus_intercalate : ∀ (terms : List (List Char)), terms ≠ [] →
    (∀ t ∈ terms, '+' ∉ t) → splitPlus (['+'].intercalate terms) [] = terms := by
  intro terms
  induction terms with
  | nil => intro h; exact absurd rfl h
  | cons t rest ih =>
    intro _ hall
    cases rest with
    | nil =>
      rw [intercalate_single]
      have := splitPlus_append_no_plus t [] [] (hall t (by simp))
      simpa [splitPlus] using this
    | cons u more =>
      rw [intercalate_cons_cons, List.append_assoc, List.singleton_append,
        splitPlus_append_no_plus t _ [] (hall t (by simp))]
      simp only [splitPlus, if_true, List.nil_append]
      rw [ih (by simp) (fun t' ht' => hall t' (by simp [ht']))]
theorem digit_plain (c : Char) (h : c.isDigit = true) :
    isspace c = false ∧ c ≠ '+' ∧ c ≠ '-' := by
  refine ⟨?_, ?_, ?_⟩
  · simp only [Char.isDigit, Bool.and_eq_true, decide_eq_true_eq, ge_iff_le, UInt32.le_def,
      BitVec.le_def] at h
    have e1 : (UInt32.toBitVec 48).toNat = 48 := rfl
    have hn : 48 ≤ c.toNat := by
      have := h.1
      rw [e1] at this
      exact this
    unfold isspace
    have hne : c ≠ ' ' := by
      intro e; subst e; revert hn; decide
    simp only [Bool.or_eq_false_iff, beq_eq_false_iff_ne, ne_eq, hne, not_false_eq_true,
      Bool.and_eq_false_imp, decide_eq_true_eq, decide_eq_false_iff_not, true_and]
    intro _
    omega
  · intro e; subst e; revert h; decide
  · intro e; subst e; revert h; decide

theorem remove_spaces_append (a b : List Char) :
    _remove_spaces (a ++ b) = _remove_spaces a ++ _remove_spaces b := by
  simp [_remove_spaces]

theorem remove_spaces_of_plain (t : List Char) (h : ∀ x ∈ t, isspace x = false) :
    _remove_spaces t = t := by
  unfold _remove_spaces
  rw [List.filter_eq_self]
  intro x hx
  simp [h x hx]

theorem remove_spaces_intercalate : ∀ (terms : List (List Char)),
    (∀ t ∈ terms, ∀ x ∈ t, isspace x = false) →
    _remove_spaces ([' ', '+', ' '].intercalate terms) = ['+'].intercalate terms := by
  intro terms
  induction terms with
  | nil => intro _; simp [List.intercalate, _remove_spaces]
  | cons t rest ih =>
    intro h
    cases rest with
    | nil => rw [intercalate_single, intercalate_single, remove_spaces_of_plain t (h t (by simp))]
    | cons u more =>
      rw [intercalate_cons_cons, intercalate_cons_cons, remove_spaces_append,
        remove_spaces_append, remove_spaces_of_plain t (h t (by simp)),
        ih (fun t' ht' => h t' (by simp [ht']))]
      rfl

theorem plainCompound_iff (t : List Char) :
    plainCompound t = true ↔
      (∀ x ∈ t, isspace x = false) ∧ '+' ∉ t ∧ countArrows t = 0 := by
  simp only [plainCompound, Bool.and_eq_true, List.all_eq_true, Bool.not_eq_true',
    bne_iff_ne, ne_eq, beq_iff_eq]
  constructor
  · rintro ⟨h1, h2⟩
    exact ⟨fun x hx => (h1 x hx).1, fun hm => (h1 _ hm).2 rfl, h2⟩
  · rintro ⟨h1, h2, h3⟩
    exact ⟨fun x hx => ⟨h1 x hx, fun e => h2 (e ▸ hx)⟩, h3⟩

theorem sum_countArrows_zero (terms : List (List Char))
    (h : ∀ t ∈ terms, plainCompound t = true) : (terms.map countArrows).sum = 0 := by
  induction terms with
  | nil => rfl
  | cons t rest ih =>
    have h1 := ((plainCompound_iff t).1 (h t (by simp))).2.2
    simp [h1, ih (fun t' ht' => h t' (by simp [ht']))]

theorem intercalate_eq_nil (sep : List Char) (t : List Char) (rest : List (List Char))
    (ht : t ≠ []) : sep.intercalate (t :: rest) ≠ [] := by
  cases rest with
  | nil => rw [intercalate_single]; exact ht
  | cons u more =>
    rw [intercalate_cons_cons]
    simp [ht]

theorem separate_half_intercalate (terms : List (List Char))
    (h : ∀ t ∈ terms, plainCompound t = true ∧ t ≠ []) :
    _separate_half_equation (['+'].intercalate terms) = terms := by
  cases terms with
  | nil => rfl
  | cons t rest =>
    have hne := intercalate_eq_nil ['+'] t rest (h t (by simp)).2
    unfold _separate_half_equation
    have hE : (['+'].intercalate (t :: rest)).isEmpty = false := by
      cases hh : ['+'].intercalate (t :: rest) with
      | nil => exact absurd hh hne
      | cons a b => rfl
    rw [hE]
    simp only [Bool.false_eq_true, if_false]
    exact splitPlus_intercalate _ (by simp)
      (fun t' ht' => ((plainCompound_iff t').1 (h t' ht').1).2.1)

/-- Two lists of plain, non-empty terms joined by `" + "` with `" -> "` between
are split into these lists again. -/
theorem get_compounds_str_arrow (left right : List (List Char))
    (hl : ∀ t ∈ left, plainCompound t = true ∧ t ≠ [])
    (hr : ∀ t ∈ right, plainCompound t = true ∧ t ≠ []) :
    _get_compounds_str ([' ', '+', ' '].intercalate left ++ [' ', '-', '>', ' '] ++
      [' ', '+', ' '].intercalate right) = (left, right) := by
  have hsp : _remove_spaces ([' ', '+', ' '].intercalate left ++ [' ', '-', '>', ' '] ++
      [' ', '+', ' '].intercalate right) =
      ['+'].intercalate left ++ ['-', '>'] ++ ['+'].intercalate right := by
    rw [remove_spaces_append, remove_spaces_append,
      remove_spaces_intercalate left (fun t ht => ((plainCompound_iff t).1 (hl t ht).1).1),
      remove_spaces_intercalate right (fun t ht => ((plainCompound_iff t).1 (hr t ht).1).1)]
    rfl
  have hcount : countArrows (['+'].intercalate left ++ ['-', '>'] ++ ['+'].intercalate right) =
      1 := by
    rw [List.append_assoc]
    show countArrows (['+'].intercalate left ++ '-' :: '>' :: ['+'].intercalate right) = 1
    rw [countArrows_append_cons '-' (by decide), countArrows_intercalate_plus,
      sum_countArrows_zero left (fun t ht => (hl t ht).1), countArrows]
    simp only [List.head?_cons, and_self, if_true]
    rw [countArrows_cons_ne '>' _ (by decide), countArrows_intercalate_plus,
      sum_countArrows_zero right (fun t ht => (hr t ht).1)]
  unfold _get_compounds_str
  simp only [hsp, get_reactants_and_products_str_eq,
    reactantsAndProductsTry_of_one _ _ hcount, separate_half_intercalate left hl,
    separate_half_intercalate right hr]

/-- Two lists of plain terms joined by `" + "` with `" == "` between hold no
`->`: the splitter gives two empty lists. -/
theorem get_compounds_str_equals (left right : List (List Char))
    (hl : ∀ t ∈ left, plainCompound t = true) (hr : ∀ t ∈ right, plainCompound t = true) :
    _get_compounds_str ([' ', '+', ' '].intercalate left ++ [' ', '=', '=', ' '] ++
      [' ', '+', ' '].intercalate right) = ([], []) := by
  have hsp : _remove_spaces ([' ', '+', ' '].intercalate left ++ [' ', '=', '=', ' '] ++
      [' ', '+', ' '].intercalate right) =
      ['+'].intercalate left ++ ['=', '='] ++ ['+'].intercalate right := by
    rw [remove_spaces_append, remove_spaces_append,
      remove_spaces_intercalate left (fun t ht => ((plainCompound_iff t).1 (hl t ht)).1),
      remove_spaces_intercalate right (fun t ht => ((plainCompound_iff t).1 (hr t ht)).1)]
    rfl
  have hcount : countArrows (['+'].intercalate left ++ ['=', '='] ++ ['+'].intercalate right) ≠
      1 := by
    rw [List.append_assoc]
    show countArrows (['+'].intercalate left ++ '=' :: '=' :: ['+'].intercalate right) ≠ 1
    rw [countArrows_nil_or _ '=' (by decide) (by decide),
      countArrows_cons_ne '=' _ (by decide), countArrows_intercalate_plus,
      countArrows_intercalate_plus, sum_countArrows_zero left hl, sum_countArrows_zero right hr]
    decide
  unfold _get_compounds_str
  simp only [hsp, get_reactants_and_products_str_eq,
    reactantsAndProductsTry_of_ne_one _ hcount]
  rfl
theorem splitPlus_mem_chars : ∀ (s current piece : List Char), piece ∈ splitPlus s current →
    ∀ x ∈ piece, x ∈ current ∨ x ∈ s := by
  intro s
  induction s with
  | nil =>
    intro current piece h x hx
    simp only [splitPlus, List.mem_singleton] at h
    subst h
    exact Or.inl hx
  | cons c rest ih =>
    intro current piece h x hx
    simp only [splitPlus] at h
    by_cases hc : c = '+'
    · simp only [hc, if_true, List.mem_cons] at h
      rcases h with rfl | h
      · exact Or.inl hx
      · rcases ih [] piece h x hx with h1 | h1
        · cases h1
        · exact Or.inr (by simp [h1])
    · simp only [hc, if_false] at h
      rcases ih _ piece h x hx with h1 | h1
      · simp only [List.mem_append, List.mem_singleton] at h1
        rcases h1 with h1 | rfl
        · exact Or.inl h1
        · exact Or.inr (by simp)
      · exact Or.inr (by simp [h1])

theorem separate_half_plain (half : List Char) (hsp : ∀ x ∈ half, isspace x = false)
    (hcount : countArrows half = 0) :
    ∀ c ∈ _separate_half_equation half, plainCompound c = true := by
  intro c hc
  unfold _separate_half_equation at hc
  cases hE : half.isEmpty
  swap
  · rw [hE] at hc; simp at hc
  rw [hE] at hc
  simp only [Bool.false_eq_true, if_false] at hc
  obtain ⟨h1, _, h3⟩ := splitPlus_spec half [] (by simp)
  rw [plainCompound_iff]
  refine ⟨?_, h1 c hc, ?_⟩
  · intro x hx
    rcases splitPlus_mem_chars half [] c hc x hx with h | h
    · cases h
    · exact hsp x h
  · have hsum := countArrows_intercalate_plus (splitPlus half [])
    rw [h3, List.nil_append, hcount] at hsum
    have := (List.sum_eq_zero_iff.1 hsum.symm) (countArrows c) (List.mem_map_of_mem _ hc)
    exact this

/-- The compound strings the splitter gives hold no whitespace, no `+` and no
`->`. -/
theorem get_compounds_str_plain (equation : List Char) :
    (∀ c ∈ (_get_compounds_str equation).1, plainCompound c = true) ∧
    (∀ c ∈ (_get_compounds_str equation).2, plainCompound c = true) := by
  have hsp : ∀ x ∈ _remove_spaces equation, isspace x = false := by
    intro x hx
    unfold _remove_spaces at hx
    simpa using (List.mem_filter.1 hx).2
  by_cases hone : countArrows (_remove_spaces equation) = 1
  · obtain ⟨l, r, e⟩ := exists_arrow_of_pos _ (by omega : 1 ≤ countArrows (_remove_spaces equation))
    rw [e] at hone
    obtain ⟨_, hl, hr⟩ := splitArrow_of_one l r [] hone
    have ht := reactantsAndProductsTry_of_one l r (by simpa using hone)
    have hrun : _get_compounds_str equation =
        (_separate_half_equation l, _separate_half_equation r) := by
      unfold _get_compounds_str
      have e' : _remove_spaces equation = l ++ ['-', '>'] ++ r := by simp [e]
      simp only [e', get_reactants_and_products_str_eq, ht]
    rw [hrun]
    exact ⟨separate_half_plain l (fun x hx => hsp x (by rw [e]; simp [hx])) hl,
      separate_half_plain r (fun x hx => hsp x (by rw [e]; simp [hx])) hr⟩
  · have ht := reactantsAndProductsTry_of_ne_one _ hone
    have hrun : _get_compounds_str equation = ([], []) := by
      unfold _get_compounds_str
      simp only [get_reactants_and_products_str_eq, ht]
      rfl
    rw [hrun]
    simp

theorem plainCompound_renderedTerm (coefficient : Nat) (compound : List Char)
    (h : plainCompound compound = true) :
    plainCompound (renderedTerm coefficient compound) = true := by
  unfold renderedTerm
  by_cases h1 : coefficient = 1
  · simpa [h1] using h
  · simp only [h1, if_false]
    obtain ⟨_, hd, _⟩ := to_string_spec coefficient
    rw [List.all_eq_true] at hd
    rw [plainCompound_iff] at h ⊢
    obtain ⟨ha, hb, hc⟩ := h
    refine ⟨?_, ?_, ?_⟩
    · intro x hx
      simp only [List.mem_append] at hx
      rcases hx with hx | hx
      · exact (digit_plain x (hd x hx)).1
      · exact ha x hx
    · intro hm
      simp only [List.mem_append] at hm
      rcases hm with hm | hm
      · exact (digit_plain _ (hd _ hm)).2.1 rfl
      · exact hb hm
    · rw [countArrows_append_of_no_dash _ _ (fun x hx => (digit_plain x (hd x hx)).2.2)]
      exact hc

theorem renderedTerm_ne_nil (coefficient : Nat) (compound : List Char) (h : compound ≠ []) :
    renderedTerm coefficient compound ≠ [] := by
  unfold renderedTerm
  simp [h]

theorem mem_renderedTerms : ∀ (coefficients : List Nat) (compounds : List (List Char))
    (t : List Char), t ∈ renderedTerms coefficients compounds →
    ∃ k c, c ∈ compounds ∧ t = renderedTerm k c := by
  intro coefficients
  induction coefficients with
  | nil => intro compounds t h; simp [renderedTerms] at h
  | cons k ks ih =>
    intro compounds t h
    cases compounds with
    | nil => simp [renderedTerms] at h
    | cons c cs =>
      simp only [renderedTerms, List.zipWith_cons_cons, List.mem_cons] at h
      rcases h with rfl | h
      · exact ⟨k, c, by simp, rfl⟩
      · obtain ⟨k', c', hc', e⟩ := ih cs t h
        exact ⟨k', c', by simp [hc'], e⟩

theorem renderedTerms_ones : ∀ (coefficients : List Nat) (compounds : List (List Char)),
    compounds.length ≤ coefficients.length → (∀ k ∈ coefficients, k = 1) →
    renderedTerms coefficients compounds = compounds := by
  intro coefficients
  induction coefficients with
  | nil =>
    intro compounds h _
    cases compounds with
    | nil => rfl
    | cons c cs => simp at h
  | cons k ks ih =>
    intro compounds h hall
    cases compounds with
    | nil => rfl
    | cons c cs =>
      have hk : k = 1 := hall k (by simp)
      simp only [List.length_cons] at h
      have := ih cs (by omega) (fun k' hk' => hall k' (by simp [hk']))
      simp only [renderedTerms] at this ⊢
      simp [renderedTerm, hk, this]
/-- C18 (as amended): after an attempt of `balance` that succeeded on a balancer
with an empty solution set, for every vector of the solution set: the line
`get_result` renders for it, parsed again with `_get_compounds_str`, gives two
empty lists (the line holds `" == "` and no `->`); the same line with `" -> "`
in the place of `" == "` is parsed into the terms of the line, each compound
preceded by its coefficient in decimal unless that is 1; so the compound lists
of the equation, and with them its element list, come back when every
coefficient is 1. -/
theorem rendered_line_resplit (s : State) (hclear : s._results_coefs = [])
    (equation : List Char) (s' : State) (hrun : balance s equation = some (s', none)) :
    s'._reactants_and_products = _get_compounds_str equation ∧
    get_result s' = some (['\n'].intercalate (s'._results_coefs.map
      (renderedLine s'._reactants_and_products.1 s'._reactants_and_products.2)), none) ∧
    s'._results_coefs ≠ [] ∧
    ∀ v ∈ s'._results_coefs,
      _get_compounds_str
        (renderedLine s'._reactants_and_products.1 s'._reactants_and_products.2 v) =
        ([], []) ∧
      _get_compounds_str
        (arrowLine s'._reactants_and_products.1 s'._reactants_and_products.2 v) =
        (renderedTerms (v.take s'._reactants_and_products.1.length)
            s'._reactants_and_products.1,
          renderedTerms (v.drop s'._reactants_and_products.1.length)
            s'._reactants_and_products.2) ∧
      ((∀ k ∈ v, k = 1) →
        _get_compounds_str
          (arrowLine s'._reactants_and_products.1 s'._reactants_and_products.2 v) =
          s'._reactants_and_products ∧
        sideElements (_get_compounds_str
          (arrowLine s'._reactants_and_products.1 s'._reactants_and_products.2 v)).1 =
          s'._elements) := by
  obtain ⟨_, hget⟩ := get_result_after_balance s hclear equation s' none hrun
  obtain ⟨hne, hget⟩ := hget rfl
  have hin := attempt_results_in_range
    { s with _reactants_and_products := _get_compounds_str equation } hclear _ _ s' none hrun
  obtain ⟨hplainR, hplainP⟩ := get_compounds_str_plain equation
  rw [balance_eq] at hrun
  by_cases c0 : ((_get_compounds_str equation).1.isEmpty ||
      (_get_compounds_str equation).2.isEmpty) = true
  · rw [if_pos c0] at hrun; cases hrun
  rw [if_neg c0] at hrun
  by_cases c1 : ((_get_compounds_str equation).1.any List.isEmpty ||
      (_get_compounds_str equation).2.any List.isEmpty) = true
  · rw [if_pos c1] at hrun; cases hrun
  rw [if_neg c1] at hrun
  have hrp : s'._reactants_and_products = _get_compounds_str equation ∧
      s'._elements = sideElements (_get_compounds_str equation).1 := by
    split_ifs at hrun <;> cases hrun
    exact ⟨rfl, rfl⟩
  obtain ⟨hrp, hel⟩ := hrp
  simp only [Bool.or_eq_true, not_or, Bool.not_eq_true, List.any_eq_false,
    List.isEmpty_iff] at c1
  have hneR : ∀ c ∈ (_get_compounds_str equation).1, c ≠ [] := fun c hc => c1.1 c hc
  have hneP : ∀ c ∈ (_get_compounds_str equation).2, c ≠ [] := fun c hc => c1.2 c hc
  refine ⟨hrp, hget, hne, ?_⟩
  intro v hv
  have hlen := (hin v hv).1.2
  rw [hrp]
  have hTR : ∀ t ∈ renderedTerms (v.take (_get_compounds_str equation).1.length)
      (_get_compounds_str equation).1, plainCompound t = true ∧ t ≠ [] := by
    intro t ht
    obtain ⟨k, c, hc, rfl⟩ := mem_renderedTerms _ _ t ht
    exact ⟨plainCompound_renderedTerm k c (hplainR c hc), renderedTerm_ne_nil k c (hneR c hc)⟩
  have hTP : ∀ t ∈ renderedTerms (v.drop (_get_compounds_str equation).1.length)
      (_get_compounds_str equation).2, plainCompound t = true ∧ t ≠ [] := by
    intro t ht
    obtain ⟨k, c, hc, rfl⟩ := mem_renderedTerms _ _ t ht
    exact ⟨plainCompound_renderedTerm k c (hplainP c hc), renderedTerm_ne_nil k c (hneP c hc)⟩
  have harrow := get_compounds_str_arrow _ _ hTR hTP
  refine ⟨get_compounds_str_equals _ _ (fun t ht => (hTR t ht).1) (fun t ht => (hTP t ht).1),
    harrow, ?_⟩
  intro hones
  have e1 : renderedTerms (v.take (_get_compounds_str equation).1.length)
      (_get_compounds_str equation).1 = (_get_compounds_str equation).1 :=
    renderedTerms_ones _ _ (by rw [List.length_take]; omega)
      (fun k hk => hones k (List.mem_of_mem_take hk))
  have e2 : renderedTerms (v.drop (_get_compounds_str equation).1.length)
      (_get_compounds_str equation).2 = (_get_compounds_str equation).2 :=
    renderedTerms_ones _ _ (by rw [List.length_drop]; omega)
      (fun k hk => hones k (List.mem_of_mem_drop hk))
  have hback : _get_compounds_str (arrowLine (_get_compounds_str equation).1
      (_get_compounds_str equation).2 v) = _get_compounds_str equation := by
    unfold arrowLine
    rw [harrow, e1, e2]
  rw [hback]
  exact ⟨rfl, hel.symm⟩

/-- C18 at `H2 + O2 -> H2O` with bound 2, which leaves `waterSolved`: the line
`2H2 + O2 == 2H2O` is parsed into two empty lists, and with the arrow into
its terms `2H2`, `O2` and `2H2O`. -/
theorem rendered_line_resplit_witness :
    balance (set_max_coef State.fresh 2) "H2 + O2 -> H2O".toList = some (waterSolved, none) ∧
    get_result waterSolved = some ("2H2 + O2 == 2H2O".toList, none) ∧
    _get_compounds_str "2H2 + O2 -> 2H2O".toList =
      (["2H2".toList, "O2".toList], ["2H2O".toList]) ∧
    ∀ v ∈ waterSolved._results_coefs,
      _get_compounds_str
        (renderedLine waterSolved._reactants_and_products.1
          waterSolved._reactants_and_products.2 v) = ([], []) ∧
      _get_compounds_str
        (arrowLine waterSolved._reactants_and_products.1
          waterSolved._reactants_and_products.2 v) =
        (renderedTerms (v.take waterSolved._reactants_and_products.1.length)
            waterSolved._reactants_and_products.1,
          renderedTerms (v.drop waterSolved._reactants_and_products.1.length)
            waterSolved._reactants_and_products.2) ∧
      ((∀ k ∈ v, k = 1) →
        _get_compounds_str
          (arrowLine waterSolved._reactants_and_products.1
            waterSolved._reactants_and_products.2 v) =
          waterSolved._reactants_and_products ∧
        sideElements (_get_compounds_str
          (arrowLine waterSolved._reactants_and_products.1
            waterSolved._reactants_and_products.2 v)).1 =
          waterSolved._elements) :=
  ⟨by decide, by decide, by decide,
   (rendered_line_resplit (set_max_coef State.fresh 2) (by decide) "H2 + O2 -> H2O".toList
    waterSolved (by decide)).2.2.2⟩

/-- C18 as stated fails: with bound 2, `H2 + O2 -> H2O` is balanced with the
compound lists `H2, O2` and `H2O`, and `get_result` returns `2H2 + O2 == 2H2O`;
`_get_compounds_str` gives two empty lists for this line, and the tokenizer
rejects its term `2H2`. -/
theorem rendered_line_roundtrip_counterexample :
    (balance (set_max_coef State.fresh 2) "H2 + O2 -> H2O".toList).map
        (fun r => r.1._reactants_and_products) =
      some (["H2".toList, "O2".toList], ["H2O".toList]) ∧
    (balance (set_max_coef State.fresh 2) "H2 + O2 -> H2O".toList).map
        (fun r => get_result r.1) = some (some ("2H2 + O2 == 2H2O".toList, none)) ∧
    _get_compounds_str "2H2 + O2 == 2H2O".toList = ([], []) ∧
    _compound_str_separator "2H2".toList = [] ∧ rejectedCompound "2H2".toList = true := by
  refine ⟨by decide, by decide, by decide, by decide, by decide⟩

/-! ### The scenario `C6H14 + O2 -> CO2 + H2O`, solved -/

theorem hexane_pass_iff (M : Nat) (hM : M ≤ 20) (v : List Nat) :
    (inBox M 4 v ∧ balancedInt32 hexaneMatrix v = true) ↔ (v = [2, 19, 12, 14] ∧ 19 ≤ M) := by
  constructor
  · rintro ⟨hbox, hpass⟩
    have hrange : withinIntRange hexaneMatrix M := by
      intro row hrow
      have h20 : withinIntRange hexaneMatrix 20 := by decide
      have := h20 row hrow
      have hle : (row.map Int.natAbs).sum * M ≤ (row.map Int.natAbs).sum * 20 :=
        Nat.mul_le_mul_left _ hM
      omega
    rw [balancedInt32_eq_exact hexaneMatrix M 4 v hrange hbox] at hpass
    obtain ⟨hlen, hb⟩ := hbox
    rcases v with _ | ⟨a, _ | ⟨b, _ | ⟨c, _ | ⟨d, _ | ⟨e, t⟩⟩⟩⟩⟩ <;>
      simp only [List.length_nil, List.length_cons] at hlen <;> try omega
    have ha := hb a (by simp)
    have hb' := hb b (by simp)
    have hc := hb c (by simp)
    have hd := hb d (by simp)
    simp only [balancedExact, hexaneMatrix, dot, List.all_cons, List.all_nil,
      Bool.and_true, Bool.and_eq_true, decide_eq_true_eq] at hpass
    obtain ⟨h1, h2, h3⟩ := hpass
    have e1 : a = 2 := by omega
    have e2 : b = 19 := by omega
    have e3 : c = 12 := by omega
    have e4 : d = 14 := by omega
    subst e1 e2 e3 e4
    exact ⟨rfl, by omega⟩
  · rintro ⟨rfl, hM19⟩
    refine ⟨⟨rfl, ?_⟩, by decide⟩
    intro x hx
    simp only [List.mem_cons, List.mem_singleton, List.not_mem_nil, or_false] at hx
    rcases hx with rfl | rfl | rfl | rfl <;> omega
theorem hexane_found_20 :
    (allVectors 20 4).filter (balancedInt32 hexaneMatrix) = [[2, 19, 12, 14]] := by
  apply eq_of_lexSorted_of_mem_iff
  · exact (pairwise_allVectors 20 4).filter _
  · decide
  · intro v
    rw [List.mem_filter, mem_allVectors, hexane_pass_iff 20 (by omega) v]
    simp

theorem hexane_found_18 :
    (allVectors 18 4).filter (balancedInt32 hexaneMatrix) = [] := by
  rw [List.filter_eq_nil_iff]
  intro v hv hpass
  rw [mem_allVectors] at hv
  have := (hexane_pass_iff 18 (by omega) v).1 ⟨hv, hpass⟩
  omega

theorem hexane_results (M : Nat) :
    (stateAfterSolving (set_max_coef State.fresh M) ["C6H14".toList, "O2".toList]
      ["CO2".toList, "H2O".toList])._results_coefs =
      filterLoop ((allVectors M 4).filter (balancedInt32 hexaneMatrix)) [] := by
  have hM : signedMatrix (sideElements ["C6H14".toList, "O2".toList])
      ["C6H14".toList, "O2".toList] ["CO2".toList, "H2O".toList] = hexaneMatrix := by decide
  simp only [stateAfterSolving, hM]
  rfl

theorem hexane_balance (M : Nat) :
    balance (set_max_coef State.fresh M) "C6H14 + O2 -> CO2 + H2O".toList =
      some (stateAfterSolving (set_max_coef State.fresh M) ["C6H14".toList, "O2".toList]
          ["CO2".toList, "H2O".toList],
        if (filterLoop ((allVectors M 4).filter (balancedInt32 hexaneMatrix)) []).isEmpty
        then some .FAILED_TO_BALANCE else none) := by
  have hcs : _get_compounds_str "C6H14 + O2 -> CO2 + H2O".toList =
      (["C6H14".toList, "O2".toList], ["CO2".toList, "H2O".toList]) := by decide
  have hel : sideElements ["C6H14".toList, "O2".toList] =
      sideElements ["CO2".toList, "H2O".toList] := by decide
  have hne : sideElements ["C6H14".toList, "O2".toList] ≠ [] := by decide
  rw [balance_eq, hcs]
  have h0 : ((["C6H14".toList, "O2".toList].isEmpty ||
      ["CO2".toList, "H2O".toList].isEmpty) = true) = False := by decide
  have h1 : ((["C6H14".toList, "O2".toList].any List.isEmpty ||
      ["CO2".toList, "H2O".toList].any List.isEmpty) = true) = False := by decide
  simp only [h0, h1, if_false, ne_eq, hel, not_true_eq_false]
  rw [← hel, if_neg hne, hexane_results]

/-- C21: with bound 20 on a fresh balancer, `balance("C6H14 + O2 -> CO2 + H2O")`
ends without a message and the solution set holds the vector `(2, 19, 12, 14)`
and no other; with bound 18 the same text ends in `FAILED_TO_BALANCE` with an
empty solution set. -/
theorem balance_hexane :
    (∃ s', balance (set_max_coef State.fresh 20) "C6H14 + O2 -> CO2 + H2O".toList =
        some (s', none) ∧
      [2, 19, 12, 14] ∈ s'._results_coefs ∧ s'._results_coefs = [[2, 19, 12, 14]]) ∧
    (∃ s', balance (set_max_coef State.fresh 18) "C6H14 + O2 -> CO2 + H2O".toList =
        some (s', some .FAILED_TO_BALANCE) ∧ s'._results_coefs = []) := by
  constructor
  · refine ⟨stateAfterSolving (set_max_coef State.fresh 20) ["C6H14".toList, "O2".toList]
      ["CO2".toList, "H2O".toList], ?_, ?_, ?_⟩
    · rw [hexane_balance 20, hexane_found_20]
      rfl
    · rw [hexane_results 20, hexane_found_20]
      decide
    · rw [hexane_results 20, hexane_found_20]
      decide
  · refine ⟨stateAfterSolving (set_max_coef State.fresh 18) ["C6H14".toList, "O2".toList]
      ["CO2".toList, "H2O".toList], ?_, ?_⟩
    · rw [hexane_balance 18, hexane_found_18]
      rfl
    · rw [hexane_results 18, hexane_found_18]
      rfl
/-! ### The recursion of `_get_compound_composition` -/

/-- The base the entity splitter returns for a token is a piece of the token
that starts at position 1. -/
theorem entity_base_substr (tok first : List Char) (second : Nat)
    (hopen : tok.head? = some '(')
    (h : _entity_str_to_entity_and_coef tok = some (first, second)) :
    ∃ n, first = substr tok 1 n := by
  have hsub : (tok.head? == some '(') = true := by simp [hopen]
  unfold _entity_str_to_entity_and_coef at h
  cases hrev : tok.reverse with
  | nil =>
    rw [hrev] at h
    simp only [Option.some.injEq, Prod.mk.injEq] at h
    exact ⟨0, by rw [← h.1]; simp [substr]⟩
  | cons last more =>
    rw [hrev] at h
    simp only [hsub, Bool.not_true, Bool.false_eq_true, if_false] at h
    by_cases hl : last.isDigit = true
    · simp only [hl, if_true] at h
      cases hscan : scanSeparatingIndex (last :: more) with
      | none => rw [hscan] at h; cases h
      | some k =>
        rw [hscan] at h
        simp only [] at h
        cases hst : stoi (substr tok k (tok.length - k)) with
        | none =>
          rw [hst] at h
          simp only [Option.some.injEq, Prod.mk.injEq] at h
          exact ⟨0, by rw [← h.1]; simp [substr]⟩
        | some coef =>
          rw [hst] at h
          simp only [Option.some.injEq, Prod.mk.injEq] at h
          by_cases hk : k < 2
          · simp only [hk, if_true] at h
            exact ⟨tok.length, by rw [← h.1]; simp [substr]⟩
          · simp only [hk, if_false] at h
            exact ⟨k - 2, h.1.symm⟩
    · simp only [hl, Bool.false_eq_true, if_false, Option.some.injEq, Prod.mk.injEq] at h
      exact ⟨tok.length - 2, h.1.symm⟩

theorem compositionLoop_congr (recur1 recur2 : List Char → Option Composition) (L : Nat)
    (hrec : ∀ x : List Char, x.length < L → recur1 x = recur2 x) :
    ∀ (toks : List (List Char)) (acc : Composition),
      (∀ t ∈ toks, startsUpperOrOpen t = true ∧ t.length ≤ L) →
      compositionLoop recur1 toks acc = compositionLoop recur2 toks acc := by
  intro toks
  induction toks with
  | nil => intro acc _; rfl
  | cons t rest ih =>
    intro acc h
    obtain ⟨ht1, ht2⟩ := h t (by simp)
    have hrest : ∀ t ∈ rest, startsUpperOrOpen t = true ∧ t.length ≤ L :=
      fun u hu => h u (by simp [hu])
    obtain ⟨first, second, he, hlen⟩ := entity_returns t ht1
    simp only [compositionLoop, he]
    by_cases hopen : (t.head? == some '(') = true
    · have hfirst : first.length < L := by
        have := hlen (by simpa using hopen)
        omega
      simp only [hopen, if_true]
      rw [hrec first hfirst]
      cases recur2 first with
      | none => rfl
      | some sub => exact ih _ hrest
    · simp only [hopen, if_false, Bool.false_eq_true]
      exact ih _ hrest

/-- The result of `_get_compound_composition` does not depend on the bound on
the nesting, once the bound exceeds the length of the string. -/
theorem compositionFuel_stable : ∀ (fuel1 fuel2 : Nat) (s : List Char),
    s.length < fuel1 → s.length < fuel2 → compositionFuel fuel1 s = compositionFuel fuel2 s := by
  intro fuel1
  induction fuel1 with
  | zero => intro fuel2 s h; omega
  | succ f1 ih =>
    intro fuel2 s h1 h2
    cases fuel2 with
    | zero => omega
    | succ f2 =>
      simp only [compositionFuel]
      cases htok : _compound_str_separator s with
      | nil => rfl
      | cons t rest =>
        simp only []
        apply compositionLoop_congr _ _ s.length
        · intro x hx
          exact ih f2 x (by omega) (by omega)
        · intro u hu
          exact compound_str_separator_tokens s u (by rw [htok]; exact hu)

/-- C23: `_get_compound_composition` returns on every input string. Every token
of the string is no longer than the string; for every token that starts with
`(` the entity splitter returns a base that is a piece of the token (from
position 1 on) and strictly shorter than the token, and the recursive call is
on this base: the nesting of calls is bounded by the length of the string, and
the result is the same for every bound on the nesting above that length. -/
theorem get_compound_composition_terminates (s : List Char) :
    (∃ composition, _get_compound_composition s = some composition) ∧
    (∀ fuel, s.length < fuel → compositionFuel fuel s = _get_compound_composition s) ∧
    (∀ t ∈ _compound_str_separator s, t.length ≤ s.length ∧
      (t.head? = some '(' →
        ∃ first second, _entity_str_to_entity_and_coef t = some (first, second) ∧
          (∃ n, first = substr t 1 n) ∧ first.length < t.length ∧
          first.length < s.length)) := by
  refine ⟨get_compound_composition_returns s, ?_, ?_⟩
  · intro fuel h
    exact compositionFuel_stable fuel (s.length + 1) s h (by omega)
  · intro t ht
    obtain ⟨hst, hlen⟩ := compound_str_separator_tokens s t ht
    refine ⟨hlen, ?_⟩
    intro hopen
    obtain ⟨first, second, he, hshort⟩ := entity_returns t hst
    have := hshort hopen
    exact ⟨first, second, he, entity_base_substr t first second hopen he, this, by omega⟩
/-- C23 at `((OH)2Ca)3`: the one token is the string itself, its base is
`(OH)2Ca`, one shorter call deep is `OH`, and the composition is returned. -/
theorem get_compound_composition_terminates_witness :
    _compound_str_separator "((OH)2Ca)3".toList = ["((OH)2Ca)3".toList] ∧
    _entity_str_to_entity_and_coef "((OH)2Ca)3".toList = some ("(OH)2Ca".toList, 3) ∧
    _get_compound_composition "((OH)2Ca)3".toList =
      some [("Ca".toList, 3), ("H".toList, 6), ("O".toList, 6)] ∧
    ∃ composition, _get_compound_composition "((OH)2Ca)3".toList = some composition :=
  ⟨by decide, by decide, by decide,
   (get_compound_composition_terminates "((OH)2Ca)3".toList).1⟩

/-! ### An empty element list -/

/-- An attempt on non-empty lists of non-empty compound strings that passes the
element check reads outside the matrix exactly when the element list is
empty. -/
theorem attempt_none_iff (s : State) (reactants products : List (List Char))
    (hr : reactants ≠ []) (hp : products ≠ [])
    (hrne : ∀ c ∈ reactants, c ≠ []) (hpne : ∀ c ∈ products, c ≠ [])
    (hcheck : sideElements reactants = sideElements products) :
    (balance_with_given_compounds s reactants products = none ↔ sideElements reactants = []) ∧
    (sideElements reactants ≠ [] →
      balance_with_given_compounds s reactants products =
        some (stateAfterSolving s reactants products,
          if (stateAfterSolving s reactants products)._results_coefs.isEmpty
          then some .FAILED_TO_BALANCE else none)) := by
  have h0 : (reactants.isEmpty || products.isEmpty) = false := by
    cases reactants <;> cases products <;> simp_all
  have h1 : (reactants.any List.isEmpty || products.any List.isEmpty) = false := by
    simp only [Bool.or_eq_false_iff, List.any_eq_false, List.isEmpty_iff]
    exact ⟨fun c hc => hrne c hc, fun c hc => hpne c hc⟩
  have hrun := balance_with_given_compounds_str_eq s reactants products
  simp only [h0, h1, Bool.false_eq_true, if_false, ne_eq, hcheck, not_true_eq_false] at hrun
  rw [← hcheck] at hrun
  unfold balance_with_given_compounds
  rw [hrun]
  constructor
  · by_cases he : sideElements reactants = []
    · simp [he]
    · simp [he]
  · intro he
    simp [he]

/-- C25 at its failing input: `()` is accepted by the tokenizer and its
composition is empty, so for the reactants `()` and the products `()` both
element lists are empty and the element check passes; `_build_matrix` returns
no row, the stored matrix is empty, and the solver's read of row 0 is outside
the matrix: the attempt does not return. The same holds for `balance` on
`() -> ()`. In general an attempt on non-empty lists of non-empty compound
strings that passes the element check reads outside the matrix exactly when
the element list is empty. -/
theorem balance_empty_matrix_read_outside :
    _compound_str_separator "()".toList = ["()".toList] ∧
    _get_compound_composition "()".toList = some [] ∧
    sideElements ["()".toList] = [] ∧
    _build_matrix (sideCompositions ["()".toList]) (sideElements ["()".toList]) = [] ∧
    signedMatrix (sideElements ["()".toList]) ["()".toList] ["()".toList] = [] ∧
    _solving_matrix_using_recursion { State.fresh with _main_matrix := [] } [0, 0] 0 = none ∧
    balance_with_given_compounds State.fresh ["()".toList] ["()".toList] = none ∧
    balance State.fresh "() -> ()".toList = none ∧
    (∀ (s : State) (reactants products : List (List Char)),
      reactants ≠ [] → products ≠ [] → (∀ c ∈ reactants, c ≠ []) → (∀ c ∈ products, c ≠ []) →
      sideElements reactants = sideElements products →
      (balance_with_given_compounds s reactants products = none ↔
        sideElements reactants = [])) := by
  refine ⟨by decide, by decide, by decide, by decide, by decide, by rfl, by decide, by decide,
    ?_⟩
  intro s reactants products hr hp hrne hpne hcheck
  exact (attempt_none_iff s reactants products hr hp hrne hpne hcheck).1
/-! ### A symbol on one side only -/

theorem dot_append : ∀ (v1 : List Nat) (row1 : List Int) (v2 : List Nat) (row2 : List Int),
    v1.length = row1.length → dot (v1 ++ v2) (row1 ++ row2) = dot v1 row1 + dot v2 row2 := by
  intro v1
  induction v1 with
  | nil =>
    intro row1 v2 row2 h
    cases row1 with
    | nil => simp [dot]
    | cons e es => simp at h
  | cons c cs ih =>
    intro row1 v2 row2 h
    cases row1 with
    | nil => simp at h
    | cons e es =>
      simp only [List.length_cons, Nat.add_right_cancel_iff] at h
      have := ih es v2 row2 h
      rw [List.cons_append, List.cons_append]
      simp only [dot]
      rw [this]
      ring

theorem dot_zero_row : ∀ (v : List Nat) (row : List Int), (∀ e ∈ row, e = 0) → dot v row = 0 := by
  intro v
  induction v with
  | nil => intro row _; simp [dot]
  | cons c cs ih =>
    intro row h
    cases row with
    | nil => simp [dot]
    | cons e es =>
      simp only [dot, h e (by simp), mul_zero, zero_add]
      exact ih es (fun x hx => h x (by simp [hx]))

theorem dot_nonneg : ∀ (v : List Nat) (row : List Int), (∀ e ∈ row, 0 ≤ e) → 0 ≤ dot v row := by
  intro v
  induction v with
  | nil => intro row _; simp [dot]
  | cons c cs ih =>
    intro row h
    cases row with
    | nil => simp [dot]
    | cons e es =>
      simp only [dot]
      have h1 := ih es (fun x hx => h x (by simp [hx]))
      have h2 := h e (by simp)
      have h3 : (0 : Int) ≤ (c : Int) * e := mul_nonneg (by omega) h2
      omega

/-- A vector of positive entries has a positive dot product with a row of
non-negative entries of the same length, one of them positive. -/
theorem dot_pos : ∀ (v : List Nat) (row : List Int), v.length = row.length →
    (∀ x ∈ v, 1 ≤ x) → (∀ e ∈ row, 0 ≤ e) → (∃ e ∈ row, 1 ≤ e) → 0 < dot v row := by
  intro v
  induction v with
  | nil =>
    intro row hlen _ _ hex
    cases row with
    | nil => obtain ⟨e, he, _⟩ := hex; cases he
    | cons e es => simp at hlen
  | cons c cs ih =>
    intro row hlen hv hrow hex
    cases row with
    | nil => simp at hlen
    | cons e es =>
      simp only [List.length_cons, Nat.add_right_cancel_iff] at hlen
      simp only [dot]
      have hc := hv c (by simp)
      have he := hrow e (by simp)
      obtain ⟨e1, he1, hpos⟩ := hex
      simp only [List.mem_cons] at he1
      rcases he1 with rfl | he1
      · have h1 := dot_nonneg cs es (fun x hx => hrow x (by simp [hx]))
        have h2 : (1 : Int) ≤ (c : Int) * e1 := by nlinarith
        omega
      · have h1 := ih es hlen (fun x hx => hv x (by simp [hx]))
          (fun x hx => hrow x (by simp [hx])) ⟨e1, he1, hpos⟩
        have h2 : (0 : Int) ≤ (c : Int) * e := mul_nonneg (by omega) he
        omega

theorem dot_map_neg : ∀ (v : List Nat) (row : List Int),
    dot v (row.map (fun e => -e)) = -dot v row := by
  intro v
  induction v with
  | nil => intro row; simp [dot]
  | cons c cs ih =>
    intro row
    cases row with
    | nil => simp [dot]
    | cons e es =>
      simp only [List.map_cons, dot, ih es]
      ring

theorem countOf_mem (key : List Char) : ∀ (m : Composition) (n : Nat),
    countOf key m = some n → (key, n) ∈ m := by
  intro m
  induction m with
  | nil => intro n h; simp [countOf] at h
  | cons a rest ih =>
    intro n h
    obtain ⟨k, v⟩ := a
    by_cases hk : key = k
    · subst hk
      simp only [countOf, if_true, Option.some.injEq] at h
      subst h
      simp
    · simp only [countOf, hk, if_false] at h
      exact List.mem_cons_of_mem _ (ih n h)

/-- The count of a symbol in a compound whose stored counts are positive and fit
an `int`: it fits an `int`, and it is positive when the symbol is a key. -/
theorem countIn_of_countsPositive (compounds : List (List Char)) (h : countsPositive compounds)
    (symbol compound : List Char) (hc : compound ∈ compounds) :
    countIn symbol compound < 2147483648 ∧
    (sideHasKey [compound] symbol = true → 1 ≤ countIn symbol compound) := by
  unfold countIn
  simp only [sideHasKey, sideCompositions, List.map_cons, List.map_nil, List.any_cons,
    List.any_nil, Bool.or_false]
  cases hco : countOf symbol ((_get_compound_composition compound).getD []) with
  | none => simp
  | some n =>
    have := h compound hc _ (countOf_mem symbol _ n hco)
    simp only [Option.getD_some, Option.isSome_some, forall_const]
    exact ⟨this.2, this.1⟩

theorem sideHasKey_iff (compounds : List (List Char)) (symbol : List Char) :
    sideHasKey compounds symbol = true ↔
      ∃ compound ∈ compounds, sideHasKey [compound] symbol = true := by
  simp [sideHasKey, sideCompositions]

theorem countIn_of_not_key (compounds : List (List Char)) (symbol : List Char)
    (h : sideHasKey compounds symbol = false) :
    ∀ compound ∈ compounds, countIn symbol compound = 0 := by
  intro compound hc
  have h1 : sideHasKey [compound] symbol = false := by
    cases hk : sideHasKey [compound] symbol with
    | false => rfl
    | true =>
      have := (sideHasKey_iff compounds symbol).2 ⟨compound, hc, hk⟩
      rw [h] at this
      cases this
  simp only [sideHasKey, sideCompositions, List.map_cons, List.map_nil, List.any_cons,
    List.any_nil, Bool.or_false] at h1
  unfold countIn
  cases hco : countOf symbol ((_get_compound_composition compound).getD []) with
  | none => rfl
  | some n => rw [hco] at h1; simp at h1
/-- The row of a symbol that is a key on one side only, with positive counts
that fit an `int`: no vector of positive entries has dot product 0 with it. -/
theorem one_sided_row_dot_ne_zero (reactants products : List (List Char)) (symbol : List Char)
    (hcounts : countsPositive (reactants ++ products))
    (hone : sideHasKey reactants symbol ≠ sideHasKey products symbol)
    (v : List Nat) (hlen : v.length = reactants.length + products.length)
    (hpos : ∀ x ∈ v, 1 ≤ x) :
    dot v (reactants.map (fun compound => toInt32 (countIn symbol compound)) ++
      products.map (fun compound => wrap32 (-(toInt32 (countIn symbol compound))))) ≠ 0 := by
  have hbound : ∀ c, c ∈ reactants ∨ c ∈ products → countIn symbol c < 2147483648 := by
    intro c hc
    exact (countIn_of_countsPositive _ hcounts symbol c (by simpa using hc)).1
  have hR : reactants.map (fun compound => toInt32 (countIn symbol compound)) =
      reactants.map (fun compound => (countIn symbol compound : Int)) := by
    apply List.map_congr_left
    intro c hc
    exact (toInt32_of_lt _ (hbound c (Or.inl hc))).1
  have hP : products.map (fun compound => wrap32 (-(toInt32 (countIn symbol compound)))) =
      (products.map (fun compound => (countIn symbol compound : Int))).map (fun e => -e) := by
    rw [List.map_map]
    apply List.map_congr_left
    intro c hc
    exact (toInt32_of_lt _ (hbound c (Or.inr hc))).2
  have hv : v = v.take reactants.length ++ v.drop reactants.length :=
    (List.take_append_drop _ _).symm
  have hl1 : (v.take reactants.length).length =
      (reactants.map (fun compound => (countIn symbol compound : Int))).length := by
    rw [List.length_take, List.length_map]; omega
  have hl2 : (v.drop reactants.length).length =
      (products.map (fun compound => (countIn symbol compound : Int))).length := by
    rw [List.length_drop, List.length_map]; omega
  rw [hR, hP, hv, dot_append _ _ _ _ hl1, dot_map_neg]
  have hposT : ∀ x ∈ v.take reactants.length, 1 ≤ x := fun x hx => hpos x (List.mem_of_mem_take hx)
  have hposD : ∀ x ∈ v.drop reactants.length, 1 ≤ x := fun x hx => hpos x (List.mem_of_mem_drop hx)
  have side : ∀ (compounds : List (List Char)) (w : List Nat),
      (∀ c ∈ compounds, c ∈ reactants ∨ c ∈ products) →
      w.length = (compounds.map (fun compound => (countIn symbol compound : Int))).length →
      (∀ x ∈ w, 1 ≤ x) →
      (sideHasKey compounds symbol = true →
        0 < dot w (compounds.map (fun compound => (countIn symbol compound : Int)))) ∧
      (sideHasKey compounds symbol = false →
        dot w (compounds.map (fun compound => (countIn symbol compound : Int))) = 0) := by
    intro compounds w hsub hwl hw
    constructor
    · intro hk
      obtain ⟨c, hc, hck⟩ := (sideHasKey_iff compounds symbol).1 hk
      apply dot_pos w _ hwl hw
      · intro e he
        simp only [List.mem_map] at he
        obtain ⟨c', _, rfl⟩ := he
        omega
      · refine ⟨(countIn symbol c : Int), List.mem_map.2 ⟨c, hc, rfl⟩, ?_⟩
        have := (countIn_of_countsPositive _ hcounts symbol c (by simpa using hsub c hc)).2 hck
        omega
    · intro hk
      apply dot_zero_row
      intro e he
      simp only [List.mem_map] at he
      obtain ⟨c', hc', rfl⟩ := he
      rw [countIn_of_not_key compounds symbol hk c' hc']
      rfl
  obtain ⟨hRpos, hRzero⟩ := side reactants (v.take reactants.length)
    (fun c hc => Or.inl hc) hl1 hposT
  obtain ⟨hPpos, hPzero⟩ := side products (v.drop reactants.length)
    (fun c hc => Or.inr hc) hl2 hposD
  cases hkr : sideHasKey reactants symbol <;> cases hkp : sideHasKey products symbol
  · rw [hkr, hkp] at hone; exact absurd rfl hone
  · have h1 := hRzero hkr
    have h2 := hPpos hkp
    omega
  · have h1 := hRpos hkr
    have h2 := hPzero hkp
    omega
  · rw [hkr, hkp] at hone; exact absurd rfl hone
/-- A symbol that is a key on a side is in the element list of both sides
together. -/
theorem mem_unionElements (reactants products : List (List Char)) (symbol : List Char)
    (hr : reactants ≠ [])
    (h : sideHasKey reactants symbol = true ∨ sideHasKey products symbol = true) :
    symbol ∈ unionElements reactants products := by
  have hne : sideCompositions (reactants ++ products) ≠ [] := by
    cases reactants with
    | nil => exact absurd rfl hr
    | cons a as => simp [sideCompositions]
  obtain ⟨_, hm⟩ := get_elements_spec _ hne
  unfold unionElements sideElements
  rw [hm symbol]
  have : sideHasKey (reactants ++ products) symbol = true := by
    rw [sideHasKey_iff]
    rcases h with h | h
    · obtain ⟨c, hc, hk⟩ := (sideHasKey_iff _ _).1 h
      exact ⟨c, by simp [hc], hk⟩
    · obtain ⟨c, hc, hk⟩ := (sideHasKey_iff _ _).1 h
      exact ⟨c, by simp [hc], hk⟩
  exact this

/-- C22 (as amended): whenever `balance_with_given_compounds` rejects reactant and
product lists with `ELEMENTS_MISMATCH`, and every count stored in the
composition of a compound is at least 1 and fits an `int`, the equation cannot
conserve mass under any coefficients: in the signed matrix built over the
element symbols of both sides together there is a row, that of a symbol present
on one side only, with which no vector of positive integers (one per compound)
has dot product zero. -/
theorem mismatch_cannot_conserve (s s' : State) (reactants products : List (List Char))
    (hrun : balance_with_given_compounds s reactants products =
      some (s', some .ELEMENTS_MISMATCH_BETWEEN_REACTANTS_AND_PRODUCTS))
    (hcounts : countsPositive (reactants ++ products)) :
    ∃ row ∈ signedMatrix (unionElements reactants products) reactants products,
      ∀ v : List Nat, v.length = reactants.length + products.length → (∀ x ∈ v, 1 ≤ x) →
        dot v row ≠ 0 := by
  unfold balance_with_given_compounds at hrun
  rw [balance_with_given_compounds_str_eq] at hrun
  by_cases h0 : (reactants.isEmpty || products.isEmpty) = true
  · rw [if_pos h0] at hrun; cases hrun
  rw [if_neg h0] at hrun
  have hr : reactants ≠ [] := by intro e; subst e; simp at h0
  have hp : products ≠ [] := by intro e; subst e; simp at h0
  by_cases h1 : (reactants.any List.isEmpty || products.any List.isEmpty) = true
  · rw [if_pos h1] at hrun; cases hrun
  rw [if_neg h1] at hrun
  by_cases h2 : sideElements reactants ≠ sideElements products
  swap
  · rw [if_neg h2] at hrun
    split_ifs at hrun <;> cases hrun
  have hkeys : ¬ ∀ symbol, sideHasKey reactants symbol = sideHasKey products symbol :=
    fun h => h2 ((sideElements_eq_iff reactants products hr hp).2 h)
  simp only [not_forall] at hkeys
  obtain ⟨symbol, hone⟩ := hkeys
  have hmem : symbol ∈ unionElements reactants products := by
    apply mem_unionElements reactants products symbol hr
    cases hkr : sideHasKey reactants symbol
    · cases hkp : sideHasKey products symbol
      · rw [hkr, hkp] at hone; exact absurd rfl hone
      · exact Or.inr rfl
    · exact Or.inl rfl
  refine ⟨_, List.mem_map.2 ⟨symbol, hmem, rfl⟩, ?_⟩
  intro v hlen hpos
  exact one_sided_row_dot_ne_zero reactants products symbol hcounts hone v hlen hpos

/-- C22 at `Na -> K`: the attempt is rejected with `ELEMENTS_MISMATCH`, the counts
are 1, the matrix over `K`, `Na` is `(0, -1), (1, 0)`, and a row has no zero dot
product with a vector of positive integers. -/
theorem mismatch_cannot_conserve_witness :
    signedMatrix (unionElements ["Na".toList] ["K".toList]) ["Na".toList] ["K".toList] =
      [[0, -1], [1, 0]] ∧
    ∃ row ∈ signedMatrix (unionElements ["Na".toList] ["K".toList]) ["Na".toList]
        ["K".toList],
      ∀ v : List Nat, v.length = ["Na".toList].length + ["K".toList].length →
        (∀ x ∈ v, 1 ≤ x) → dot v row ≠ 0 :=
  ⟨by decide,
   mismatch_cannot_conserve State.fresh
    { State.fresh with _reactants_and_products := (["Na".toList], ["K".toList]) }
    ["Na".toList] ["K".toList] (by decide) (by decide)⟩

/-- C22 as stated fails: the reactant `H0` and the product `O0` are rejected
with `ELEMENTS_MISMATCH`, their compositions hold the keys `H` and `O` with
count 0, the matrix over `H`, `O` has zero entries only, and every vector has
dot product zero with every row. -/
theorem mismatch_zero_count_counterexample :
    (balance_with_given_compounds State.fresh ["H0".toList] ["O0".toList]).map (fun r => r.2) =
      some (some .ELEMENTS_MISMATCH_BETWEEN_REACTANTS_AND_PRODUCTS) ∧
    _get_compound_composition "H0".toList = some [("H".toList, 0)] ∧
    _get_compound_composition "O0".toList = some [("O".toList, 0)] ∧
    signedMatrix (unionElements ["H0".toList] ["O0".toList]) ["H0".toList] ["O0".toList] =
      [[0, 0], [0, 0]] ∧
    (∀ a b : Nat, ∀ row ∈ signedMatrix (unionElements ["H0".toList] ["O0".toList])
      ["H0".toList] ["O0".toList], dot [a, b] row = 0) := by
  have hM : signedMatrix (unionElements ["H0".toList] ["O0".toList]) ["H0".toList]
      ["O0".toList] = [[0, 0], [0, 0]] := by decide
  refine ⟨by decide, by decide, by decide, hM, ?_⟩
  intro a b row hrow
  rw [hM] at hrow
  simp only [List.mem_cons, List.mem_singleton, List.not_mem_nil, or_false, or_self] at hrow
  subst hrow
  simp [dot]
/-! ### The kept vectors are primitive -/

theorem lexLt_trans : ∀ a b c : List Nat, lexLt a b = true → lexLt b c = true →
    lexLt a c = true
  | [], _, _, h, _ => by cases h
  | _ :: _, [], _, h, _ => by simp [lexLt] at h
  | _ :: _, _ :: _, [], _, h => by simp [lexLt] at h
  | x :: xs, y :: ys, z :: zs, h1, h2 => by
    simp only [lexLt, Bool.or_eq_true, Bool.and_eq_true, decide_eq_true_eq] at h1 h2 ⊢
    rcases h1 with h1 | ⟨e1, h1⟩
    · rcases h2 with h2 | ⟨e2, h2⟩
      · exact Or.inl (by omega)
      · exact Or.inl (by omega)
    · rcases h2 with h2 | ⟨e2, h2⟩
      · exact Or.inl (by omega)
      · exact Or.inr ⟨by omega, lexLt_trans xs ys zs h1 h2⟩

theorem pairwise_mem_cases {α : Type} (R : α → α → Prop) : ∀ (l : List α), l.Pairwise R →
    ∀ a b, a ∈ l → b ∈ l → a = b ∨ R a b ∨ R b a := by
  intro l
  induction l with
  | nil => intro _ a b ha; cases ha
  | cons x xs ih =>
    intro h a b ha hb
    have h' := List.pairwise_cons.1 h
    simp only [List.mem_cons] at ha hb
    rcases ha with rfl | ha
    · rcases hb with rfl | hb
      · exact Or.inl rfl
      · exact Or.inr (Or.inl (h'.1 b hb))
    · rcases hb with rfl | hb
      · exact Or.inr (Or.inr (h'.1 a ha))
      · exact ih h'.2 a b ha hb

/-- A vector of the raw list is kept by the filter, or a vector kept from the
part before it makes it dependent. -/
theorem filterLoop_covers (before after : List (List Nat)) (x : List Nat) :
    x ∈ filterLoop (before ++ x :: after) [] ∨
    ∃ w ∈ filterLoop (before ++ x :: after) [], w ∈ before ∧ _are_linear_dependent w x = true := by
  rw [filterLoop_append]
  simp only [filterLoop]
  obtain ⟨kept, hkept, he⟩ := filterLoop_sublist before []
  rw [List.nil_append] at he
  by_cases hdep : (filterLoop before []).any (fun c => _are_linear_dependent c x) = true
  · right
    obtain ⟨w, hw, hwx⟩ := List.any_eq_true.1 hdep
    obtain ⟨tail, _, he2⟩ := filterLoop_sublist after (filterLoop before [])
    simp only [hdep, Bool.not_true, Bool.false_eq_true, if_false]
    refine ⟨w, ?_, ?_, hwx⟩
    · rw [he2]; simp [hw]
    · rw [he] at hw; exact hkept.subset hw
  · left
    simp only [Bool.not_eq_true] at hdep
    obtain ⟨tail, _, he2⟩ := filterLoop_sublist after (filterLoop before [] ++ [x])
    simp only [hdep, Bool.not_false, if_true]
    rw [he2]
    simp

theorem crossAll_iff (n d : Nat) : ∀ (as bs : List Nat), as.length = bs.length →
    (crossAll n d as bs = true ↔ ∀ p ∈ as.zip bs, n * p.1 = p.2 * d) := by
  intro as
  induction as with
  | nil => intro bs _; cases bs <;> simp [crossAll]
  | cons a as ih =>
    intro bs h
    cases bs with
    | nil => simp at h
    | cons b bs =>
      simp only [List.length_cons, Nat.add_right_cancel_iff] at h
      simp only [crossAll, Bool.and_eq_true, decide_eq_true_eq, ih bs h, List.zip_cons_cons,
        List.mem_cons, forall_eq_or_imp]

/-- The test of `_are_linear_dependent` on two vectors of equal length with
entries in `[1, B]`, `B * B < 10^9`: the ratios of the entries all equal the
ratio of the first entries, stated by cross-multiplication. -/
theorem are_linear_dependent_eq_crossAll (B : Nat) (hB : B * B < 1000000000)
    (a0 b0 : Nat) (as bs : List Nat) (hlen : as.length = bs.length)
    (ha : ∀ x ∈ a0 :: as, 1 ≤ x ∧ x ≤ B) (hb : ∀ x ∈ b0 :: bs, 1 ≤ x ∧ x ≤ B) :
    _are_linear_dependent (a0 :: as) (b0 :: bs) = crossAll b0 a0 as bs := by
  have ha0 := ha a0 (by simp)
  have hane : a0 ≠ 0 := by omega
  have has : ∀ x ∈ as, 1 ≤ x ∧ x ≤ B := fun x hx => ha x (by simp [hx])
  have hbs : ∀ x ∈ bs, 1 ≤ x ∧ x ≤ B := fun x hx => hb x (by simp [hx])
  have e1 := dependentLoop_eq_crossAll B hB b0 a0 ha0.2 as bs has hbs
  unfold _are_linear_dependent
  rw [if_neg (by simp [hlen])]
  simp only [dependentLoop, ne_eq, hane, not_false_eq_true, if_true, Bool.not_false]
  exact e1
theorem dot_scale (k : Nat) : ∀ (u : List Nat) (row : List Int),
    dot (scale k u) row = (k : Int) * dot u row := by
  intro u
  induction u with
  | nil => intro row; simp [scale, dot]
  | cons c cs ih =>
    intro row
    cases row with
    | nil => simp [scale, dot]
    | cons e es =>
      have := ih es
      simp only [scale, List.map_cons, dot] at this ⊢
      rw [this]
      push_cast
      ring

theorem vectorGcd_dvd : ∀ (v : List Nat), ∀ x ∈ v, vectorGcd v ∣ x := by
  intro v
  induction v with
  | nil => intro x hx; cases hx
  | cons c cs ih =>
    intro x hx
    simp only [List.mem_cons] at hx
    simp only [vectorGcd, List.foldr_cons]
    rcases hx with rfl | hx
    · exact Nat.gcd_dvd_left _ _
    · exact Nat.dvd_trans (Nat.gcd_dvd_right _ _) (ih x hx)

theorem vectorGcd_scale (k : Nat) : ∀ (u : List Nat),
    vectorGcd (scale k u) = k * vectorGcd u := by
  intro u
  induction u with
  | nil => simp [vectorGcd, scale]
  | cons c cs ih =>
    simp only [vectorGcd, scale, List.map_cons, List.foldr_cons] at ih ⊢
    rw [ih, Nat.gcd_mul_left]

theorem scale_div (g : Nat) : ∀ (v : List Nat), (∀ x ∈ v, g ∣ x) →
    scale g (v.map (fun x => x / g)) = v := by
  intro v
  induction v with
  | nil => intro _; rfl
  | cons c cs ih =>
    intro h
    have := ih (fun x hx => h x (by simp [hx]))
    simp only [scale, List.map_cons, List.map_map] at this ⊢
    rw [this, Nat.mul_div_cancel' (h c (by simp))]

theorem crossAll_scale (k n d : Nat) : ∀ (as bs : List Nat),
    crossAll n d as bs = true → crossAll (k * n) d as (scale k bs) = true := by
  intro as
  induction as with
  | nil => intro bs _; cases bs <;> simp [crossAll, scale]
  | cons a as ih =>
    intro bs h
    cases bs with
    | nil => simp [crossAll, scale]
    | cons b bs =>
      simp only [crossAll, Bool.and_eq_true, decide_eq_true_eq] at h
      have := ih bs h.2
      simp only [scale, List.map_cons, crossAll, Bool.and_eq_true, decide_eq_true_eq] at this ⊢
      refine ⟨?_, this⟩
      rw [Nat.mul_assoc, h.1, Nat.mul_assoc]

theorem crossAll_refl (n : Nat) : ∀ (as : List Nat), crossAll n n as as = true := by
  intro as
  induction as with
  | nil => rfl
  | cons a as ih =>
    simp only [crossAll, Bool.and_eq_true, decide_eq_true_eq]
    exact ⟨Nat.mul_comm _ _, ih⟩

/-- A vector that makes `u` dependent makes every multiple of `u` dependent, and
`u` itself does; for vectors of equal length with entries in `[1, B]`,
`B * B < 10^9`. -/
theorem dependent_of_multiple (B : Nat) (hB : B * B < 1000000000) (k : Nat)
    (w u : List Nat) (hlen : w.length = u.length)
    (hw : ∀ x ∈ w, 1 ≤ x ∧ x ≤ B) (hu : ∀ x ∈ u, 1 ≤ x ∧ x ≤ B)
    (hv : ∀ x ∈ scale k u, 1 ≤ x ∧ x ≤ B) (hne : u ≠ []) :
    (_are_linear_dependent w u = true → _are_linear_dependent w (scale k u) = true) ∧
    _are_linear_dependent u (scale k u) = true := by
  cases u with
  | nil => exact absurd rfl hne
  | cons u0 us =>
    have hsl : us.length = (scale k us).length := by simp [scale]
    constructor
    · cases w with
      | nil => simp at hlen
      | cons w0 ws =>
        simp only [List.length_cons, Nat.add_right_cancel_iff] at hlen
        intro hdep
        rw [are_linear_dependent_eq_crossAll B hB w0 u0 ws us hlen hw hu] at hdep
        have e : scale k (u0 :: us) = (k * u0) :: scale k us := rfl
        rw [e] at hv ⊢
        rw [are_linear_dependent_eq_crossAll B hB w0 (k * u0) ws (scale k us)
          (by rw [hlen]; exact hsl) hw hv]
        exact crossAll_scale k u0 w0 ws us hdep
    · have e : scale k (u0 :: us) = (k * u0) :: scale k us := rfl
      rw [e] at hv ⊢
      rw [are_linear_dependent_eq_crossAll B hB u0 (k * u0) us (scale k us) hsl hu hv]
      exact crossAll_scale k u0 u0 us us (crossAll_refl u0 us)
/-- Where the solver's test is exact and the ratio test is exact, every vector
the filter keeps from the passing vectors of `[1, M]^n` has coprime entries:
the quotient of a vector by a common divisor passes too, comes earlier, and
makes the vector dependent. -/
theorem kept_primitive (M n : Nat) (hn : 0 < n) (hM : M * M < 1000000000)
    (matrix : List (List Int)) (hrange : withinIntRange matrix M) :
    ∀ v ∈ filterLoop ((allVectors M n).filter (balancedInt32 matrix)) [],
      vectorGcd v = 1 := by
  intro v hv
  have hsorted : ((allVectors M n).filter (balancedInt32 matrix)).Pairwise
      (fun a b => lexLt a b = true) := (pairwise_allVectors M n).filter _
  obtain ⟨tail, htail, he⟩ := filterLoop_sublist
    ((allVectors M n).filter (balancedInt32 matrix)) []
  rw [List.nil_append] at he
  have hsub : (filterLoop ((allVectors M n).filter (balancedInt32 matrix)) []).Sublist
      ((allVectors M n).filter (balancedInt32 matrix)) := by rw [he]; exact htail
  have hpw : (filterLoop ((allVectors M n).filter (balancedInt32 matrix)) []).Pairwise
      (fun a b => lexLt a b = true ∧ _are_linear_dependent a b = false) :=
    (hsorted.sublist hsub).and (filterLoop_pairwise _ [] List.Pairwise.nil)
  have hfound : ∀ w, w ∈ (allVectors M n).filter (balancedInt32 matrix) ↔
      inBox M n w ∧ balancedInt32 matrix w = true := by
    intro w; rw [List.mem_filter, mem_allVectors]
  have hbox : ∀ w ∈ filterLoop ((allVectors M n).filter (balancedInt32 matrix)) [],
      inBox M n w := fun w hw => ((hfound w).1 (hsub.subset hw)).1
  obtain ⟨hvbox, hvpass⟩ := (hfound v).1 (hsub.subset hv)
  by_contra hg
  obtain ⟨hvlen, hvent⟩ := hvbox
  cases v with
  | nil => simp only [List.length_nil] at hvlen; omega
  | cons v0 vs =>
    have hv0 := hvent v0 (by simp)
    have hdvd := vectorGcd_dvd (v0 :: vs)
    have hg1 : 1 ≤ vectorGcd (v0 :: vs) := by
      have := Nat.pos_of_dvd_of_pos (hdvd v0 (by simp)) (by omega)
      omega
    have hg2 : 2 ≤ vectorGcd (v0 :: vs) := by omega
    have hscale := scale_div (vectorGcd (v0 :: vs)) (v0 :: vs) hdvd
    have hubox : inBox M n ((v0 :: vs).map (fun x => x / vectorGcd (v0 :: vs))) := by
      refine ⟨by rw [List.length_map]; exact hvlen, ?_⟩
      intro x hx
      simp only [List.mem_map] at hx
      obtain ⟨y, hy, rfl⟩ := hx
      have hy1 := hvent y hy
      have hle : vectorGcd (v0 :: vs) ≤ y := Nat.le_of_dvd (by omega) (hdvd y hy)
      have h1 : 1 ≤ y / vectorGcd (v0 :: vs) := Nat.div_pos hle (by omega)
      have h2 : y / vectorGcd (v0 :: vs) ≤ y := Nat.div_le_self _ _
      omega
    have hupass : balancedInt32 matrix
        ((v0 :: vs).map (fun x => x / vectorGcd (v0 :: vs))) = true := by
      rw [balancedInt32_eq_exact matrix M n _ hrange hubox]
      rw [balancedInt32_eq_exact matrix M n _ hrange ⟨hvlen, hvent⟩] at hvpass
      simp only [balancedExact, List.all_eq_true, decide_eq_true_eq] at hvpass ⊢
      intro row hrow
      have h := hvpass row hrow
      rw [← hscale, dot_scale] at h
      have hk : ((vectorGcd (v0 :: vs) : Nat) : Int) ≠ 0 := by omega
      rcases Int.mul_eq_zero.1 h with h | h
      · exact absurd h hk
      · exact h
    have hlt : lexLt ((v0 :: vs).map (fun x => x / vectorGcd (v0 :: vs))) (v0 :: vs) = true := by
      have : v0 / vectorGcd (v0 :: vs) < v0 := Nat.div_lt_self (by omega) (by omega)
      simp [lexLt, this]
    have hu : ∀ x ∈ (v0 :: vs).map (fun x => x / vectorGcd (v0 :: vs)), 1 ≤ x ∧ x ≤ M :=
      hubox.2
    have hune : (v0 :: vs).map (fun x => x / vectorGcd (v0 :: vs)) ≠ [] := by simp
    have hvs : ∀ x ∈ scale (vectorGcd (v0 :: vs))
        ((v0 :: vs).map (fun x => x / vectorGcd (v0 :: vs))), 1 ≤ x ∧ x ≤ M := by
      rw [hscale]; exact hvent
    have hdepu := (dependent_of_multiple M hM (vectorGcd (v0 :: vs)) _ _ rfl hu hu hvs hune).2
    rw [hscale] at hdepu
    have humem := (hfound _).2 ⟨hubox, hupass⟩
    obtain ⟨before, after, hsplit⟩ := List.append_of_mem humem
    have hcov := filterLoop_covers before after
      ((v0 :: vs).map (fun x => x / vectorGcd (v0 :: vs)))
    rw [← hsplit] at hcov
    have hclose : ∀ w, w ∈ filterLoop ((allVectors M n).filter (balancedInt32 matrix)) [] →
        lexLt w (v0 :: vs) = true → _are_linear_dependent w (v0 :: vs) = true → False := by
      intro w hw hwlt hwdep
      rcases pairwise_mem_cases _ _ hpw w (v0 :: vs) hw hv with e | h | h
      · rw [e, lexLt_irrefl] at hwlt; cases hwlt
      · rw [h.2] at hwdep; cases hwdep
      · have := lexLt_asymm _ _ hwlt
        rw [h.1] at this; cases this
    rcases hcov with hin | ⟨w, hw, hwb, hwdep⟩
    · exact hclose _ hin hlt hdepu
    · have hwlt : lexLt w ((v0 :: vs).map (fun x => x / vectorGcd (v0 :: vs))) = true := by
        rw [hsplit] at hsorted
        exact (List.pairwise_append.1 hsorted).2.2 w hwb _ (by simp)
      have hwbox := hbox w hw
      have hwdep2 := (dependent_of_multiple M hM (vectorGcd (v0 :: vs)) w _
        (by rw [hwbox.1, hubox.1]) hwbox.2 hu hvs hune).1 hwdep
      rw [hscale] at hwdep2
      exact hclose w hw (lexLt_trans _ _ _ hwlt hlt) hwdep2
theorem scale_one (u : List Nat) : scale 1 u = u := by
  simp [scale]

/-- When every passing vector of `[1, M]^n` is a multiple of one vector `u`, and
there is one, the filter keeps `u` alone, and every passing vector is a
positive multiple of it. -/
theorem kept_single (M n : Nat) (hn : 0 < n) (hM : M * M < 1000000000)
    (matrix : List (List Int)) (hrange : withinIntRange matrix M) (u : List Nat)
    (hne : (allVectors M n).filter (balancedInt32 matrix) ≠ [])
    (hmult : ∀ v ∈ (allVectors M n).filter (balancedInt32 matrix), ∃ k, v = scale k u) :
    filterLoop ((allVectors M n).filter (balancedInt32 matrix)) [] = [u] ∧
    vectorGcd u = 1 ∧
    ∀ v ∈ (allVectors M n).filter (balancedInt32 matrix), ∃ k, 1 ≤ k ∧ v = scale k u := by
  have hprim := kept_primitive M n hn hM matrix hrange
  obtain ⟨tail, htail, he⟩ := filterLoop_sublist
    ((allVectors M n).filter (balancedInt32 matrix)) []
  rw [List.nil_append] at he
  have hsub : (filterLoop ((allVectors M n).filter (balancedInt32 matrix)) []).Sublist
      ((allVectors M n).filter (balancedInt32 matrix)) := by rw [he]; exact htail
  have hall : ∀ w ∈ filterLoop ((allVectors M n).filter (balancedInt32 matrix)) [], w = u := by
    intro w hw
    obtain ⟨k, hk⟩ := hmult w (hsub.subset hw)
    have hg := hprim w hw
    rw [hk, vectorGcd_scale] at hg
    have hk1 : k = 1 := Nat.eq_one_of_mul_eq_one_right hg
    rw [hk, hk1, scale_one]
  have hsorted : (filterLoop ((allVectors M n).filter (balancedInt32 matrix)) []).Pairwise
      (fun a b => lexLt a b = true) :=
    ((pairwise_allVectors M n).filter _).sublist hsub
  have hres : filterLoop ((allVectors M n).filter (balancedInt32 matrix)) [] = [u] := by
    cases hr : filterLoop ((allVectors M n).filter (balancedInt32 matrix)) [] with
    | nil => exact absurd ((filterLoop_eq_nil_iff _).1 hr) hne
    | cons a rest =>
      rw [hr] at hall hsorted
      have ha := hall a (by simp)
      cases rest with
      | nil => rw [ha]
      | cons b more =>
        have hb := hall b (by simp)
        have hlt := (List.pairwise_cons.1 hsorted).1 b (by simp)
        rw [ha, hb, lexLt_irrefl] at hlt
        cases hlt
  have hu : u ∈ filterLoop ((allVectors M n).filter (balancedInt32 matrix)) [] := by
    rw [hres]; simp
  refine ⟨hres, hprim u hu, ?_⟩
  intro v hv
  obtain ⟨k, hk⟩ := hmult v hv
  refine ⟨k, ?_, hk⟩
  have hvbox := (mem_allVectors M n v).1 (List.mem_filter.1 hv).1
  cases v with
  | nil => have := hvbox.1; simp only [List.length_nil] at this; omega
  | cons v0 vs =>
    have hv0 := hvbox.2 v0 (by simp)
    by_contra hk0
    have hkz : k = 0 := by omega
    subst hkz
    cases u with
    | nil => simp [scale] at hk
    | cons u0 us =>
      simp only [scale, List.map_cons, Nat.zero_mul, List.cons.injEq] at hk
      omega
/-- C24 (as amended): in multi-result mode, after `balance` on a balancer with an
empty solution set and a bound `M` below 30000, when no dot product of a vector
of `[1, M]^columns` with a row of the stored matrix can leave the range of
`int`, every vector kept in the solution set is primitive: the greatest common
divisor of its coefficients is 1. Hence, when the attempt succeeds and every
balanced vector in range is a multiple of one vector, the solution set is that
vector alone, it is primitive, and every balanced vector in range is a positive
multiple of it. -/
theorem balance_keeps_primitive (s : State) (hclear : s._results_coefs = [])
    (hmulti : s._multiple_results = true) (hM : s._max_coef < 30000)
    (equation : List Char) (s' : State) (err : Option BalanceError)
    (hrun : balance s equation = some (s', err))
    (hrange : withinIntRange s'._main_matrix s._max_coef) :
    (∀ v ∈ s'._results_coefs, vectorGcd v = 1) ∧
    (∀ u, err = none →
      (∀ v, inBox s._max_coef
          (s'._reactants_and_products.1.length + s'._reactants_and_products.2.length) v →
        balancedExact s'._main_matrix v = true → ∃ k, v = scale k u) →
      s'._results_coefs = [u] ∧ vectorGcd u = 1 ∧
      ∀ v, inBox s._max_coef
          (s'._reactants_and_products.1.length + s'._reactants_and_products.2.length) v →
        balancedExact s'._main_matrix v = true → ∃ k, 1 ≤ k ∧ v = scale k u) := by
  have hMM : s._max_coef * s._max_coef < 1000000000 := by
    have h1 : s._max_coef ≤ 29999 := by omega
    have := Nat.mul_le_mul h1 h1
    omega
  rw [balance_eq] at hrun
  by_cases c0 : ((_get_compounds_str equation).1.isEmpty ||
      (_get_compounds_str equation).2.isEmpty) = true
  · rw [if_pos c0] at hrun
    cases hrun
    exact ⟨(by intro v hv; rw [hclear] at hv; cases hv), (by intro u h; cases h)⟩
  rw [if_neg c0] at hrun
  have hr : (_get_compounds_str equation).1 ≠ [] := by
    intro e; rw [e] at c0; simp at c0
  have hn : 0 < (_get_compounds_str equation).1.length + (_get_compounds_str equation).2.length := by
    have := List.length_pos.2 hr
    omega
  by_cases c1 : ((_get_compounds_str equation).1.any List.isEmpty ||
      (_get_compounds_str equation).2.any List.isEmpty) = true
  · rw [if_pos c1] at hrun
    cases hrun
    exact ⟨(by intro v hv; rw [hclear] at hv; cases hv), (by intro u h; cases h)⟩
  rw [if_neg c1] at hrun
  by_cases c2 : sideElements (_get_compounds_str equation).1 ≠
      sideElements (_get_compounds_str equation).2
  · rw [if_pos c2] at hrun
    cases hrun
    exact ⟨(by intro v hv; rw [hclear] at hv; cases hv), (by intro u h; cases h)⟩
  rw [if_neg c2] at hrun
  by_cases c3 : sideElements (_get_compounds_str equation).1 = []
  · rw [if_pos c3] at hrun; cases hrun
  rw [if_neg c3] at hrun
  have hres : (stateAfterSolving s (_get_compounds_str equation).1
      (_get_compounds_str equation).2)._results_coefs =
      filterLoop ((allVectors s._max_coef ((_get_compounds_str equation).1.length +
        (_get_compounds_str equation).2.length)).filter
        (balancedInt32 (signedMatrix (sideElements (_get_compounds_str equation).1)
          (_get_compounds_str equation).1 (_get_compounds_str equation).2))) [] := by
    simp only [stateAfterSolving, hmulti, hclear, resultsAfter, if_true, List.nil_append]
  simp only [Option.some.injEq, Prod.mk.injEq] at hrun
  obtain ⟨hs', herr⟩ := hrun
  subst hs'
  have hrange' : withinIntRange (signedMatrix (sideElements (_get_compounds_str equation).1)
      (_get_compounds_str equation).1 (_get_compounds_str equation).2) s._max_coef := hrange
  constructor
  · intro v hv
    rw [hres] at hv
    exact kept_primitive _ _ hn hMM _ hrange' v hv
  · intro u hnone hmult
    have hne : (stateAfterSolving s (_get_compounds_str equation).1
        (_get_compounds_str equation).2)._results_coefs ≠ [] := by
      intro e
      rw [e] at herr
      rw [hnone] at herr
      simp at herr
    rw [hres] at hne
    have hfne := fun e => hne ((filterLoop_eq_nil_iff _).2 e)
    have hmem : ∀ v, v ∈ (allVectors s._max_coef ((_get_compounds_str equation).1.length +
        (_get_compounds_str equation).2.length)).filter
        (balancedInt32 (signedMatrix (sideElements (_get_compounds_str equation).1)
          (_get_compounds_str equation).1 (_get_compounds_str equation).2)) ↔
        (inBox s._max_coef ((_get_compounds_str equation).1.length +
          (_get_compounds_str equation).2.length) v ∧
        balancedExact (signedMatrix (sideElements (_get_compounds_str equation).1)
          (_get_compounds_str equation).1 (_get_compounds_str equation).2) v = true) := by
      intro v
      rw [List.mem_filter, mem_allVectors]
      constructor
      · rintro ⟨h1, h2⟩
        rw [balancedInt32_eq_exact _ _ _ v hrange' h1] at h2
        exact ⟨h1, h2⟩
      · rintro ⟨h1, h2⟩
        rw [← balancedInt32_eq_exact _ _ _ v hrange' h1] at h2
        exact ⟨h1, h2⟩
    obtain ⟨h1, h2, h3⟩ := kept_single _ _ hn hMM _ hrange' u hfne
      (fun v hv => hmult v ((hmem v).1 hv).1 ((hmem v).1 hv).2)
    refine ⟨(by rw [hres]; exact h1), h2, ?_⟩
    intro v hb hp
    exact h3 v ((hmem v).2 ⟨hb, hp⟩)
/-- C24 at `H2 + O2 -> H2O` with bound 2, which leaves `waterSolved`: the one
vector kept, `(2, 1, 2)`, has greatest common divisor 1. -/
theorem balance_keeps_primitive_witness :
    balance (set_max_coef State.fresh 2) "H2 + O2 -> H2O".toList = some (waterSolved, none) ∧
    waterSolved._results_coefs = [[2, 1, 2]] ∧ vectorGcd [2, 1, 2] = 1 ∧
    ∀ v ∈ waterSolved._results_coefs, vectorGcd v = 1 :=
  ⟨by decide, by decide, by decide,
   (balance_keeps_primitive (set_max_coef State.fresh 2) (by decide) (by decide) (by decide)
    "H2 + O2 -> H2O".toList waterSolved none (by decide) (by decide)).1⟩

/-- C24 as stated fails: in multi-result mode with bound 2, `H2147483647H -> H0`
has the stored matrix `(-2^31, 0)`, the count `2^31` of `H` converted to `int`;
the solver's sum in a 32-bit `int` is zero exactly for an even first
coefficient, the solution set is `(2, 1), (2, 2)`, and `(2, 2)` has greatest
common divisor 2. -/
theorem balance_keeps_nonprimitive_counterexample :
    (set_max_coef State.fresh 2)._multiple_results = true ∧
    (balance (set_max_coef State.fresh 2) "H2147483647H -> H0".toList).map
        (fun r => (r.2, r.1._results_coefs, r.1._main_matrix)) =
      some (none, [[2, 1], [2, 2]], [[-2147483648, 0]]) ∧
    vectorGcd [2, 2] = 2 ∧ ¬ withinIntRange [[-2147483648, 0]] 2 := by
  refine ⟨rfl, by decide, by decide, by decide⟩

end CBU_Balancer
